import Mathlib

/-!
Verification of the generic CRC engine (crcany): a shallow embedding of
the C sources (crc.c, crcdbl.c, model.c) over Nat, with machine words
modelled as natural numbers reduced mod 2^64 wherever the C code can
overflow, together with proofs of the specification's claims about the
engines, the combine machinery and the parameter-parsing helpers.
-/

/-- Number of bits in a word_t (uintmax_t on the usual 64-bit host). -/
def WORDBITS : Nat := 64

/-- Number of bytes in a word_t. -/
def WORDCHARS : Nat := 8

/-- Truncation of a C left shift on word_t: the result is reduced mod 2^64. -/
def shl64 (x n : Nat) : Nat := (x <<< n) % 2 ^ 64

/-- ONES(n) from model.h: mask of the low n bits, 1 <= n <= 64. -/
def ONES (n : Nat) : Nat := (2 ^ 64 - 1) >>> (64 - n)

/-- The full-word butterfly of reverse from model.c, that is, the value
reverse(x, WORDBITS) computes; split out so that the fallback branch of
reverse for n above WORDBITS need not recurse. -/
def reverse64 (x : Nat) : Nat :=
  let x := ((x >>> 32) &&& 0xffffffff) + ((x <<< 32) &&& 0xffffffff00000000)
  let x := ((x >>> 16) &&& 0xffff0000ffff) + ((x <<< 16) &&& 0xffff0000ffff0000)
  let x := ((x >>> 8) &&& 0xff00ff00ff00ff) + ((x <<< 8) &&& 0xff00ff00ff00ff00)
  let x := ((x >>> 4) &&& 0xf0f0f0f0f0f0f0f) + ((x <<< 4) &&& 0xf0f0f0f0f0f0f0f0)
  let x := ((x >>> 2) &&& 0x3333333333333333) + ((x <<< 2) &&& 0xcccccccccccccccc)
  let x := ((x >>> 1) &&& 0x5555555555555555) + ((x <<< 1) &&& 0xaaaaaaaaaaaaaaaa)
  x

/-- reverse from model.c: reversal of the low n bits of x by butterfly
swaps; for n above WORDBITS the source falls back to shifting the
reversal of the low word, that is, reverse64. -/
def reverse (x : Nat) (n : Nat) : Nat :=
  if n = 1 then x &&& 1
  else if n = 2 then ((x >>> 1) &&& 1) + ((x <<< 1) &&& 2)
  else if n ≤ 4 then
    let x := ((x >>> 2) &&& 3) + ((x <<< 2) &&& 0xc)
    let x := ((x >>> 1) &&& 5) + ((x <<< 1) &&& 0xa)
    x >>> (4 - n)
  else if n ≤ 8 then
    let x := ((x >>> 4) &&& 0xf) + ((x <<< 4) &&& 0xf0)
    let x := ((x >>> 2) &&& 0x33) + ((x <<< 2) &&& 0xcc)
    let x := ((x >>> 1) &&& 0x55) + ((x <<< 1) &&& 0xaa)
    x >>> (8 - n)
  else if n ≤ 16 then
    let x := ((x >>> 8) &&& 0xff) + ((x <<< 8) &&& 0xff00)
    let x := ((x >>> 4) &&& 0xf0f) + ((x <<< 4) &&& 0xf0f0)
    let x := ((x >>> 2) &&& 0x3333) + ((x <<< 2) &&& 0xcccc)
    let x := ((x >>> 1) &&& 0x5555) + ((x <<< 1) &&& 0xaaaa)
    x >>> (16 - n)
  else if n ≤ 32 then
    let x := ((x >>> 16) &&& 0xffff) + ((x <<< 16) &&& 0xffff0000)
    let x := ((x >>> 8) &&& 0xff00ff) + ((x <<< 8) &&& 0xff00ff00)
    let x := ((x >>> 4) &&& 0xf0f0f0f) + ((x <<< 4) &&& 0xf0f0f0f0)
    let x := ((x >>> 2) &&& 0x33333333) + ((x <<< 2) &&& 0xcccccccc)
    let x := ((x >>> 1) &&& 0x55555555) + ((x <<< 1) &&& 0xaaaaaaaa)
    x >>> (32 - n)
  else if n ≤ 64 then
    reverse64 x >>> (64 - n)
  else if n < 2 * WORDBITS then shl64 (reverse64 x) (n - WORDBITS)
  else 0

/-- reverse_dbl from model.c: reversal of the low n bits of the pair
hi:lo, returned as the pair (hi, lo), 1 <= n <= 128. -/
def reverse_dbl (hi lo : Nat) (n : Nat) : Nat × Nat :=
  if n ≤ WORDBITS then (0, reverse lo n)
  else
    let tmp := reverse lo WORDBITS
    let lo2 := reverse hi (n - WORDBITS)
    if n < WORDBITS * 2 then
      (tmp >>> (WORDBITS * 2 - n), lo2 ||| shl64 tmp (n - WORDBITS))
    else (tmp, lo2)

/-- The CRC model record from model.h, after parsing. The byte-wise and
word-wise tables are modelled as total functions from indices to table
contents; table_comb, cycle and back are the combine-table state. -/
structure model_t where
  width : Nat
  ref : Bool
  rev : Bool
  poly : Nat
  poly_hi : Nat
  init : Nat
  init_hi : Nat
  xorout : Nat
  xorout_hi : Nat
  table_byte : Nat → Nat
  table_word : Nat → Nat → Nat
  table_comb : List Nat
  cycle : Nat
  back : Int

/-- process_model from model.c: reflect poly when ref, reflect init when
rev, fold xorout into init, and turn rev into the extra-output-reversal
flag (rev xor ref). -/
def process_model (m : model_t) : model_t :=
  let p := if m.ref then reverse_dbl m.poly_hi m.poly m.width else (m.poly_hi, m.poly)
  let i := if m.rev then reverse_dbl m.init_hi m.init m.width else (m.init_hi, m.init)
  { m with
    poly := p.2, poly_hi := p.1,
    init := i.2 ^^^ m.xorout, init_hi := i.1 ^^^ m.xorout_hi,
    rev := m.rev ^^ m.ref }

/-- One bit step of the reflected register: crc = crc & 1 ? (crc >> 1) ^ poly : crc >> 1. -/
def bitStepR (poly c : Nat) : Nat :=
  if c &&& 1 ≠ 0 then (c >>> 1) ^^^ poly else c >>> 1

/-- One bit step of the non-reflected register: crc = crc & mask ? (crc << 1) ^ poly : crc << 1,
with the shift truncated to 64 bits as in C. -/
def bitStepN (mask poly c : Nat) : Nat :=
  if c &&& mask ≠ 0 then shl64 c 1 ^^^ poly else shl64 c 1

/-- One input byte of the reflected bit-wise loop in crc_bitwise. -/
def byteStepR (poly c b : Nat) : Nat := (bitStepR poly)^[8] (c ^^^ b)

/-- One input byte of the non-reflected width <= 8 bit-wise loop in
crc_bitwise (register pre-shifted into the top of 8 bits). -/
def byteStepS (poly c b : Nat) : Nat := (bitStepN 0x80 poly)^[8] (c ^^^ b)

/-- One input byte of the non-reflected width > 8 bit-wise loop in
crc_bitwise. -/
def byteStepN (mask poly shift c b : Nat) : Nat :=
  (bitStepN mask poly)^[8] (c ^^^ shl64 b shift)

/-- crc_bitwise from crc.c. The data pointer is an optional byte list;
a null pointer is none, and len is the length of the list. -/
def crc_bitwise (m : model_t) (crc : Nat) (dat : Option (List Nat)) : Nat :=
  match dat with
  | none => m.init
  | some buf =>
    let poly := m.poly
    let crc := crc ^^^ m.xorout
    let crc := if m.rev then reverse crc m.width else crc
    let crc :=
      if m.ref then
        buf.foldl (byteStepR poly) (crc &&& ONES m.width)
      else if m.width ≤ 8 then
        let shift := 8 - m.width
        let poly := shl64 poly shift
        let crc := shl64 crc shift
        ((buf.foldl (byteStepS poly) crc) >>> shift) &&& ONES m.width
      else
        let mask := shl64 1 (m.width - 1)
        let shift := m.width - 8
        (buf.foldl (byteStepN mask poly shift) crc) &&& ONES m.width
    let crc := if m.rev then reverse crc m.width else crc
    crc ^^^ m.xorout

/-- crc_table_bytewise from crc.c: the byte-wise table, one entry per
byte value, computed through crc_bitwise with the reverse and the
width < 8 pre-shift undone as in the source. -/
def crc_table_bytewise (m : model_t) : model_t :=
  { m with table_byte := fun k =>
      let crc := crc_bitwise m 0 (some [k])
      let crc := if m.rev then reverse crc m.width else crc
      if m.width < 8 ∧ m.ref = false then shl64 crc (8 - m.width) else crc }

/-- swaplow from crc.c: swap the low n bytes of x, discarding the rest. -/
def swaplow (x : Nat) (n : Nat) : Nat :=
  match n with
  | 0 => 0
  | n + 1 => swaplowGo x (x &&& 0xff) n
where
  /-- The while loop of swaplow, decrementing n before each body. -/
  swaplowGo (x y : Nat) : Nat → Nat
  | 0 => y
  | k + 1 => swaplowGo (x >>> 8) (shl64 y 8 ||| ((x >>> 8) &&& 0xff)) k

/-- swap from crc.c: swap the bytes of a word_t. -/
def swap (x : Nat) : Nat := swaplow x WORDCHARS

/-- The table-driven one-byte step shared by the word-wise table builder
(applied there with a zero byte), the byte-wise engine and the word-wise
prologue and tail, in the reflected case. -/
def tblStepR (tb : Nat → Nat) (c b : Nat) : Nat :=
  (c >>> 8) ^^^ tb ((c ^^^ b) &&& 0xff)

/-- The table-driven one-byte step for non-reflected width > 8. -/
def tblStepN (tb : Nat → Nat) (shift c b : Nat) : Nat :=
  shl64 c 8 ^^^ tb (((c >>> shift) ^^^ b) &&& 0xff)

/-- crc_table_wordwise from crc.c: the word-wise slice tables. Entry
(n, k) is the register contents after byte k followed by n zero bytes,
shifted to the top for non-reflected models and byte-swapped when the
endianness is opposite to the reflection. -/
def crc_table_wordwise (m : model_t) (little : Bool) (word_bits : Nat) : model_t :=
  let opp := little ^^ m.ref
  let top := if m.ref then 0 else word_bits - (if m.width > 8 then m.width else 8)
  let xr := if m.width < 8 ∧ m.ref = false then shl64 m.xorout (8 - m.width) else m.xorout
  let word_bytes := word_bits >>> 3
  let step : Nat → Nat := fun crc =>
    let crc := crc ^^^ xr
    let crc :=
      if m.ref then (crc >>> 8) ^^^ m.table_byte (crc &&& 0xff)
      else if m.width ≤ 8 then m.table_byte crc
      else (shl64 crc 8 ^^^ m.table_byte ((crc >>> (m.width - 8)) &&& 0xff)) &&& ONES m.width
    crc ^^^ xr
  { m with table_word := fun n k =>
      let crc := step^[n] (m.table_byte k)
      if opp then swaplow (shl64 crc top) word_bytes else shl64 crc top }

/-- The value loaded by one aligned word_t read in crc_wordwise: the
eight bytes assembled according to the endianness of the host. -/
def loadWord (little : Bool) (b0 b1 b2 b3 b4 b5 b6 b7 : Nat) : Nat :=
  if little then
    b0 ||| (b1 <<< 8) ||| (b2 <<< 16) ||| (b3 <<< 24) ||| (b4 <<< 32) |||
      (b5 <<< 40) ||| (b6 <<< 48) ||| (b7 <<< 56)
  else
    b7 ||| (b6 <<< 8) ||| (b5 <<< 16) ||| (b4 <<< 24) ||| (b3 <<< 32) |||
      (b2 <<< 40) ||| (b1 <<< 48) ||| (b0 <<< 56)

/-- The alignment prologue of crc_wordwise: consume bytes with the given
one-byte step while data remains and the address is not a multiple of
WORDCHARS; returns the address, register and data after the loop. -/
def wwProlog (step : Nat → Nat → Nat) (addr c : Nat) : List Nat → Nat × Nat × List Nat
  | [] => (addr, c, [])
  | b :: rest =>
    if addr &&& (WORDCHARS - 1) = 0 then (addr, c, b :: rest)
    else wwProlog step (addr + 1) (step c b) rest

/-- The inner word loop of crc_wordwise on a little-endian host: as long
as at least WORDCHARS bytes remain, xor one loaded word into the
register and fold the slice tables from high index to low. -/
def wwLoopLittle (tw : Nat → Nat → Nat) (little : Bool) (c : Nat) :
    List Nat → Nat × List Nat
  | b0 :: b1 :: b2 :: b3 :: b4 :: b5 :: b6 :: b7 :: rest =>
    let c := c ^^^ loadWord little b0 b1 b2 b3 b4 b5 b6 b7
    let c := tw (WORDCHARS - 1) (c &&& 0xff) ^^^
             tw (WORDCHARS - 2) ((c >>> 8) &&& 0xff) ^^^
             tw (WORDCHARS - 3) ((c >>> 16) &&& 0xff) ^^^
             tw (WORDCHARS - 4) ((c >>> 24) &&& 0xff) ^^^
             tw (WORDCHARS - 5) ((c >>> 32) &&& 0xff) ^^^
             tw (WORDCHARS - 6) ((c >>> 40) &&& 0xff) ^^^
             tw (WORDCHARS - 7) ((c >>> 48) &&& 0xff) ^^^
             tw (WORDCHARS - 8) (c >>> 56)
    wwLoopLittle tw little c rest
  | rest => (c, rest)

/-- The inner word loop of crc_wordwise on a big-endian host: the slice
tables are folded from low index to high. -/
def wwLoopBig (tw : Nat → Nat → Nat) (little : Bool) (c : Nat) :
    List Nat → Nat × List Nat
  | b0 :: b1 :: b2 :: b3 :: b4 :: b5 :: b6 :: b7 :: rest =>
    let c := c ^^^ loadWord little b0 b1 b2 b3 b4 b5 b6 b7
    let c := tw 0 (c &&& 0xff) ^^^
             tw 1 ((c >>> 8) &&& 0xff) ^^^
             tw 2 ((c >>> 16) &&& 0xff) ^^^
             tw 3 ((c >>> 24) &&& 0xff) ^^^
             tw 4 ((c >>> 32) &&& 0xff) ^^^
             tw 5 ((c >>> 40) &&& 0xff) ^^^
             tw 6 ((c >>> 48) &&& 0xff) ^^^
             tw 7 (c >>> 56)
    wwLoopBig tw little c rest
  | rest => (c, rest)

/-- crc_wordwise from crc.c. little is the endianness the host reveals
through the byte peek in the source; addr is the byte address of the
start of the data, driving the alignment prologue. -/
def crc_wordwise (m : model_t) (little : Bool) (addr : Nat) (crc : Nat)
    (dat : Option (List Nat)) : Nat :=
  match dat with
  | none => m.init
  | some buf =>
    let top := if m.ref then 0 else WORDBITS - (if m.width > 8 then m.width else 8)
    let shift := if m.width ≤ 8 then 8 - m.width else m.width - 8
    let crc := if m.rev then reverse crc m.width else crc
    -- alignment prologue, one byte at a time
    let pr :=
      if m.ref then
        wwProlog (fun c b => tblStepR m.table_byte c b) addr (crc &&& ONES m.width) buf
      else if m.width ≤ 8 then
        wwProlog (fun c b => m.table_byte ((c ^^^ b) &&& 0xff)) addr (shl64 crc shift) buf
      else
        wwProlog (fun c b => tblStepN m.table_byte shift c b) addr crc buf
    let crc := pr.2.1
    let buf := pr.2.2
    -- word loop over the aligned middle
    let mid :=
      if WORDCHARS ≤ buf.length then
        let c := shl64 crc top
        if little then
          let c := if m.ref = false then swap c else c
          let r := wwLoopLittle m.table_word little c buf
          let c := if m.ref = false then swap r.1 else r.1
          (c >>> top, r.2)
        else
          let c := if m.ref then swap c else c
          let r := wwLoopBig m.table_word little c buf
          let c := if m.ref then swap r.1 else r.1
          (c >>> top, r.2)
      else (crc, buf)
    let crc := mid.1
    let buf := mid.2
    -- tail, one byte at a time
    let crc :=
      if m.ref then
        buf.foldl (tblStepR m.table_byte) crc
      else if m.width ≤ 8 then
        (buf.foldl (fun c b => m.table_byte ((c ^^^ b) &&& 0xff)) crc) >>> shift
      else
        (buf.foldl (tblStepN m.table_byte shift) crc) &&& ONES m.width
    let crc := if m.rev then reverse crc m.width else crc
    crc

/-- crc_bytewise from crc.c: the byte-wise table-driven engine. -/
def crc_bytewise (m : model_t) (crc : Nat) (dat : Option (List Nat)) : Nat :=
  match dat with
  | none => m.init
  | some buf =>
    let crc := if m.rev then reverse crc m.width else crc
    let crc :=
      if m.ref then
        buf.foldl (tblStepR m.table_byte) (crc &&& ONES m.width)
      else if m.width ≤ 8 then
        let shift := 8 - m.width
        (buf.foldl (fun c b => m.table_byte (c ^^^ b)) (shl64 crc shift)) >>> shift
      else
        let shift := m.width - 8
        (buf.foldl (tblStepN m.table_byte shift) crc) &&& ONES m.width
    let crc := if m.rev then reverse crc m.width else crc
    crc

/-- The SHL macro from crcdbl.c: shift the pair (hi, lo) left n bits,
0 <= n < WORDBITS, each word truncated as in C. -/
def SHL (ah al n : Nat) : Nat × Nat :=
  if n = 0 then (ah, al)
  else (shl64 ah n ||| (al >>> (WORDBITS - n)), shl64 al n)

/-- The SHR macro from crcdbl.c: shift the pair (hi, lo) right n bits. -/
def SHR (ah al n : Nat) : Nat × Nat :=
  if n = 0 then (ah, al)
  else ((ah >>> n), (al >>> n) ||| shl64 ah (WORDBITS - n))

/-- The BIGREF macro from crcdbl.c: one bit of a reflected double CRC. -/
def BIGREF (poly_hi poly_lo : Nat) (p : Nat × Nat) : Nat × Nat :=
  let tmp := p.2 &&& 1
  let lo := (p.2 >>> 1) ||| shl64 p.1 (WORDBITS - 1)
  let hi := p.1 >>> 1
  if tmp ≠ 0 then (hi ^^^ poly_hi, lo ^^^ poly_lo) else (hi, lo)

/-- The BIGCROSS and BIGNORM macros from crcdbl.c: one bit of a
non-reflected double CRC, testing the given mask bit of the high word
(0x80 for the crossing variant). -/
def BIGCROSS (mask poly_hi poly_lo : Nat) (p : Nat × Nat) : Nat × Nat :=
  let tmp := p.1 &&& mask
  let hi := shl64 p.1 1 ||| (p.2 >>> (WORDBITS - 1))
  let lo := shl64 p.2 1
  if tmp ≠ 0 then (hi ^^^ poly_hi, lo ^^^ poly_lo) else (hi, lo)

/-- crc_bitwise_dbl from crcdbl.c, returning the pair (hi, lo) that the
source stores through its output pointers. -/
def crc_bitwise_dbl (m : model_t) (crc_hi crc_lo : Nat)
    (dat : Option (List Nat)) : Nat × Nat :=
  let poly_lo := m.poly
  let poly_hi := m.poly_hi
  if m.width ≤ WORDBITS then (0, crc_bitwise m crc_lo dat)
  else match dat with
  | none => (m.init_hi, m.init)
  | some buf =>
    let lo := crc_lo ^^^ m.xorout
    let hi := crc_hi ^^^ m.xorout_hi
    let p := if m.rev then reverse_dbl hi lo m.width else (hi, lo)
    let p :=
      if m.ref then
        buf.foldl (fun q b => (BIGREF poly_hi poly_lo)^[8] (q.1, q.2 ^^^ b))
          (p.1 &&& ONES (m.width - WORDBITS), p.2)
      else if m.width - WORDBITS ≤ 8 then
        let shift := 8 - (m.width - WORDBITS)
        let pl := SHL poly_hi poly_lo shift
        let p := SHL p.1 p.2 shift
        let p := buf.foldl (fun q b => (BIGCROSS 0x80 pl.1 pl.2)^[8] (q.1 ^^^ b, q.2)) p
        let p := SHR p.1 p.2 shift
        (p.1 &&& ONES (m.width - WORDBITS), p.2)
      else
        let mask := shl64 1 (m.width - WORDBITS - 1)
        let shift := m.width - WORDBITS - 8
        let p := buf.foldl
          (fun q b => (BIGCROSS mask poly_hi poly_lo)^[8] (q.1 ^^^ shl64 b shift, q.2)) p
        (p.1 &&& ONES (m.width - WORDBITS), p.2)
    let p := if m.rev then reverse_dbl p.1 p.2 m.width else p
    (p.1 ^^^ m.xorout_hi, p.2 ^^^ m.xorout)

/-- The reflected loop of multmodp from crc.c, with fuel making the
unbounded C for loop a total function; none models non-termination. -/
def multmodpR (poly top : Nat) : Nat → Nat → Nat → Nat → Option Nat
  | 0, _, _, _ => none
  | fuel + 1, a, b, prod =>
    if a &&& top ≠ 0 then
      if a &&& (top - 1) = 0 then some (prod ^^^ b)
      else multmodpR poly top fuel (shl64 a 1) (bitStepR poly b) (prod ^^^ b)
    else multmodpR poly top fuel (shl64 a 1) (bitStepR poly b) prod

/-- The non-reflected loop of multmodp from crc.c. -/
def multmodpN (poly top : Nat) : Nat → Nat → Nat → Nat → Option Nat
  | 0, _, _, _ => none
  | fuel + 1, a, b, prod =>
    if a &&& 1 ≠ 0 then
      if a = 1 then some (prod ^^^ b)
      else multmodpN poly top fuel (a >>> 1) (bitStepN top poly b) (prod ^^^ b)
    else multmodpN poly top fuel (a >>> 1) (bitStepN top poly b) prod

/-- multmodp from crc.c: product of a and b modulo the CRC polynomial,
in the representation selected by ref. The C loop runs forever when a
is zero; that case is none here. -/
def multmodp (m : model_t) (a b : Nat) : Option Nat :=
  let top := shl64 1 (m.width - 1)
  if m.ref then multmodpR m.poly top 128 a b 0
  else (multmodpN m.poly top 128 a b 0).map
    (fun prod => prod &&& ((shl64 top 1 + (2 ^ 64 - 1)) % 2 ^ 64))

/-- The squaring loop of crc_table_combine from crc.c, carried out on
the list of entries built so far; fuel counts the remaining free table
slots. -/
def combGo (m : model_t) (sq : Nat) (tbl : List Nat) : Nat → Option model_t
  | 0 => some { m with table_comb := tbl, cycle := tbl.length, back := -1 }
  | fuel + 1 =>
    match multmodp m sq sq with
    | none => none
    | some sq2 =>
      if sq2 ∈ tbl then
        some { m with table_comb := tbl, cycle := tbl.length,
                      back := (tbl.indexOf sq2 : Int) }
      else combGo m sq2 (tbl ++ [sq2]) fuel

/-- crc_table_combine from crc.c. The bound nmax is the number of
entries of the table_comb array; the array bound is declared in a
header revision not present in the sources, so it is kept as an
explicit argument here and the claims hold for every bound. -/
def crc_table_combine (m : model_t) (nmax : Nat) : Option model_t :=
  let sq := if m.ref then shl64 1 (m.width - 2) else 2
  combGo m sq [sq] (nmax - 1)

/-- The starting index of the table walk in x8nmodp from crc.c. -/
def x8n_start (m : model_t) : Int :=
  if m.cycle > 3 then 3 else if m.cycle = 3 then m.back else (m.cycle : Int) - 1

/-- Read entry k of table_comb; a negative or out-of-range index is the
array overrun the C source would commit, hence none. -/
def tcGet (m : model_t) (k : Int) : Option Nat :=
  if k < 0 ∨ (m.table_comb.length : Int) ≤ k then none
  else some (m.table_comb.getD k.toNat 0)

/-- The walk of x8nmodp from crc.c over the bits of n; a failed assert
(cycling back with back equal to -1) is none. -/
def x8nGo (m : model_t) : Nat → Int → Nat → Nat → Option Nat
  | 0, _, _, _ => none
  | fuel + 1, k, xp, n => do
    let xp ← if n &&& 1 ≠ 0 then do
        let t ← tcGet m k
        multmodp m t xp
      else some xp
    let n2 := n >>> 1
    if n2 = 0 then some xp
    else if k + 1 = (m.cycle : Int) then
      if m.back = -1 then none else x8nGo m fuel m.back xp n2
    else x8nGo m fuel (k + 1) xp n2

/-- x8nmodp from crc.c: x to the power 8n modulo the CRC polynomial. -/
def x8nmodp (m : model_t) (n : Nat) : Option Nat :=
  let xp := if m.ref then shl64 1 (m.width - 1) else 1
  x8nGo m 64 (x8n_start m) xp n

/-- crc_combine from crc.c. -/
def crc_combine (m : model_t) (crc1 crc2 : Nat) (len2 : Nat) : Option Nat := do
  let crc1 := crc1 ^^^ m.init
  let crc1 := if m.rev then reverse crc1 m.width else crc1
  let crc2 := if m.rev then reverse crc2 m.width else crc2
  let z ← x8nmodp m len2
  let p ← multmodp m z crc1
  let crc := p ^^^ crc2
  if m.rev then pure (reverse crc m.width) else pure crc

/-- The SHLO macro from model.c: shift a double word left by n bits,
with none for the overflow case that makes the enclosing function
return NULL. -/
def SHLO (ah al n : Nat) : Option (Nat × Nat) :=
  if ah >>> (WORDBITS - n) ≠ 0 then none
  else some (shl64 ah n ||| (al >>> (WORDBITS - n)), shl64 al n)

/-- The ADDO macro from model.c: add two double words with the same
overflow convention. -/
def ADDO (rh rl ah al : Nat) : Option (Nat × Nat) :=
  let rh2 := (rh + ah) % 2 ^ 64
  if rh2 < rh then none
  else
    let rl2 := (rl + al) % 2 ^ 64
    if rl2 < rl then
      if (rh2 + 1) % 2 ^ 64 = 0 then none else some ((rh2 + 1) % 2 ^ 64, rl2)
    else some (rh2, rl2)

/-- The octal digit loop of strtobig from model.c. -/
def octLoop : List Char → Nat → Nat → Option (Nat × Nat × List Char)
  | [], nh, nl => some (nh, nl, [])
  | c :: s, nh, nl =>
    if '0' ≤ c ∧ c ≤ '7' then do
      let k := c.toNat - '0'.toNat
      let p ← SHLO nh nl 3
      octLoop s p.1 (p.2 ||| k)
    else some (nh, nl, c :: s)

/-- The decimal digit loop of strtobig from model.c: n = n * 10 + k by
shift, shift and two checked adds. -/
def decLoop : List Char → Nat → Nat → Option (Nat × Nat × List Char)
  | [], nh, nl => some (nh, nl, [])
  | c :: s, nh, nl =>
    if '0' ≤ c ∧ c ≤ '9' then do
      let k := c.toNat - '0'.toNat
      let p ← SHLO nh nl 1
      let t ← SHLO p.1 p.2 2
      let q ← ADDO p.1 p.2 t.1 t.2
      let r ← ADDO q.1 q.2 0 k
      decLoop s r.1 r.2
    else some (nh, nl, c :: s)

/-- The hexadecimal digit loop of strtobig from model.c. -/
def hexLoop : List Char → Nat → Nat → Option (Nat × Nat × List Char)
  | [], nh, nl => some (nh, nl, [])
  | c :: s, nh, nl =>
    let k :=
      if '0' ≤ c ∧ c ≤ '9' then c.toNat - '0'.toNat
      else if 'A' ≤ c ∧ c ≤ 'F' then c.toNat - 'A'.toNat + 10
      else if 'a' ≤ c ∧ c ≤ 'f' then c.toNat - 'a'.toNat + 10
      else 16
    if k ≠ 16 then do
      let p ← SHLO nh nl 4
      hexLoop s p.1 (p.2 ||| k)
    else some (nh, nl, c :: s)

/-- The body of strtobig from model.c up to the point where the C code
stores through its output pointers: sign, base prefix, digit loop and
negation, all on the local double word; none is the NULL return. -/
def strtobigCore (str : List Char) : Option (Nat × Nat × List Char) :=
  let neg : Bool × List Char :=
    match str with
    | '-' :: rest => (true, rest)
    | _ => (false, str)
  let base : Nat × List Char :=
    match neg.2 with
    | '0' :: 'x' :: r2 => (16, r2)
    | '0' :: 'X' :: r2 => (16, r2)
    | '0' :: rest => (8, rest)
    | s => (10, s)
  let acc :=
    match base.1 with
    | 8 => octLoop base.2 0 0
    | 10 => decLoop base.2 0 0
    | _ => hexLoop base.2 0 0
  match acc with
  | none => none
  | some (nh, nl, rest) =>
    let r : Nat × Nat :=
      if neg.1 then
        let nl2 := ((2 ^ 64 - 1) - nl + 1) % 2 ^ 64
        (((2 ^ 64 - 1) - nh + (if nl2 = 0 then 1 else 0)) % 2 ^ 64, nl2)
      else (nh, nl)
    some (r.1, r.2, rest)

/-- strtobig from model.c. The result models the triple (return value,
final contents of the high word, final contents of the low word); the
C function stores through its two output pointers only after the digit
loops have run without overflow. -/
def strtobig (str : List Char) (high low : Nat) :
    Option (List Char) × Nat × Nat :=
  match strtobigCore str with
  | none => (none, high, low)
  | some (nh, nl, rest) => (some rest, nh, nl)

/-- One butterfly stage: swap the s-bit blocks selected by mask m with
their neighbours. Every stage of reverse from model.c has this form. -/
def swp (s m x : Nat) : Nat := ((x >>> s) &&& m) + ((x <<< s) &&& (m <<< s))

/-- The canonical stage masks: bit j of m is set exactly when j < W and
bit k of the index j is clear. -/
def StageMask (m W k : Nat) : Prop :=
  ∀ j, m.testBit j = (decide (j < W) && !(j.testBit k))

/-! ### The butterfly chains of reverse, by size -/

/-- The butterfly chain of the n = 2 branch of reverse. -/
def revN2 (x : Nat) : Nat := swp 1 1 x

/-- The butterfly chain of the n <= 4 branch of reverse. -/
def revN4 (x : Nat) : Nat := swp 1 5 (swp 2 3 x)

/-- The butterfly chain of the n <= 8 branch of reverse. -/
def revN8 (x : Nat) : Nat := swp 1 0x55 (swp 2 0x33 (swp 4 0xf x))

/-- The butterfly chain of the n <= 16 branch of reverse. -/
def revN16 (x : Nat) : Nat :=
  swp 1 0x5555 (swp 2 0x3333 (swp 4 0xf0f (swp 8 0xff x)))

/-- The butterfly chain of the n <= 32 branch of reverse. -/
def revN32 (x : Nat) : Nat :=
  swp 1 0x55555555 (swp 2 0x33333333 (swp 4 0xf0f0f0f
    (swp 8 0xff00ff (swp 16 0xffff x))))

/-- The butterfly chain of the n <= 64 branch of reverse. -/
def revN64 (x : Nat) : Nat :=
  swp 1 0x5555555555555555 (swp 2 0x3333333333333333 (swp 4 0xf0f0f0f0f0f0f0f
    (swp 8 0xff00ff00ff00ff (swp 16 0xffff0000ffff (swp 32 0xffffffff x)))))

/-- A small concrete model for witnesses: width 3, polynomial
x^3 + x + 1, not reflected, zero init and xorout, empty tables. -/
def mW3 : model_t :=
  { width := 3, ref := false, rev := false, poly := 3, poly_hi := 0,
    init := 0, init_hi := 0, xorout := 0, xorout_hi := 0,
    table_byte := fun _ => 0, table_word := fun _ _ => 0,
    table_comb := [], cycle := 0, back := 0 }

/-- The width-3 model after process_model. -/
def mW3n : model_t := process_model mW3

/-- The width-3 model after crc_table_combine: the squaring sequence is
x, x^2, x^2 + x and then returns to x, so cycle is 3 and back is 0. -/
def mW3c : model_t :=
  { mW3n with table_comb := [2, 4, 6], cycle := 3, back := 0 }

/-- A digit string whose value 2^128 overflows the double word. -/
def hexOverflowStr : List Char := '0' :: 'x' :: '1' :: List.replicate 32 '0'

/-- A model with refin true and refout false (so the normalised rev flag
is set) and a nonzero xorout, as the catalogue format allows; the model
that exhibits the divergence of crc_wordwise. -/
def mBugP : model_t := process_model
  { width := 16, ref := true, rev := false, poly := 0x1021, poly_hi := 0,
    init := 0x1d0f, init_hi := 0, xorout := 0xabcd, xorout_hi := 0,
    table_byte := fun _ => 0, table_word := fun _ _ => 0,
    table_comb := [], cycle := 0, back := 0 }

/-- The same model with its byte-wise and word-wise tables built for a
little-endian host. -/
def mBugT : model_t := crc_table_wordwise (crc_table_bytewise mBugP) true 64

/-- Eight data bytes at a word-aligned address. -/
def dBug8 : List Nat := [0, 1, 2, 3, 4, 5, 6, 7]

/-- Sixteen data bytes at a word-aligned address. -/
def dBug16 : List Nat := [0, 1, 2, 3, 4, 5, 6, 7, 8, 9, 10, 11, 12, 13, 14, 15]

/-! ### Reference polynomial arithmetic over GF(2)

The mathematical meaning of multmodp and the combine machinery is stated
through a carry-less product and a polynomial remainder on bit vectors. -/

/-- Carry-less (GF(2)[x]) product accumulating the low fuel bits of a. -/
def clmulF : Nat → Nat → Nat → Nat
  | 0, _, _ => 0
  | fuel + 1, a, b =>
    (if a &&& 1 = 1 then b else 0) ^^^ (clmulF fuel (a >>> 1) b) <<< 1

/-- Carry-less product of two words (exact for operands below 2 ^ 192). -/
def clmul (a b : Nat) : Nat := clmulF 192 a b

/-- One downward pass of polynomial reduction: clear bit w + k - 1 down
to bit w by xoring shifted copies of the monic degree-w polynomial phat. -/
def polyModGo (phat w : Nat) : Nat → Nat → Nat
  | 0, v => v
  | k + 1, v => polyModGo phat w k (if v.testBit (w + k) then v ^^^ (phat <<< k) else v)

/-- Remainder of v modulo the degree-w polynomial phat (bit w of phat
set), exact for v below 2 ^ (w + 64). -/
def polyMod (phat w v : Nat) : Nat := polyModGo phat w 64 v

/-- Product modulo the degree-w polynomial phat, on canonical residues. -/
def pmul (phat w a b : Nat) : Nat := polyMod phat w (clmul a b)

/-- Power of t modulo phat, by repeated pmul. -/
def pmpow (phat w t : Nat) : Nat → Nat
  | 0 => polyMod phat w 1
  | e + 1 => pmul phat w (pmpow phat w t e) t

/-- The CRC polynomial of a model in unreflected coefficient order (the
stored poly field holds the reflected image for reflected models). -/
def punref (m : model_t) : Nat :=
  if m.ref then reverse m.poly m.width else m.poly

/-- The full monic CRC polynomial of a model, with its degree-width bit. -/
def phatOf (m : model_t) : Nat := 2 ^ m.width ^^^ punref m

/-- The unreflected-coefficient reading of a CRC value of a model:
reflected models store values in reversed bit order. -/
def den (m : model_t) (x : Nat) : Nat :=
  if m.ref then reverse x m.width else x

/-- The extra output reversal of a model applied to a CRC value, as the
engines and crc_combine perform it around their registers. -/
def drev (m : model_t) (x : Nat) : Nat :=
  if m.rev then reverse x m.width else x

/-- The CRC-32/ISO-HDLC model as read from the catalogue: width 32,
poly 0x04c11db7, init 0xffffffff, refin and refout true, xorout
0xffffffff. -/
def mISOraw : model_t :=
  { width := 32, ref := true, rev := true, poly := 0x04c11db7, poly_hi := 0,
    init := 0xffffffff, init_hi := 0, xorout := 0xffffffff, xorout_hi := 0,
    table_byte := fun _ => 0, table_word := fun _ _ => 0,
    table_comb := [], cycle := 0, back := 0 }

/-- The CRC-32/ISO-HDLC model after process_model. -/
def mISO : model_t := process_model mISOraw

/-- The CRC-32/ISO-HDLC model with its combination table built (the
squaring orbit closes, so the getD fallback is never taken). -/
def mISOc : model_t := (crc_table_combine mISO 67).getD mISO

/-! ### Basic facts about bits of natural numbers -/

theorem add_eq_or_of_and_eq_zero : ∀ (a b : Nat), a &&& b = 0 → a + b = a ||| b := by
  intro a
  induction a using Nat.strong_induction_on with
  | _ a ih =>
    intro b h
    rcases Nat.eq_zero_or_pos a with ha | ha
    · simp [ha]
    · have hdiv : a / 2 &&& b / 2 = 0 := by
        rw [← Nat.and_div_two, h]
      have ih2 := ih (a / 2) (Nat.div_lt_self ha (by omega)) (b / 2) hdiv
      have hpar : a % 2 = 0 ∨ b % 2 = 0 := by
        by_contra hc
        push_neg at hc
        have : (a &&& b) % 2 = 1 := Nat.and_mod_two_eq_one.mpr (by omega)
        omega
      have hor2 : (a ||| b) / 2 = a / 2 ||| b / 2 := Nat.or_div_two
      have horm : (a ||| b) % 2 = a % 2 + b % 2 := by
        rcases Nat.mod_two_eq_zero_or_one a with h1 | h1 <;>
          rcases Nat.mod_two_eq_zero_or_one b with h2 | h2
        · have : ¬ (a ||| b) % 2 = 1 := by
            simp only [Nat.or_mod_two_eq_one]; omega
          omega
        · have : (a ||| b) % 2 = 1 := Nat.or_mod_two_eq_one.mpr (by omega)
          omega
        · have : (a ||| b) % 2 = 1 := Nat.or_mod_two_eq_one.mpr (by omega)
          omega
        · omega
      omega

theorem or_eq_xor_of_and_eq_zero {a b : Nat} (h : a &&& b = 0) : a ||| b = a ^^^ b := by
  apply Nat.eq_of_testBit_eq
  intro j
  have hj := congrArg (Nat.testBit · j) h
  simp only [Nat.testBit_and, Nat.zero_testBit] at hj
  simp only [Nat.testBit_or, Nat.testBit_xor]
  cases ha : a.testBit j <;> cases hb : b.testBit j <;> simp_all

theorem add_eq_xor_of_and_eq_zero {a b : Nat} (h : a &&& b = 0) : a + b = a ^^^ b := by
  rw [add_eq_or_of_and_eq_zero a b h, or_eq_xor_of_and_eq_zero h]

theorem shiftRight_xor (a b n : Nat) : (a ^^^ b) >>> n = (a >>> n) ^^^ (b >>> n) := by
  apply Nat.eq_of_testBit_eq
  intro j
  simp [Nat.testBit_shiftRight, Nat.testBit_xor]

theorem shl64_xor (a b n : Nat) : shl64 (a ^^^ b) n = shl64 a n ^^^ shl64 b n := by
  apply Nat.eq_of_testBit_eq
  intro j
  simp only [shl64, Nat.testBit_mod_two_pow, Nat.testBit_shiftLeft, Nat.testBit_xor]
  cases hd : decide (j < 64) <;> cases hg : decide (n ≤ j) <;> simp

theorem and_xor_right (a b m : Nat) : (a ^^^ b) &&& m = (a &&& m) ^^^ (b &&& m) := by
  apply Nat.eq_of_testBit_eq
  intro j
  simp only [Nat.testBit_and, Nat.testBit_xor]
  cases a.testBit j <;> cases b.testBit j <;> cases m.testBit j <;> rfl

/-- Bit k of an index i, facts about xor with the single bit 2 to the k. -/
theorem xor_pow_of_testBit_false {i k : Nat} (h : i.testBit k = false) :
    i ^^^ 2 ^ k = i + 2 ^ k := by
  have hand : i &&& 2 ^ k = 0 := by
    apply Nat.eq_of_testBit_eq
    intro j
    simp only [Nat.testBit_and, Nat.zero_testBit, Nat.testBit_two_pow]
    by_cases hj : k = j
    · subst hj; simp [h]
    · simp [hj]
  rw [← add_eq_xor_of_and_eq_zero hand]

theorem xor_pow_of_testBit_true {i k : Nat} (h : i.testBit k = true) :
    i ^^^ 2 ^ k = i - 2 ^ k ∧ 2 ^ k ≤ i := by
  have hge : 2 ^ k ≤ i := Nat.testBit_implies_ge h
  have hb : (i ^^^ 2 ^ k).testBit k = false := by
    simp [Nat.testBit_xor, h, Nat.testBit_two_pow]
  have := xor_pow_of_testBit_false hb
  rw [Nat.xor_assoc, Nat.xor_self, Nat.xor_zero] at this
  omega

theorem testBit_sub_pow {i k : Nat} (hge : 2 ^ k ≤ i) (h : i.testBit k = false) :
    (i - 2 ^ k).testBit k = true := by
  by_contra hc
  have hc2 : (i - 2 ^ k).testBit k = false := by
    cases hb : (i - 2 ^ k).testBit k
    · rfl
    · exact absurd hb hc
  have := xor_pow_of_testBit_false hc2
  have hi : i - 2 ^ k + 2 ^ k = i := by omega
  rw [hi] at this
  have : i.testBit k = true := by
    rw [← this]
    simp [Nat.testBit_xor, hc2, Nat.testBit_two_pow]
  simp [this] at h

/-! ### The butterfly stages of reverse -/


theorem swp_le (s m x : Nat) : swp s m x ≤ m + (m <<< s) :=
  Nat.add_le_add Nat.and_le_right Nat.and_le_right

theorem swp_testBit (s m x i : Nat) (hd : m &&& (m <<< s) = 0) :
    (swp s m x).testBit i =
      ((m.testBit i && x.testBit (i + s)) ||
       ((m <<< s).testBit i && (decide (s ≤ i) && x.testBit (i - s)))) := by
  have hz : ((x >>> s) &&& m) &&& ((x <<< s) &&& (m <<< s)) = 0 := by
    apply Nat.eq_of_testBit_eq
    intro j
    have := congrArg (Nat.testBit · j) hd
    simp only [Nat.testBit_and] at this ⊢
    simp only [Nat.zero_testBit]
    cases hm : m.testBit j <;> cases hms : (m <<< s).testBit j <;> simp_all
  rw [swp, add_eq_or_of_and_eq_zero _ _ hz]
  simp only [Nat.testBit_or, Nat.testBit_and, Nat.testBit_shiftRight,
    Nat.testBit_shiftLeft]
  cases m.testBit i <;> cases (m <<< s).testBit i <;>
    simp [Bool.and_comm, Nat.add_comm]


theorem stageMask_intro (m W k : Nat) (hW : m < 2 ^ W)
    (hb : ∀ j, j < W → m.testBit j = !(j.testBit k)) : StageMask m W k := by
  intro j
  by_cases h : j < W
  · simp [h, hb j h]
  · have : m < 2 ^ j := lt_of_lt_of_le hW (Nat.pow_le_pow_right (by omega) (by omega))
    simp [h, Nat.testBit_lt_two_pow this]

/-- A butterfly stage with a canonical mask moves bit (i xor s) of its
input to bit i, for indices below the block width. -/
theorem swp_stage (s k m W x i : Nat) (hs : s = 2 ^ k)
    (hm : StageMask m W k) (hi : i < W) :
    (swp s m x).testBit i = x.testBit (i ^^^ s) := by
  subst hs
  have hd : m &&& (m <<< 2 ^ k) = 0 := by
    apply Nat.eq_of_testBit_eq
    intro j
    have h1 := hm j
    have h2 := hm (j - 2 ^ k)
    simp only [Nat.testBit_and, Nat.zero_testBit, Nat.testBit_shiftLeft, h1, h2]
    by_cases hkj : 2 ^ k ≤ j
    · cases hbk : j.testBit k
      · have := testBit_sub_pow hkj hbk
        simp [this]
      · simp [hbk]
    · simp [hkj]
  rw [swp_testBit _ _ _ _ hd, hm i, Nat.testBit_shiftLeft, hm (i - 2 ^ k)]
  cases hb : i.testBit k
  · rw [xor_pow_of_testBit_false hb]
    by_cases hk : 2 ^ k ≤ i
    · have := testBit_sub_pow hk hb
      simp [hi, this]
    · simp [hi, hk]
  · obtain ⟨hxor, hge⟩ := xor_pow_of_testBit_true hb
    have hfalse : (i - 2 ^ k).testBit k = false := by
      rw [← hxor]
      simp [Nat.testBit_xor, hb, Nat.testBit_two_pow]
    rw [hxor]
    have hiW : i - 2 ^ k < W := Nat.lt_of_le_of_lt (Nat.sub_le i (2 ^ k)) hi
    simp [hi, hb, hge, hfalse, hiW]

theorem xor_pow_sub_one {i p : Nat} (hi : i < 2 ^ p) :
    i ^^^ (2 ^ p - 1) = 2 ^ p - 1 - i := by
  have hand : i &&& (2 ^ p - 1) = i := Nat.and_pow_two_sub_one_of_lt_two_pow hi
  have hd : i &&& (i ^^^ (2 ^ p - 1)) = 0 := by
    rw [Nat.and_xor_distrib_left, hand, Nat.and_self, Nat.xor_self]
  have hsum : i + (i ^^^ (2 ^ p - 1)) = i ^^^ (i ^^^ (2 ^ p - 1)) :=
    add_eq_xor_of_and_eq_zero hd
  rw [← Nat.xor_assoc, Nat.xor_self, Nat.zero_xor] at hsum
  omega

theorem xor_lt_of_lt {i s W p : Nat} (hW : W = 2 ^ p) (hi : i < W) (hs : s < W) :
    i ^^^ s < W := by
  subst hW
  exact Nat.xor_lt_two_pow hi hs


theorem reverse64_eq_revN64 (x : Nat) : reverse64 x = revN64 x := rfl

theorem revN2_testBit (x i : Nat) (hi : i < 2) :
    (revN2 x).testBit i = x.testBit (2 - 1 - i) := by
  have m1 : StageMask 1 2 0 := stageMask_intro _ _ _ (by norm_num) (by decide)
  rw [revN2, swp_stage 1 0 1 2 x i (by norm_num) m1 hi]
  congr 1
  have := xor_pow_sub_one (p := 1) (i := i) (by omega)
  norm_num at this
  omega

theorem revN4_testBit (x i : Nat) (hi : i < 4) :
    (revN4 x).testBit i = x.testBit (4 - 1 - i) := by
  have m1 : StageMask 5 4 0 := stageMask_intro _ _ _ (by norm_num) (by decide)
  have m2 : StageMask 3 4 1 := stageMask_intro _ _ _ (by norm_num) (by decide)
  have hx1 : i ^^^ 1 < 4 := xor_lt_of_lt (p := 2) (by norm_num) hi (by norm_num)
  rw [revN4, swp_stage 1 0 5 4 _ i (by norm_num) m1 hi,
    swp_stage 2 1 3 4 x _ (by norm_num) m2 hx1]
  congr 1
  rw [Nat.xor_assoc]
  have hlit : (1 : Nat) ^^^ 2 = 3 := rfl
  rw [hlit]
  have hxo := xor_pow_sub_one (p := 2) (i := i) (by omega)
  norm_num at hxo
  omega

theorem revN8_testBit (x i : Nat) (hi : i < 8) :
    (revN8 x).testBit i = x.testBit (8 - 1 - i) := by
  have m1 : StageMask 0x55 8 0 := stageMask_intro _ _ _ (by norm_num) (by decide)
  have m2 : StageMask 0x33 8 1 := stageMask_intro _ _ _ (by norm_num) (by decide)
  have m3 : StageMask 0xf 8 2 := stageMask_intro _ _ _ (by norm_num) (by decide)
  have hx1 : i ^^^ 1 < 8 := xor_lt_of_lt (p := 3) (by norm_num) hi (by norm_num)
  have hx2 : i ^^^ 1 ^^^ 2 < 8 := xor_lt_of_lt (p := 3) (by norm_num) hx1 (by norm_num)
  rw [revN8, swp_stage 1 0 0x55 8 _ i (by norm_num) m1 hi,
    swp_stage 2 1 0x33 8 _ _ (by norm_num) m2 hx1,
    swp_stage 4 2 0xf 8 x _ (by norm_num) m3 hx2]
  congr 1
  rw [Nat.xor_assoc, Nat.xor_assoc]
  have hlit : (1 : Nat) ^^^ (2 ^^^ 4) = 7 := rfl
  rw [hlit]
  have hxo := xor_pow_sub_one (p := 3) (i := i) (by omega)
  norm_num at hxo
  omega

theorem revN16_testBit (x i : Nat) (hi : i < 16) :
    (revN16 x).testBit i = x.testBit (16 - 1 - i) := by
  have m1 : StageMask 0x5555 16 0 := stageMask_intro _ _ _ (by norm_num) (by decide)
  have m2 : StageMask 0x3333 16 1 := stageMask_intro _ _ _ (by norm_num) (by decide)
  have m3 : StageMask 0xf0f 16 2 := stageMask_intro _ _ _ (by norm_num) (by decide)
  have m4 : StageMask 0xff 16 3 := stageMask_intro _ _ _ (by norm_num) (by decide)
  have hx1 : i ^^^ 1 < 16 := xor_lt_of_lt (p := 4) (by norm_num) hi (by norm_num)
  have hx2 : i ^^^ 1 ^^^ 2 < 16 := xor_lt_of_lt (p := 4) (by norm_num) hx1 (by norm_num)
  have hx3 : i ^^^ 1 ^^^ 2 ^^^ 4 < 16 :=
    xor_lt_of_lt (p := 4) (by norm_num) hx2 (by norm_num)
  rw [revN16, swp_stage 1 0 0x5555 16 _ i (by norm_num) m1 hi,
    swp_stage 2 1 0x3333 16 _ _ (by norm_num) m2 hx1,
    swp_stage 4 2 0xf0f 16 _ _ (by norm_num) m3 hx2,
    swp_stage 8 3 0xff 16 x _ (by norm_num) m4 hx3]
  congr 1
  rw [Nat.xor_assoc, Nat.xor_assoc, Nat.xor_assoc]
  have hlit : (1 : Nat) ^^^ (2 ^^^ (4 ^^^ 8)) = 15 := rfl
  rw [hlit]
  have hxo := xor_pow_sub_one (p := 4) (i := i) (by omega)
  norm_num at hxo
  omega

theorem revN32_testBit (x i : Nat) (hi : i < 32) :
    (revN32 x).testBit i = x.testBit (32 - 1 - i) := by
  have m1 : StageMask 0x55555555 32 0 := stageMask_intro _ _ _ (by norm_num) (by decide)
  have m2 : StageMask 0x33333333 32 1 := stageMask_intro _ _ _ (by norm_num) (by decide)
  have m3 : StageMask 0xf0f0f0f 32 2 := stageMask_intro _ _ _ (by norm_num) (by decide)
  have m4 : StageMask 0xff00ff 32 3 := stageMask_intro _ _ _ (by norm_num) (by decide)
  have m5 : StageMask 0xffff 32 4 := stageMask_intro _ _ _ (by norm_num) (by decide)
  have hx1 : i ^^^ 1 < 32 := xor_lt_of_lt (p := 5) (by norm_num) hi (by norm_num)
  have hx2 : i ^^^ 1 ^^^ 2 < 32 := xor_lt_of_lt (p := 5) (by norm_num) hx1 (by norm_num)
  have hx3 : i ^^^ 1 ^^^ 2 ^^^ 4 < 32 :=
    xor_lt_of_lt (p := 5) (by norm_num) hx2 (by norm_num)
  have hx4 : i ^^^ 1 ^^^ 2 ^^^ 4 ^^^ 8 < 32 :=
    xor_lt_of_lt (p := 5) (by norm_num) hx3 (by norm_num)
  rw [revN32, swp_stage 1 0 0x55555555 32 _ i (by norm_num) m1 hi,
    swp_stage 2 1 0x33333333 32 _ _ (by norm_num) m2 hx1,
    swp_stage 4 2 0xf0f0f0f 32 _ _ (by norm_num) m3 hx2,
    swp_stage 8 3 0xff00ff 32 _ _ (by norm_num) m4 hx3,
    swp_stage 16 4 0xffff 32 x _ (by norm_num) m5 hx4]
  congr 1
  rw [Nat.xor_assoc, Nat.xor_assoc, Nat.xor_assoc, Nat.xor_assoc]
  have hlit : (1 : Nat) ^^^ (2 ^^^ (4 ^^^ (8 ^^^ 16))) = 31 := rfl
  rw [hlit]
  have hxo := xor_pow_sub_one (p := 5) (i := i) (by omega)
  norm_num at hxo
  omega

theorem revN64_testBit (x i : Nat) (hi : i < 64) :
    (revN64 x).testBit i = x.testBit (64 - 1 - i) := by
  have m1 : StageMask 0x5555555555555555 64 0 :=
    stageMask_intro _ _ _ (by norm_num) (by decide)
  have m2 : StageMask 0x3333333333333333 64 1 :=
    stageMask_intro _ _ _ (by norm_num) (by decide)
  have m3 : StageMask 0xf0f0f0f0f0f0f0f 64 2 :=
    stageMask_intro _ _ _ (by norm_num) (by decide)
  have m4 : StageMask 0xff00ff00ff00ff 64 3 :=
    stageMask_intro _ _ _ (by norm_num) (by decide)
  have m5 : StageMask 0xffff0000ffff 64 4 :=
    stageMask_intro _ _ _ (by norm_num) (by decide)
  have m6 : StageMask 0xffffffff 64 5 :=
    stageMask_intro _ _ _ (by norm_num) (by decide)
  have hx1 : i ^^^ 1 < 64 := xor_lt_of_lt (p := 6) (by norm_num) hi (by norm_num)
  have hx2 : i ^^^ 1 ^^^ 2 < 64 := xor_lt_of_lt (p := 6) (by norm_num) hx1 (by norm_num)
  have hx3 : i ^^^ 1 ^^^ 2 ^^^ 4 < 64 :=
    xor_lt_of_lt (p := 6) (by norm_num) hx2 (by norm_num)
  have hx4 : i ^^^ 1 ^^^ 2 ^^^ 4 ^^^ 8 < 64 :=
    xor_lt_of_lt (p := 6) (by norm_num) hx3 (by norm_num)
  have hx5 : i ^^^ 1 ^^^ 2 ^^^ 4 ^^^ 8 ^^^ 16 < 64 :=
    xor_lt_of_lt (p := 6) (by norm_num) hx4 (by norm_num)
  rw [revN64, swp_stage 1 0 0x5555555555555555 64 _ i (by norm_num) m1 hi,
    swp_stage 2 1 0x3333333333333333 64 _ _ (by norm_num) m2 hx1,
    swp_stage 4 2 0xf0f0f0f0f0f0f0f 64 _ _ (by norm_num) m3 hx2,
    swp_stage 8 3 0xff00ff00ff00ff 64 _ _ (by norm_num) m4 hx3,
    swp_stage 16 4 0xffff0000ffff 64 _ _ (by norm_num) m5 hx4,
    swp_stage 32 5 0xffffffff 64 x _ (by norm_num) m6 hx5]
  congr 1
  rw [Nat.xor_assoc, Nat.xor_assoc, Nat.xor_assoc, Nat.xor_assoc, Nat.xor_assoc]
  have hlit : (1 : Nat) ^^^ (2 ^^^ (4 ^^^ (8 ^^^ (16 ^^^ 32)))) = 63 := rfl
  rw [hlit]
  have hxo := xor_pow_sub_one (p := 6) (i := i) (by omega)
  norm_num at hxo
  omega

theorem revN2_lt (x : Nat) : revN2 x < 2 ^ 2 :=
  lt_of_le_of_lt (swp_le 1 1 x) (by decide)

theorem revN4_lt (x : Nat) : revN4 x < 2 ^ 4 :=
  lt_of_le_of_lt (swp_le 1 5 _) (by decide)

theorem revN8_lt (x : Nat) : revN8 x < 2 ^ 8 :=
  lt_of_le_of_lt (swp_le 1 0x55 _) (by decide)

theorem revN16_lt (x : Nat) : revN16 x < 2 ^ 16 :=
  lt_of_le_of_lt (swp_le 1 0x5555 _) (by decide)

theorem revN32_lt (x : Nat) : revN32 x < 2 ^ 32 :=
  lt_of_le_of_lt (swp_le 1 0x55555555 _) (by decide)

theorem revN64_lt (x : Nat) : revN64 x < 2 ^ 64 :=
  lt_of_le_of_lt (swp_le 1 0x5555555555555555 _) (by decide)

theorem reverse_eq1 (x : Nat) : reverse x 1 = x &&& 1 := rfl

theorem reverse_eq2 (x : Nat) : reverse x 2 = revN2 x := rfl

theorem reverse_eq4 (x n : Nat) (h3 : 3 ≤ n) (h4 : n ≤ 4) :
    reverse x n = revN4 x >>> (4 - n) := by
  rw [reverse, if_neg (by omega), if_neg (by omega), if_pos h4]
  rfl

theorem reverse_eq8 (x n : Nat) (h5 : 5 ≤ n) (h8 : n ≤ 8) :
    reverse x n = revN8 x >>> (8 - n) := by
  rw [reverse, if_neg (by omega), if_neg (by omega), if_neg (by omega), if_pos h8]
  rfl

theorem reverse_eq16 (x n : Nat) (h9 : 9 ≤ n) (h16 : n ≤ 16) :
    reverse x n = revN16 x >>> (16 - n) := by
  rw [reverse, if_neg (by omega), if_neg (by omega), if_neg (by omega),
    if_neg (by omega), if_pos h16]
  rfl

theorem reverse_eq32 (x n : Nat) (h17 : 17 ≤ n) (h32 : n ≤ 32) :
    reverse x n = revN32 x >>> (32 - n) := by
  rw [reverse, if_neg (by omega), if_neg (by omega), if_neg (by omega),
    if_neg (by omega), if_neg (by omega), if_pos h32]
  rfl

theorem reverse_eq64 (x n : Nat) (h33 : 33 ≤ n) (h64 : n ≤ 64) :
    reverse x n = revN64 x >>> (64 - n) := by
  rw [reverse, if_neg (by omega), if_neg (by omega), if_neg (by omega),
    if_neg (by omega), if_neg (by omega), if_neg (by omega), if_pos h64,
    reverse64_eq_revN64]

theorem shifted_rev_testBit {W n : Nat} (y x i : Nat)
    (hy_lt : y < 2 ^ W)
    (hy : ∀ j, j < W → y.testBit j = x.testBit (W - 1 - j))
    (hn1 : 1 ≤ n) (hnW : n ≤ W) :
    (y >>> (W - n)).testBit i = (decide (i < n) && x.testBit (n - 1 - i)) := by
  rw [Nat.testBit_shiftRight]
  by_cases hin : i < n
  · rw [hy _ (by omega)]
    have he : W - 1 - (W - n + i) = n - 1 - i := by omega
    rw [he]
    simp [hin]
  · have hge : 2 ^ W ≤ 2 ^ (W - n + i) := Nat.pow_le_pow_right (by omega) (by omega)
    rw [Nat.testBit_lt_two_pow (lt_of_lt_of_le hy_lt hge)]
    simp [hin]

/-- The bits of reverse: bit i of reverse(x, n) is bit n-1-i of x for
i below n and zero above, for all n from 1 to WORDBITS. -/
theorem reverse_testBit (x n i : Nat) (h1 : 1 ≤ n) (h64 : n ≤ 64) :
    (reverse x n).testBit i = (decide (i < n) && x.testBit (n - 1 - i)) := by
  rcases (by omega : n = 1 ∨ n = 2 ∨ (3 ≤ n ∧ n ≤ 4) ∨ (5 ≤ n ∧ n ≤ 8) ∨
      (9 ≤ n ∧ n ≤ 16) ∨ (17 ≤ n ∧ n ≤ 32) ∨ (33 ≤ n ∧ n ≤ 64)) with
    h | h | h | h | h | h | h
  · subst h
    rw [reverse_eq1]
    cases i with
    | zero => simp
    | succ j =>
      simp [Nat.testBit_and, Nat.testBit_succ]
  · subst h
    rw [reverse_eq2]
    have := shifted_rev_testBit (W := 2) (n := 2) (revN2 x) x i (revN2_lt x)
      (fun j hj => revN2_testBit x j hj) (by omega) (by omega)
    simpa using this
  · rw [reverse_eq4 x n h.1 h.2]
    exact shifted_rev_testBit _ _ _ (revN4_lt x) (fun j hj => revN4_testBit x j hj) h1 h.2
  · rw [reverse_eq8 x n h.1 h.2]
    exact shifted_rev_testBit _ _ _ (revN8_lt x) (fun j hj => revN8_testBit x j hj) h1 h.2
  · rw [reverse_eq16 x n h.1 h.2]
    exact shifted_rev_testBit _ _ _ (revN16_lt x) (fun j hj => revN16_testBit x j hj) h1 h.2
  · rw [reverse_eq32 x n h.1 h.2]
    exact shifted_rev_testBit _ _ _ (revN32_lt x) (fun j hj => revN32_testBit x j hj) h1 h.2
  · rw [reverse_eq64 x n h.1 h.2]
    exact shifted_rev_testBit _ _ _ (revN64_lt x) (fun j hj => revN64_testBit x j hj) h1 h.2

theorem reverse_lt (x n : Nat) (h1 : 1 ≤ n) (h64 : n ≤ 64) : reverse x n < 2 ^ n := by
  apply Nat.lt_pow_two_of_testBit
  intro i hi
  rw [reverse_testBit x n i h1 h64]
  simp [show ¬ i < n by omega]

theorem reverse_reverse (x n : Nat) (h1 : 1 ≤ n) (h64 : n ≤ 64) :
    reverse (reverse x n) n = x % 2 ^ n := by
  apply Nat.eq_of_testBit_eq
  intro i
  rw [reverse_testBit _ n i h1 h64, Nat.testBit_mod_two_pow]
  by_cases hin : i < n
  · rw [reverse_testBit x n _ h1 h64]
    have he : n - 1 - (n - 1 - i) = i := by omega
    rw [he]
    simp [hin, (by omega : n - 1 - i < n)]
  · simp [hin]

theorem reverse_xor (a b n : Nat) (h1 : 1 ≤ n) (h64 : n ≤ 64) :
    reverse (a ^^^ b) n = reverse a n ^^^ reverse b n := by
  apply Nat.eq_of_testBit_eq
  intro i
  rw [Nat.testBit_xor, reverse_testBit _ n i h1 h64, reverse_testBit _ n i h1 h64,
    reverse_testBit _ n i h1 h64, Nat.testBit_xor]
  cases decide (i < n) <;> simp

/-- ONES(n) is the low-n-bits mask. -/
theorem ONES_eq (n : Nat) (h64 : n ≤ 64) : ONES n = 2 ^ n - 1 := by
  apply Nat.eq_of_testBit_eq
  intro i
  rw [ONES, Nat.testBit_shiftRight, Nat.testBit_two_pow_sub_one, Nat.testBit_two_pow_sub_one]
  by_cases hin : i < n <;> simp [hin] <;> omega

theorem and_ONES (x n : Nat) (h64 : n ≤ 64) : x &&& ONES n = x % 2 ^ n := by
  rw [ONES_eq n h64, Nat.and_pow_two_sub_one_eq_mod]

theorem shl64_lt (x n : Nat) : shl64 x n < 2 ^ 64 :=
  Nat.mod_lt _ (by norm_num)

theorem shl64_testBit (x n i : Nat) :
    (shl64 x n).testBit i = (decide (i < 64) && (decide (n ≤ i) && x.testBit (i - n))) := by
  rw [shl64, Nat.testBit_mod_two_pow, Nat.testBit_shiftLeft]

/-- The bits of a double word assembled as hi times 2 to the 64 plus lo. -/
theorem hl_testBit (h l i : Nat) (hl64 : l < 2 ^ 64) :
    (h * 2 ^ 64 + l).testBit i =
      (if i < 64 then l.testBit i else h.testBit (i - 64)) := by
  have : h * 2 ^ 64 + l = 2 ^ 64 * h + l := by ring_nf
  rw [this, Nat.mul_add_lt_is_or hl64, Nat.testBit_or]
  have hsh : (2 ^ 64 * h) = h <<< 64 := by
    rw [Nat.shiftLeft_eq]; ring
  rw [hsh, Nat.testBit_shiftLeft]
  by_cases hi : i < 64
  · simp [hi, show ¬ 64 ≤ i by omega]
  · have hl2 : l < 2 ^ i :=
      lt_of_lt_of_le hl64 (Nat.pow_le_pow_right (by omega) (by omega : 64 ≤ i))
    simp [hi, show 64 ≤ i by omega, Nat.testBit_lt_two_pow hl2]

theorem reverse_dbl_fst_lt (hi lo n : Nat) (h1 : 1 ≤ n) (h128 : n ≤ 128) :
    (reverse_dbl hi lo n).1 < 2 ^ 64 := by
  rw [reverse_dbl]
  simp only [WORDBITS]
  by_cases hn : n ≤ 64
  · simp [hn]
  · simp only [if_neg hn]
    by_cases hn2 : n < 64 * 2
    · simp only [if_pos hn2]
      have hle : reverse lo 64 >>> (64 * 2 - n) ≤ reverse lo 64 := by
        rw [Nat.shiftRight_eq_div_pow]
        exact Nat.div_le_self _ _
      exact lt_of_le_of_lt hle (reverse_lt lo 64 (by omega) (by omega))
    · simp only [if_neg hn2]
      exact reverse_lt lo 64 (by omega) (by omega)

theorem reverse_dbl_snd_lt (hi lo n : Nat) (h1 : 1 ≤ n) (h128 : n ≤ 128) :
    (reverse_dbl hi lo n).2 < 2 ^ 64 := by
  rw [reverse_dbl]
  simp only [WORDBITS]
  by_cases hn : n ≤ 64
  · simp only [if_pos hn]
    exact lt_of_lt_of_le (reverse_lt lo n h1 hn)
      (Nat.pow_le_pow_right (by omega) (by omega))
  · simp only [if_neg hn]
    by_cases hn2 : n < 64 * 2
    · simp only [if_pos hn2]
      exact Nat.or_lt_two_pow
        (lt_of_lt_of_le (reverse_lt hi (n - 64) (by omega) (by omega))
          (Nat.pow_le_pow_right (by omega) (by omega)))
        (shl64_lt _ _)
    · simp only [if_neg hn2]
      exact lt_of_lt_of_le (reverse_lt hi (n - 64) (by omega) (by omega))
        (Nat.pow_le_pow_right (by omega) (by omega))

/-- The bits of reverse_dbl seen as a 128-bit value: bit i of the result
is bit n-1-i of the input for i below n and zero above. -/
theorem reverse_dbl_testBit (hi lo n i : Nat) (hhi : hi < 2 ^ 64)
    (hlo : lo < 2 ^ 64) (h1 : 1 ≤ n) (h128 : n ≤ 128) :
    ((reverse_dbl hi lo n).1 * 2 ^ 64 + (reverse_dbl hi lo n).2).testBit i =
      (decide (i < n) && (hi * 2 ^ 64 + lo).testBit (n - 1 - i)) := by
  have hsnd := reverse_dbl_snd_lt hi lo n h1 h128
  rw [hl_testBit _ _ _ hsnd, hl_testBit _ _ _ hlo]
  rw [reverse_dbl] at *
  simp only [WORDBITS] at *
  by_cases hn : n ≤ 64
  · simp only [if_pos hn] at *
    by_cases hi64 : i < 64
    · simp only [if_pos hi64]
      rw [reverse_testBit lo n i h1 hn]
      by_cases hin : i < n
      · simp [hin, show n - 1 - i < 64 by omega]
      · simp [hin]
    · simp only [if_neg hi64]
      have : (0 : Nat).testBit (i - 64) = false := Nat.zero_testBit _
      rw [this]
      simp [show ¬ i < n by omega]
  · simp only [if_neg hn] at *
    by_cases hn2 : n < 64 * 2
    · simp only [if_pos hn2] at *
      by_cases hi64 : i < 64
      · simp only [if_pos hi64]
        rw [Nat.testBit_or, shl64_testBit,
          reverse_testBit hi (n - 64) i (by omega) (by omega),
          reverse_testBit lo 64 (i - (n - 64)) (by omega) (by omega)]
        by_cases hilo : i < n - 64
        · -- the hi part of the input
          simp [hilo, hi64, show ¬ n - 64 ≤ i by omega,
            show ¬ n - 1 - i < 64 by omega, show i < n by omega,
            show n - 64 - 1 - i = n - 1 - i - 64 by omega]
        · by_cases hin : i < n
          · -- the lo part of the input, via the shifted tmp
            simp [hilo, hi64, hin, show n - 64 ≤ i by omega,
              show i - (n - 64) < 64 by omega,
              show n - 1 - i < 64 by omega,
              show 64 - 1 - (i - (n - 64)) = n - 1 - i by omega]
          · simp [hilo, show ¬ i - (n - 64) < 64 by omega, show ¬ i < n by omega]
      · simp only [if_neg hi64]
        rw [Nat.testBit_shiftRight,
          reverse_testBit lo 64 (64 * 2 - n + (i - 64)) (by omega) (by omega)]
        by_cases hin : i < n
        · simp [show 64 * 2 - n + (i - 64) < 64 by omega, hin,
            show n - 1 - i < 64 by omega,
            show 64 - 1 - (64 * 2 - n + (i - 64)) = n - 1 - i by omega]
        · simp [show ¬ 64 * 2 - n + (i - 64) < 64 by omega, hin]
    · simp only [if_neg hn2] at *
      have hn128 : n = 128 := by omega
      subst hn128
      by_cases hi64 : i < 64
      · simp only [if_pos hi64]
        rw [reverse_testBit hi 64 i (by omega) (by omega)]
        simp [show i < 128 by omega, show ¬ 128 - 1 - i < 64 by omega,
          show 64 - 1 - i = 128 - 1 - i - 64 by omega, hi64]
      · simp only [if_neg hi64]
        rw [reverse_testBit lo 64 (i - 64) (by omega) (by omega)]
        by_cases hin : i < 128
        · simp [hin, show i - 64 < 64 by omega, show 128 - 1 - i < 64 by omega,
            show 64 - 1 - (i - 64) = 128 - 1 - i by omega]
        · simp [hin, show ¬ i - 64 < 64 by omega]

theorem reverse_dbl_involution (hi lo n : Nat) (hhi : hi < 2 ^ 64)
    (hlo : lo < 2 ^ 64) (h1 : 1 ≤ n) (h128 : n ≤ 128) :
    (reverse_dbl (reverse_dbl hi lo n).1 (reverse_dbl hi lo n).2 n).1 * 2 ^ 64 +
      (reverse_dbl (reverse_dbl hi lo n).1 (reverse_dbl hi lo n).2 n).2 =
      (hi * 2 ^ 64 + lo) % 2 ^ n := by
  have hf := reverse_dbl_fst_lt hi lo n h1 h128
  have hs := reverse_dbl_snd_lt hi lo n h1 h128
  apply Nat.eq_of_testBit_eq
  intro i
  rw [reverse_dbl_testBit _ _ n i hf hs h1 h128, Nat.testBit_mod_two_pow]
  by_cases hin : i < n
  · rw [reverse_dbl_testBit hi lo n _ hhi hlo h1 h128]
    have he : n - 1 - (n - 1 - i) = i := by omega
    rw [he]
    simp [hin, show n - 1 - i < n by omega]
  · simp [hin]

/-- C7 (corrected): reversing the low n bits twice recovers the low n
bits, for the single-word reverse when n is at most WORDBITS, and for
the double-word reverse_dbl over the whole range n up to 2 times
WORDBITS; the single-word reverse does not satisfy the identity beyond
WORDBITS. -/
theorem reverse_involution (x n hi lo : Nat) :
    (1 ≤ n → n ≤ WORDBITS → reverse (reverse x n) n = x &&& ONES n) ∧
    (hi < 2 ^ WORDBITS → lo < 2 ^ WORDBITS → 1 ≤ n → n ≤ 2 * WORDBITS →
      (reverse_dbl (reverse_dbl hi lo n).1 (reverse_dbl hi lo n).2 n).1 * 2 ^ WORDBITS +
        (reverse_dbl (reverse_dbl hi lo n).1 (reverse_dbl hi lo n).2 n).2 =
        (hi * 2 ^ WORDBITS + lo) % 2 ^ n) := by
  constructor
  · intro h1 h64
    simp only [WORDBITS] at h64
    rw [reverse_reverse x n h1 h64, and_ONES x n h64]
  · intro hhi hlo h1 h128
    simp only [WORDBITS] at *
    exact reverse_dbl_involution hi lo n hhi hlo h1 (by omega)

theorem reverse_involution_witness :
    (reverse (reverse 0x17 5) 5 = 0x17 &&& ONES 5) ∧
    ((reverse_dbl (reverse_dbl 3 7 100).1 (reverse_dbl 3 7 100).2 100).1 * 2 ^ WORDBITS +
      (reverse_dbl (reverse_dbl 3 7 100).1 (reverse_dbl 3 7 100).2 100).2 =
      (3 * 2 ^ WORDBITS + 7) % 2 ^ 100) :=
  ⟨(reverse_involution 0x17 5 0 0).1 (by decide) (by decide),
   (reverse_involution 0 100 3 7).2 (by decide) (by decide) (by decide) (by decide)⟩

/-- C7 counterexample: at x = 1 and n = 65 the single-word reverse
applied twice yields 0, not the low 65 bits of 1. -/
theorem reverse_involution_counterexample :
    ¬ (reverse (reverse 1 65) 65 = 1 &&& ONES 65) := by decide

/-- C10: when strtobig overflows and returns NULL, the output words keep
the values they had at entry; they are written only on success. -/
theorem strtobig_none_unaltered (s : List Char) (h l : Nat)
    (hnone : (strtobig s h l).1 = none) : (strtobig s h l).2 = (h, l) := by
  unfold strtobig at hnone ⊢
  cases hc : strtobigCore s with
  | none => rfl
  | some v =>
    obtain ⟨nh, nl, rest⟩ := v
    rw [hc] at hnone
    exact absurd hnone (by simp)

theorem strtobig_none_unaltered_witness :
    (strtobig hexOverflowStr 5 7).1 = none ∧ (strtobig hexOverflowStr 5 7).2 = (5, 7) :=
  ⟨by decide, strtobig_none_unaltered hexOverflowStr 5 7 (by decide)⟩

/-- C4: with a null data pointer every engine returns the normalised
init value, ignoring the running crc and the length; the double-word
engine stores the pair init_hi, init. -/
theorem null_data_returns_init (m : model_t) (crc crc_hi crc_lo : Nat)
    (little : Bool) (addr : Nat) (hhi : m.width ≤ WORDBITS → m.init_hi = 0) :
    crc_bitwise m crc none = m.init ∧
    crc_bytewise m crc none = m.init ∧
    crc_wordwise m little addr crc none = m.init ∧
    crc_bitwise_dbl m crc_hi crc_lo none = (m.init_hi, m.init) := by
  refine ⟨rfl, rfl, rfl, ?_⟩
  rw [crc_bitwise_dbl]
  by_cases hw : m.width ≤ WORDBITS
  · simp [hw, hhi hw, crc_bitwise]
  · simp [hw]

theorem null_data_returns_init_witness :
    crc_bitwise mW3n 5 none = mW3n.init ∧
    crc_bytewise mW3n 5 none = mW3n.init ∧
    crc_wordwise mW3n true 3 5 none = mW3n.init ∧
    crc_bitwise_dbl mW3n 6 7 none = (mW3n.init_hi, mW3n.init) :=
  null_data_returns_init mW3n 5 6 7 true 3 (fun _ => rfl)

theorem combGo_invariants (m : model_t) :
    ∀ (fuel : Nat) (sq : Nat) (tbl : List Nat) (m2 : model_t), tbl ≠ [] →
      combGo m sq tbl fuel = some m2 →
      1 ≤ m2.cycle ∧ m2.cycle = m2.table_comb.length ∧
        (m2.back = -1 ∨ (0 ≤ m2.back ∧ m2.back < (m2.cycle : Int))) := by
  intro fuel
  induction fuel with
  | zero =>
    intro sq tbl m2 hne h
    have hpos : 0 < tbl.length := List.length_pos_iff_ne_nil.mpr hne
    rw [combGo] at h
    injection h with h
    subst h
    exact ⟨by simpa using hpos, by simp, Or.inl (by simp)⟩
  | succ f ih =>
    intro sq tbl m2 hne h
    cases hmm : multmodp m sq sq with
    | none =>
      rw [combGo, hmm] at h
      exact absurd h (by simp)
    | some sq2 =>
      rw [combGo, hmm] at h
      dsimp only at h
      by_cases hmem : sq2 ∈ tbl
      · rw [if_pos hmem] at h
        injection h with h
        subst h
        have hlt : tbl.indexOf sq2 < tbl.length := List.indexOf_lt_length.mpr hmem
        have hpos : 0 < tbl.length := List.length_pos_iff_ne_nil.mpr hne
        refine ⟨by simpa using hpos, by simp, Or.inr ⟨by simp, ?_⟩⟩
        simpa using (by exact_mod_cast hlt : ((tbl.indexOf sq2 : Int)) < (tbl.length : Int))
      · rw [if_neg hmem] at h
        exact ih sq2 (tbl ++ [sq2]) m2 (by simp) h

/-- C6: after crc_table_combine returns, cycle is the number of filled
table entries and is at least 1, and back is either -1 or an index into
the table, below cycle. -/
theorem crc_table_combine_invariants (m m2 : model_t) (nmax : Nat)
    (h : crc_table_combine m nmax = some m2) :
    1 ≤ m2.cycle ∧ m2.cycle = m2.table_comb.length ∧
      (m2.back = -1 ∨ (0 ≤ m2.back ∧ m2.back < (m2.cycle : Int))) := by
  rw [crc_table_combine] at h
  exact combGo_invariants m (nmax - 1) (if m.ref then shl64 1 (m.width - 2) else 2)
    [if m.ref then shl64 1 (m.width - 2) else 2] m2 (by simp) h

theorem crc_table_combine_invariants_witness :
    1 ≤ mW3c.cycle ∧ mW3c.cycle = mW3c.table_comb.length ∧
      (mW3c.back = -1 ∨ (0 ≤ mW3c.back ∧ mW3c.back < (mW3c.cycle : Int))) :=
  crc_table_combine_invariants mW3n mW3c 67 (by rfl)

/-- C5 (corrected): the walk of x8nmodp starts at index min(3, cycle-1)
except when cycle equals 3, in which case it starts at back. -/
theorem x8n_start_eq (m m2 : model_t) (nmax : Nat)
    (h : crc_table_combine m nmax = some m2) :
    x8n_start m2 =
      (if m2.cycle = 3 then m2.back else min 3 ((m2.cycle : Int) - 1)) := by
  have hinv := combGo_invariants m (nmax - 1)
    (if m.ref then shl64 1 (m.width - 2) else 2)
    [if m.ref then shl64 1 (m.width - 2) else 2] m2 (by simp)
    (by rw [crc_table_combine] at h; exact h)
  rw [x8n_start]
  by_cases h3 : m2.cycle = 3
  · simp [h3]
  · by_cases hgt : m2.cycle > 3
    · rw [if_pos hgt, if_neg h3]
      omega
    · rw [if_neg hgt, if_neg h3, if_neg h3]
      omega

theorem x8n_start_eq_witness :
    x8n_start mW3c = (if mW3c.cycle = 3 then mW3c.back else min 3 ((mW3c.cycle : Int) - 1)) :=
  x8n_start_eq mW3n mW3c 67 (by rfl)

/-- C5 counterexample: for the width-3 model the table cycles at 3 back
to 0, and the walk starts at index 0, not at min(3, cycle-1) = 2. -/
theorem x8n_start_counterexample :
    (crc_table_combine mW3n 67).map x8n_start ≠
      (crc_table_combine mW3n 67).map (fun m2 => min 3 ((m2.cycle : Int) - 1)) := by
  decide

set_option maxRecDepth 40000 in
/-- C1 (code_bug): for the valid refin-not-refout model with nonzero
xorout, starting from the protocol initial CRC, crc_bitwise,
crc_bytewise and crc_bitwise_dbl all return 50291 on eight aligned
bytes, but crc_wordwise returns 24765: crc_table_wordwise conjugates
its inter-byte steps with the unreflected xorout while the table_byte
entries of such models carry the reflected xorout. -/
theorem wordwise_engine_divergence :
    crc_bitwise mBugT 0 none = 0xb6c2 ∧
    crc_bitwise mBugT 0xb6c2 (some dBug8) = 50291 ∧
    crc_bytewise mBugT 0xb6c2 (some dBug8) = 50291 ∧
    crc_bitwise_dbl mBugT 0 0xb6c2 (some dBug8) = (0, 50291) ∧
    crc_wordwise mBugT true 0 0xb6c2 (some dBug8) = 24765 ∧
    crc_wordwise mBugT true 0 0xb6c2 (some dBug8) ≠
      crc_bitwise mBugT 0xb6c2 (some dBug8) := by
  refine ⟨by decide, by decide, by decide, by decide, by decide, by decide⟩

set_option maxRecDepth 40000 in
/-- C3 (code_bug): for the same model, feeding crc_wordwise a 16-byte
message as one call gives 34188, but feeding the same bytes as a
5-byte chunk followed by an 11-byte chunk at the consecutive address,
threading the returned CRC, gives 18581. -/
theorem wordwise_chunk_divergence :
    crc_wordwise mBugT true 0 0xb6c2 (some dBug16) = 34188 ∧
    crc_wordwise mBugT true 5
      (crc_wordwise mBugT true 0 0xb6c2 (some (List.take 5 dBug16)))
      (some (List.drop 5 dBug16)) = 18581 ∧
    crc_wordwise mBugT true 5
      (crc_wordwise mBugT true 0 0xb6c2 (some (List.take 5 dBug16)))
      (some (List.drop 5 dBug16)) ≠
      crc_wordwise mBugT true 0 0xb6c2 (some dBug16) := by
  refine ⟨by decide, by decide, by decide⟩

/-! ### The byte swap -/

theorem testBit_and_255 (x i : Nat) :
    (x &&& 255).testBit i = (decide (i < 8) && x.testBit i) := by
  have h255 : (255 : Nat) = 2 ^ 8 - 1 := by norm_num
  rw [Nat.testBit_and, h255, Nat.testBit_two_pow_sub_one, Bool.and_comm]

theorem swaplowGo_testBit (k : Nat) :
    ∀ x y i, k ≤ 7 → y < 2 ^ 64 →
      (swaplow.swaplowGo x y k).testBit i =
        if 8 * k ≤ i then (decide (i < 64) && y.testBit (i - 8 * k))
        else x.testBit (8 * (k - i / 8) + i % 8) := by
  induction k with
  | zero =>
    intro x y i _ hy
    rw [if_pos (by omega : 8 * 0 ≤ i)]
    simp only [swaplow.swaplowGo, Nat.mul_zero, Nat.sub_zero]
    by_cases hi : i < 64
    · rw [decide_eq_true hi, Bool.true_and]
    · rw [decide_eq_false hi, Bool.false_and]
      exact Nat.testBit_lt_two_pow
        (lt_of_lt_of_le hy (Nat.pow_le_pow_right (by norm_num) (by omega)))
  | succ k ih =>
    intro x y i hk hy
    rw [show swaplow.swaplowGo x y (k + 1) =
        swaplow.swaplowGo (x >>> 8) (shl64 y 8 ||| (x >>> 8 &&& 255)) k from rfl]
    have hy' : (shl64 y 8 ||| (x >>> 8 &&& 255)) < 2 ^ 64 := by
      apply Nat.or_lt_two_pow (shl64_lt y 8)
      exact lt_of_le_of_lt Nat.and_le_right (by norm_num)
    rw [ih (x >>> 8) _ i (by omega) hy']
    rcases Nat.lt_or_ge i (8 * k) with hik | hik
    · rw [if_neg (by omega), if_neg (by omega), Nat.testBit_shiftRight]
      congr 1
      omega
    · rcases Nat.lt_or_ge i (8 * (k + 1)) with hik2 | hik2
      · rw [if_pos hik, if_neg (by omega)]
        have hi64 : i < 64 := by omega
        rw [decide_eq_true hi64, Bool.true_and, Nat.testBit_or, shl64_testBit,
          testBit_and_255, Nat.testBit_shiftRight,
          decide_eq_false (by omega : ¬ 8 ≤ i - 8 * k),
          decide_eq_true (by omega : i - 8 * k < 8),
          decide_eq_true (by omega : i - 8 * k < 64)]
        simp only [Bool.false_and, Bool.and_false, Bool.true_and, Bool.false_or]
        congr 1
        omega
      · rw [if_pos hik, if_pos hik2]
        by_cases hi64 : i < 64
        · rw [decide_eq_true hi64, Bool.true_and, Bool.true_and, Nat.testBit_or,
            shl64_testBit, testBit_and_255,
            decide_eq_true (by omega : 8 ≤ i - 8 * k),
            decide_eq_false (by omega : ¬ i - 8 * k < 8),
            decide_eq_true (by omega : i - 8 * k < 64)]
          simp only [Bool.true_and, Bool.false_and, Bool.or_false]
          congr 1 <;> omega
        · rw [decide_eq_false hi64, Bool.false_and, Bool.false_and]

theorem swap_testBit (x i : Nat) :
    (swap x).testBit i = (decide (i < 64) && x.testBit (8 * (7 - i / 8) + i % 8)) := by
  rw [show swap x = swaplow.swaplowGo x (x &&& 255) 7 from rfl]
  rw [swaplowGo_testBit 7 x (x &&& 255) i (by omega)
    (lt_of_le_of_lt Nat.and_le_right (by norm_num))]
  by_cases h56 : 8 * 7 ≤ i
  · rw [if_pos h56]
    by_cases hi64 : i < 64
    · rw [decide_eq_true hi64, Bool.true_and, Bool.true_and, testBit_and_255,
        decide_eq_true (by omega : i - 8 * 7 < 8), Bool.true_and]
      congr 1
      omega
    · rw [decide_eq_false hi64, Bool.false_and, Bool.false_and]
  · rw [if_neg h56, decide_eq_true (by omega : i < 64), Bool.true_and]

theorem swap_lt (x : Nat) : swap x < 2 ^ 64 := by
  apply Nat.lt_pow_two_of_testBit
  intro i hi
  rw [swap_testBit, decide_eq_false (by omega : ¬ i < 64), Bool.false_and]

theorem swap_xor (a b : Nat) : swap (a ^^^ b) = swap a ^^^ swap b := by
  apply Nat.eq_of_testBit_eq
  intro i
  rw [Nat.testBit_xor, swap_testBit, swap_testBit, swap_testBit, Nat.testBit_xor]
  cases decide (i < 64) <;> simp

theorem swap_swap (x : Nat) (hx : x < 2 ^ 64) : swap (swap x) = x := by
  apply Nat.eq_of_testBit_eq
  intro i
  rw [swap_testBit, swap_testBit]
  by_cases hi : i < 64
  · have hq : (8 * (7 - i / 8) + i % 8) / 8 = 7 - i / 8 := by omega
    have hr : (8 * (7 - i / 8) + i % 8) % 8 = i % 8 := by omega
    rw [decide_eq_true hi, Bool.true_and,
      decide_eq_true (by omega : 8 * (7 - i / 8) + i % 8 < 64), Bool.true_and, hq, hr]
    congr 1
    omega
  · rw [decide_eq_false hi, Bool.false_and]
    exact (Nat.testBit_lt_two_pow
      (lt_of_lt_of_le hx (Nat.pow_le_pow_right (by norm_num) (by omega)))).symm

/-! ### Width-bound preservation helpers -/

theorem xor_lt_two_pow {a b n : Nat} (ha : a < 2 ^ n) (hb : b < 2 ^ n) :
    a ^^^ b < 2 ^ n := by
  apply Nat.lt_pow_two_of_testBit
  intro i hi
  rw [Nat.testBit_xor,
    Nat.testBit_lt_two_pow (lt_of_lt_of_le ha (Nat.pow_le_pow_right (by norm_num) hi)),
    Nat.testBit_lt_two_pow (lt_of_lt_of_le hb (Nat.pow_le_pow_right (by norm_num) hi))]
  rfl

theorem shiftRight_lt_pow {v : Nat} (a s : Nat) (hv : v < 2 ^ a) :
    v >>> s < 2 ^ (a - s) := by
  rw [Nat.shiftRight_eq_div_pow]
  apply Nat.div_lt_of_lt_mul
  calc v < 2 ^ a := hv
    _ ≤ 2 ^ (a - s + s) := Nat.pow_le_pow_right (by norm_num) (by omega)
    _ = 2 ^ (a - s) * 2 ^ s := by rw [Nat.pow_add]
    _ = 2 ^ s * 2 ^ (a - s) := by ring

theorem shiftRight_le_self (v s : Nat) : v >>> s ≤ v := by
  rw [Nat.shiftRight_eq_div_pow]
  exact Nat.div_le_self v (2 ^ s)

theorem and_255_lt (x : Nat) : x &&& 255 < 256 :=
  lt_of_le_of_lt Nat.and_le_right (by norm_num)

theorem foldl_pres (P Q : Nat → Prop) (f : Nat → Nat → Nat)
    (hf : ∀ c b, P c → Q b → P (f c b)) :
    ∀ (l : List Nat) (c : Nat), (∀ b ∈ l, Q b) → P c → P (l.foldl f c) := by
  intro l
  induction l with
  | nil => intro c _ hc; exact hc
  | cons b rest ih =>
    intro c hQ hc
    rw [List.foldl_cons]
    exact ih (f c b) (fun x hx => hQ x (List.mem_cons_of_mem b hx))
      (hf c b hc (hQ b (List.mem_cons_self b rest)))

theorem wwProlog_pres (step : Nat → Nat → Nat) (P : Nat → Prop)
    (hs : ∀ c b, P c → P (step c b)) :
    ∀ (buf : List Nat) (addr c : Nat), P c → P (wwProlog step addr c buf).2.1 := by
  intro buf
  induction buf with
  | nil => intro addr c hc; exact hc
  | cons b rest ih =>
    intro addr c hc
    rw [wwProlog]
    split
    · exact hc
    · exact ih (addr + 1) (step c b) (hs c b hc)

theorem wwProlog_suffix (step : Nat → Nat → Nat) (P : Nat → Prop) :
    ∀ (buf : List Nat) (addr c : Nat), (∀ b ∈ buf, P b) →
      ∀ b ∈ (wwProlog step addr c buf).2.2, P b := by
  intro buf
  induction buf with
  | nil => intro addr c _ b hb; simp [wwProlog] at hb
  | cons x rest ih =>
    intro addr c hP b hb
    rw [wwProlog] at hb
    split at hb
    · exact hP b hb
    · exact ih (addr + 1) (step c x) (fun y hy => hP y (List.mem_cons_of_mem x hy)) b hb

theorem byte_shl_lt {b : Nat} (s : Nat) (hb : b < 256) (hs : s ≤ 56) :
    b <<< s < 2 ^ 64 := by
  rw [Nat.shiftLeft_eq]
  calc b * 2 ^ s < 256 * 2 ^ s :=
      (Nat.mul_lt_mul_right (Nat.two_pow_pos s)).mpr hb
    _ = 2 ^ (8 + s) := by rw [Nat.pow_add]
    _ ≤ 2 ^ 64 := Nat.pow_le_pow_right (by norm_num) (by omega)

theorem loadWord_lt (little : Bool) (b0 b1 b2 b3 b4 b5 b6 b7 : Nat)
    (h0 : b0 < 256) (h1 : b1 < 256) (h2 : b2 < 256) (h3 : b3 < 256)
    (h4 : b4 < 256) (h5 : b5 < 256) (h6 : b6 < 256) (h7 : b7 < 256) :
    loadWord little b0 b1 b2 b3 b4 b5 b6 b7 < 2 ^ 64 := by
  rw [loadWord]
  split
  · exact Nat.or_lt_two_pow (Nat.or_lt_two_pow (Nat.or_lt_two_pow (Nat.or_lt_two_pow
      (Nat.or_lt_two_pow (Nat.or_lt_two_pow (Nat.or_lt_two_pow
        (by omega) (byte_shl_lt 8 h1 (by norm_num))) (byte_shl_lt 16 h2 (by norm_num)))
        (byte_shl_lt 24 h3 (by norm_num))) (byte_shl_lt 32 h4 (by norm_num)))
        (byte_shl_lt 40 h5 (by norm_num))) (byte_shl_lt 48 h6 (by norm_num)))
        (byte_shl_lt 56 h7 (by norm_num))
  · exact Nat.or_lt_two_pow (Nat.or_lt_two_pow (Nat.or_lt_two_pow (Nat.or_lt_two_pow
      (Nat.or_lt_two_pow (Nat.or_lt_two_pow (Nat.or_lt_two_pow
        (by omega) (byte_shl_lt 8 h6 (by norm_num))) (byte_shl_lt 16 h5 (by norm_num)))
        (byte_shl_lt 24 h4 (by norm_num))) (byte_shl_lt 32 h3 (by norm_num)))
        (byte_shl_lt 40 h2 (by norm_num))) (byte_shl_lt 48 h1 (by norm_num)))
        (byte_shl_lt 56 h0 (by norm_num))

theorem wwLoopLittle_pres (tw : Nat → Nat → Nat) (little : Bool) (P : Nat → Prop)
    (hP64 : ∀ v, P v → v < 2 ^ 64)
    (hx : ∀ a b, P a → P b → P (a ^^^ b))
    (ht : ∀ n k, k < 256 → P (tw n k)) :
    ∀ (c : Nat) (buf : List Nat), (∀ b ∈ buf, b < 256) → P c →
      P (wwLoopLittle tw little c buf).1 := by
  intro c buf
  induction c, buf using wwLoopLittle.induct tw little with
  | case1 c b0 b1 b2 b3 b4 b5 b6 b7 rest cw cf ih =>
    intro hb hc
    have hc' : cw < 2 ^ 64 :=
      xor_lt_two_pow (hP64 c hc)
        (loadWord_lt little b0 b1 b2 b3 b4 b5 b6 b7 (hb b0 (by simp)) (hb b1 (by simp))
          (hb b2 (by simp)) (hb b3 (by simp)) (hb b4 (by simp)) (hb b5 (by simp))
          (hb b6 (by simp)) (hb b7 (by simp)))
    have hcf : P cf := by
      refine hx _ _ (hx _ _ (hx _ _ (hx _ _ (hx _ _ (hx _ _ (hx _ _ ?_ ?_) ?_) ?_) ?_)
        ?_) ?_) ?_
      · exact ht _ _ (and_255_lt _)
      · exact ht _ _ (and_255_lt _)
      · exact ht _ _ (and_255_lt _)
      · exact ht _ _ (and_255_lt _)
      · exact ht _ _ (and_255_lt _)
      · exact ht _ _ (and_255_lt _)
      · exact ht _ _ (and_255_lt _)
      · exact ht _ _ (by simpa using shiftRight_lt_pow 64 56 hc')
    exact ih (fun b hbm => hb b (by simp [hbm])) hcf
  | case2 c rest hne =>
    intro hb hc
    rw [wwLoopLittle.eq_def]
    split
    · exact (hne _ _ _ _ _ _ _ _ _ rfl).elim
    · exact hc

theorem wwLoopBig_pres (tw : Nat → Nat → Nat) (little : Bool) (P : Nat → Prop)
    (hP64 : ∀ v, P v → v < 2 ^ 64)
    (hx : ∀ a b, P a → P b → P (a ^^^ b))
    (ht : ∀ n k, k < 256 → P (tw n k)) :
    ∀ (c : Nat) (buf : List Nat), (∀ b ∈ buf, b < 256) → P c →
      P (wwLoopBig tw little c buf).1 := by
  intro c buf
  induction c, buf using wwLoopBig.induct tw little with
  | case1 c b0 b1 b2 b3 b4 b5 b6 b7 rest cw cf ih =>
    intro hb hc
    have hc' : cw < 2 ^ 64 :=
      xor_lt_two_pow (hP64 c hc)
        (loadWord_lt little b0 b1 b2 b3 b4 b5 b6 b7 (hb b0 (by simp)) (hb b1 (by simp))
          (hb b2 (by simp)) (hb b3 (by simp)) (hb b4 (by simp)) (hb b5 (by simp))
          (hb b6 (by simp)) (hb b7 (by simp)))
    have hcf : P cf := by
      refine hx _ _ (hx _ _ (hx _ _ (hx _ _ (hx _ _ (hx _ _ (hx _ _ ?_ ?_) ?_) ?_) ?_)
        ?_) ?_) ?_
      · exact ht _ _ (and_255_lt _)
      · exact ht _ _ (and_255_lt _)
      · exact ht _ _ (and_255_lt _)
      · exact ht _ _ (and_255_lt _)
      · exact ht _ _ (and_255_lt _)
      · exact ht _ _ (and_255_lt _)
      · exact ht _ _ (and_255_lt _)
      · exact ht _ _ (by simpa using shiftRight_lt_pow 64 56 hc')
    exact ih (fun b hbm => hb b (by simp [hbm])) hcf
  | case2 c rest hne =>
    intro hb hc
    rw [wwLoopBig.eq_def]
    split
    · exact (hne _ _ _ _ _ _ _ _ _ rfl).elim
    · exact hc

theorem bitStepR_lt {w poly : Nat} (k : Nat) (hp : poly < 2 ^ w) {c : Nat}
    (hc : c < 2 ^ (w + k + 1)) : bitStepR poly c < 2 ^ (w + k) := by
  have h1 : c >>> 1 < 2 ^ (w + k) := by
    have := shiftRight_lt_pow (w + k + 1) 1 hc
    simpa using this
  rw [bitStepR]
  split
  · exact xor_lt_two_pow h1
      (lt_of_lt_of_le hp (Nat.pow_le_pow_right (by norm_num) (by omega)))
  · exact h1

theorem iterR_lt {w poly : Nat} (hp : poly < 2 ^ w) :
    ∀ (k : Nat) (c : Nat), c < 2 ^ (w + k) → (bitStepR poly)^[k] c < 2 ^ w := by
  intro k
  induction k with
  | zero => intro c hc; simpa using hc
  | succ k ih =>
    intro c hc
    rw [Function.iterate_succ_apply]
    exact ih (bitStepR poly c) (bitStepR_lt k hp hc)

theorem pow256_le {w : Nat} : (256 : Nat) ≤ 2 ^ (w + 8) := by
  calc (256 : Nat) = 2 ^ 8 := by norm_num
    _ ≤ 2 ^ (w + 8) := Nat.pow_le_pow_right (by norm_num) (by omega)

theorem byteStepR_lt {w poly : Nat} (hp : poly < 2 ^ w) {c : Nat} (b : Nat)
    (hc : c < 2 ^ w) (hb : b < 256) : byteStepR poly c b < 2 ^ w := by
  rw [byteStepR]
  apply iterR_lt hp 8
  exact xor_lt_two_pow
    (lt_of_lt_of_le hc (Nat.pow_le_pow_right (by norm_num) (by omega)))
    (lt_of_lt_of_le hb pow256_le)

theorem tblStepR_lt {w : Nat} {tb : Nat → Nat} (htb : ∀ k, k < 256 → tb k < 2 ^ w)
    {c : Nat} (b : Nat) (hc : c < 2 ^ w) : tblStepR tb c b < 2 ^ w := by
  rw [tblStepR]
  exact xor_lt_two_pow (lt_of_le_of_lt (shiftRight_le_self c 8) hc)
    (htb _ (and_255_lt _))

theorem and_ONES_lt (x w : Nat) (h64 : w ≤ 64) : x &&& ONES w < 2 ^ w := by
  rw [and_ONES x w h64]
  exact Nat.mod_lt x (Nat.two_pow_pos w)

theorem crc_bitwise_some_lt (m : model_t) (crc : Nat) (buf : List Nat)
    (hw1 : 1 ≤ m.width) (hw64 : m.width ≤ 64)
    (hp : m.poly < 2 ^ m.width) (hx : m.xorout < 2 ^ m.width)
    (hb : m.ref = true → ∀ b ∈ buf, b < 256) :
    crc_bitwise m crc (some buf) < 2 ^ m.width := by
  simp only [crc_bitwise]
  have key : ∀ c : Nat, c < 2 ^ m.width →
      ((if m.rev then reverse c m.width else c) ^^^ m.xorout) < 2 ^ m.width := by
    intro c hc
    apply xor_lt_two_pow _ hx
    split
    · exact reverse_lt _ _ hw1 hw64
    · exact hc
  apply key
  split
  · next href =>
    exact foldl_pres (fun v => v < 2 ^ m.width) (fun b => b < 256) _
      (fun c b hc hbb => byteStepR_lt hp b hc hbb) buf _ (hb href) (and_ONES_lt _ _ hw64)
  · split
    · exact and_ONES_lt _ _ hw64
    · exact and_ONES_lt _ _ hw64

theorem crc_bitwise_lt (m : model_t) (crc : Nat) (dat : Option (List Nat))
    (hw1 : 1 ≤ m.width) (hw64 : m.width ≤ 64)
    (hp : m.poly < 2 ^ m.width) (hi : m.init < 2 ^ m.width)
    (hx : m.xorout < 2 ^ m.width)
    (hb : ∀ buf, dat = some buf → ∀ b ∈ buf, b < 256) :
    crc_bitwise m crc dat < 2 ^ m.width := by
  cases dat with
  | none => simpa [crc_bitwise] using hi
  | some buf => exact crc_bitwise_some_lt m crc buf hw1 hw64 hp hx (fun _ => hb buf rfl)

theorem shl64_zero {x : Nat} (hx : x < 2 ^ 64) : shl64 x 0 = x := by
  rw [shl64, Nat.shiftLeft_zero, Nat.mod_eq_of_lt hx]

theorem shiftLeft_lt_pow {x : Nat} (n a : Nat) (hx : x < 2 ^ a) : x <<< n < 2 ^ (a + n) := by
  rw [Nat.shiftLeft_eq, Nat.pow_add]
  exact (Nat.mul_lt_mul_right (Nat.two_pow_pos n)).mpr hx

theorem shl64_lt_pow {x : Nat} (a n : Nat) (hx : x < 2 ^ a) : shl64 x n < 2 ^ (a + n) :=
  lt_of_le_of_lt (Nat.mod_le _ _) (shiftLeft_lt_pow n a hx)

theorem crc_wordwise_some_lt (m2 : model_t) (little : Bool) (addr crc : Nat)
    (buf : List Nat)
    (hw1 : 1 ≤ m2.width) (hw64 : m2.width ≤ 64) (hcrc : crc < 2 ^ m2.width)
    (hb : ∀ b ∈ buf, b < 256)
    (htbR : m2.ref = true → ∀ k, k < 256 → m2.table_byte k < 2 ^ m2.width)
    (htb8 : m2.ref = false → m2.width ≤ 8 → ∀ k, m2.table_byte k < 2 ^ 8)
    (htwR : m2.ref = true → little = true → ∀ n k, k < 256 →
      m2.table_word n k < 2 ^ m2.width)
    (htwRB : m2.ref = true → little = false → ∀ n k, k < 256 →
      m2.table_word n k < 2 ^ 64 ∧ swap (m2.table_word n k) < 2 ^ m2.width)
    (htw64 : ∀ n k, m2.table_word n k < 2 ^ 64) :
    crc_wordwise m2 little addr crc (some buf) < 2 ^ m2.width := by
  have hkey : ∀ c : Nat, c < 2 ^ m2.width →
      (if m2.rev = true then reverse c m2.width else c) < 2 ^ m2.width := by
    intro c hc
    split
    · exact reverse_lt _ _ hw1 hw64
    · exact hc
  have hw2_64 : (2 : Nat) ^ m2.width ≤ 2 ^ 64 := Nat.pow_le_pow_right (by norm_num) hw64
  have hcrc1 : (if m2.rev = true then reverse crc m2.width else crc) < 2 ^ m2.width :=
    hkey crc hcrc
  cases href : m2.ref with
  | true =>
    cases hlit : little with
    | true =>
      simp only [crc_wordwise, href, hlit, if_true, if_false, ite_true, ite_false,
        Bool.true_eq_false, Bool.false_eq_true, eq_self_iff_true, WORDCHARS, WORDBITS]
      apply hkey
      rcases hpr : wwProlog (fun c b => tblStepR m2.table_byte c b) addr
          ((if m2.rev = true then reverse crc m2.width else crc) &&& ONES m2.width) buf
        with ⟨a2, c2, buf2⟩
      have hc2 : c2 < 2 ^ m2.width := by
        have h := wwProlog_pres (fun c b => tblStepR m2.table_byte c b)
          (fun v => v < 2 ^ m2.width)
          (fun c b hc => tblStepR_lt (htbR href) b hc) buf addr
          ((if m2.rev = true then reverse crc m2.width else crc) &&& ONES m2.width)
          (and_ONES_lt _ _ hw64)
        rw [hpr] at h
        exact h
      have hbuf2 : ∀ b ∈ buf2, b < 256 := by
        have h := wwProlog_suffix (fun c b => tblStepR m2.table_byte c b)
          (fun b => b < 256) buf addr
          ((if m2.rev = true then reverse crc m2.width else crc) &&& ONES m2.width) hb
        rw [hpr] at h
        exact h
      dsimp only
      rw [shl64_zero (lt_of_lt_of_le hc2 hw2_64)]
      split
      · dsimp only
        rw [Nat.shiftRight_zero]
        exact foldl_pres (fun v => v < 2 ^ m2.width) (fun _ => True) _
          (fun c b hc _ => tblStepR_lt (htbR href) b hc) _ _ (fun _ _ => trivial)
          (wwLoopLittle_pres m2.table_word true (fun v => v < 2 ^ m2.width)
            (fun v hv => lt_of_lt_of_le hv hw2_64)
            (fun a b ha hb2 => xor_lt_two_pow ha hb2)
            (fun n k hk => htwR href hlit n k hk) c2 buf2 hbuf2 hc2)
      · dsimp only
        exact foldl_pres (fun v => v < 2 ^ m2.width) (fun _ => True) _
          (fun c b hc _ => tblStepR_lt (htbR href) b hc) _ _ (fun _ _ => trivial) hc2
    | false =>
      simp only [crc_wordwise, href, hlit, if_true, if_false, ite_true, ite_false,
        Bool.true_eq_false, Bool.false_eq_true, eq_self_iff_true, WORDCHARS, WORDBITS]
      apply hkey
      rcases hpr : wwProlog (fun c b => tblStepR m2.table_byte c b) addr
          ((if m2.rev = true then reverse crc m2.width else crc) &&& ONES m2.width) buf
        with ⟨a2, c2, buf2⟩
      have hc2 : c2 < 2 ^ m2.width := by
        have h := wwProlog_pres (fun c b => tblStepR m2.table_byte c b)
          (fun v => v < 2 ^ m2.width)
          (fun c b hc => tblStepR_lt (htbR href) b hc) buf addr
          ((if m2.rev = true then reverse crc m2.width else crc) &&& ONES m2.width)
          (and_ONES_lt _ _ hw64)
        rw [hpr] at h
        exact h
      have hbuf2 : ∀ b ∈ buf2, b < 256 := by
        have h := wwProlog_suffix (fun c b => tblStepR m2.table_byte c b)
          (fun b => b < 256) buf addr
          ((if m2.rev = true then reverse crc m2.width else crc) &&& ONES m2.width) hb
        rw [hpr] at h
        exact h
      dsimp only
      rw [shl64_zero (lt_of_lt_of_le hc2 hw2_64)]
      split
      · dsimp only
        rw [Nat.shiftRight_zero]
        have hloop := wwLoopBig_pres m2.table_word false
          (fun v => v < 2 ^ 64 ∧ swap v < 2 ^ m2.width)
          (fun v hv => hv.1)
          (fun a b ha hb2 => ⟨xor_lt_two_pow ha.1 hb2.1,
            by rw [swap_xor]; exact xor_lt_two_pow ha.2 hb2.2⟩)
          (fun n k hk => htwRB href hlit n k hk) (swap c2) buf2 hbuf2
          ⟨swap_lt c2, by rw [swap_swap c2 (lt_of_lt_of_le hc2 hw2_64)]; exact hc2⟩
        exact foldl_pres (fun v => v < 2 ^ m2.width) (fun _ => True) _
          (fun c b hc _ => tblStepR_lt (htbR href) b hc) _ _ (fun _ _ => trivial) hloop.2
      · dsimp only
        exact foldl_pres (fun v => v < 2 ^ m2.width) (fun _ => True) _
          (fun c b hc _ => tblStepR_lt (htbR href) b hc) _ _ (fun _ _ => trivial) hc2
  | false =>
    by_cases hw8 : m2.width ≤ 8
    · have hng : ¬ (8 < m2.width) := by omega
      cases hlit : little with
      | true =>
        simp only [crc_wordwise, href, hlit, if_true, if_false, ite_true, ite_false,
          Bool.true_eq_false, Bool.false_eq_true, eq_self_iff_true, WORDCHARS, WORDBITS,
          hw8, hng, gt_iff_lt]
        apply hkey
        rcases hpr : wwProlog (fun c b => m2.table_byte ((c ^^^ b) &&& 255)) addr
            (shl64 (if m2.rev = true then reverse crc m2.width else crc) (8 - m2.width)) buf
          with ⟨a2, c2, buf2⟩
        have hinit : shl64 (if m2.rev = true then reverse crc m2.width else crc)
            (8 - m2.width) < 2 ^ 8 := by
          have h := shl64_lt_pow m2.width (8 - m2.width) hcrc1
          have he : m2.width + (8 - m2.width) = 8 := by omega
          rwa [he] at h
        have hc2 : c2 < 2 ^ 8 := by
          have h := wwProlog_pres (fun c b => m2.table_byte ((c ^^^ b) &&& 255))
            (fun v => v < 2 ^ 8)
            (fun c b _ => htb8 href hw8 _) buf addr _ hinit
          rw [hpr] at h
          exact h
        have hfin : ∀ c0 : Nat, c0 < 2 ^ 8 → ∀ l : List Nat,
            (List.foldl (fun c b => m2.table_byte ((c ^^^ b) &&& 255)) c0 l) >>>
              (8 - m2.width) < 2 ^ m2.width := by
          intro c0 hc0 l
          have hf : List.foldl (fun c b => m2.table_byte ((c ^^^ b) &&& 255)) c0 l < 2 ^ 8 :=
            foldl_pres (fun v => v < 2 ^ 8) (fun _ => True) _
              (fun c b _ _ => htb8 href hw8 _) l c0 (fun _ _ => trivial) hc0
          have h := shiftRight_lt_pow 8 (8 - m2.width) hf
          have he : 8 - (8 - m2.width) = m2.width := by omega
          rwa [he] at h
        dsimp only
        split
        · dsimp only
          apply hfin
          have h := shiftRight_lt_pow 64 (64 - 8) (swap_lt
            ((wwLoopLittle m2.table_word true
              (swap (shl64 c2 (64 - 8))) buf2).1))
          norm_num at h
          exact h
        · dsimp only
          exact hfin c2 hc2 buf2
      | false =>
        simp only [crc_wordwise, href, hlit, if_true, if_false, ite_true, ite_false,
          Bool.true_eq_false, Bool.false_eq_true, eq_self_iff_true, WORDCHARS, WORDBITS,
          hw8, hng, gt_iff_lt]
        apply hkey
        rcases hpr : wwProlog (fun c b => m2.table_byte ((c ^^^ b) &&& 255)) addr
            (shl64 (if m2.rev = true then reverse crc m2.width else crc) (8 - m2.width)) buf
          with ⟨a2, c2, buf2⟩
        have hinit : shl64 (if m2.rev = true then reverse crc m2.width else crc)
            (8 - m2.width) < 2 ^ 8 := by
          have h := shl64_lt_pow m2.width (8 - m2.width) hcrc1
          have he : m2.width + (8 - m2.width) = 8 := by omega
          rwa [he] at h
        have hc2 : c2 < 2 ^ 8 := by
          have h := wwProlog_pres (fun c b => m2.table_byte ((c ^^^ b) &&& 255))
            (fun v => v < 2 ^ 8)
            (fun c b _ => htb8 href hw8 _) buf addr _ hinit
          rw [hpr] at h
          exact h
        have hbuf2 : ∀ b ∈ buf2, b < 256 := by
          have h := wwProlog_suffix (fun c b => m2.table_byte ((c ^^^ b) &&& 255))
            (fun b => b < 256) buf addr
            (shl64 (if m2.rev = true then reverse crc m2.width else crc) (8 - m2.width)) hb
          rw [hpr] at h
          exact h
        have hfin : ∀ c0 : Nat, c0 < 2 ^ 8 → ∀ l : List Nat,
            (List.foldl (fun c b => m2.table_byte ((c ^^^ b) &&& 255)) c0 l) >>>
              (8 - m2.width) < 2 ^ m2.width := by
          intro c0 hc0 l
          have hf : List.foldl (fun c b => m2.table_byte ((c ^^^ b) &&& 255)) c0 l < 2 ^ 8 :=
            foldl_pres (fun v => v < 2 ^ 8) (fun _ => True) _
              (fun c b _ _ => htb8 href hw8 _) l c0 (fun _ _ => trivial) hc0
          have h := shiftRight_lt_pow 8 (8 - m2.width) hf
          have he : 8 - (8 - m2.width) = m2.width := by omega
          rwa [he] at h
        dsimp only
        split
        · dsimp only
          apply hfin
          have hloop := wwLoopBig_pres m2.table_word false (fun v => v < 2 ^ 64)
            (fun v hv => hv) (fun a b ha hb2 => xor_lt_two_pow ha hb2)
            (fun n k _ => htw64 n k) (shl64 c2 (64 - 8)) buf2 hbuf2 (shl64_lt _ _)
          have h := shiftRight_lt_pow 64 (64 - 8) hloop
          norm_num at h
          exact h
        · dsimp only
          exact hfin c2 hc2 buf2
    · have h8w : 8 < m2.width := by omega
      simp only [crc_wordwise, href, hw8, h8w, if_true, if_false, ite_true, ite_false,
        Bool.true_eq_false, Bool.false_eq_true, eq_self_iff_true, WORDCHARS, WORDBITS,
        gt_iff_lt]
      apply hkey
      exact and_ONES_lt _ _ hw64

theorem crc_bytewise_some_lt (m2 : model_t) (crc : Nat) (buf : List Nat)
    (hw1 : 1 ≤ m2.width) (hw64 : m2.width ≤ 64) (hcrc : crc < 2 ^ m2.width)
    (htbR : m2.ref = true → ∀ k, k < 256 → m2.table_byte k < 2 ^ m2.width)
    (htb8 : m2.ref = false → m2.width ≤ 8 → ∀ k, m2.table_byte k < 2 ^ 8) :
    crc_bytewise m2 crc (some buf) < 2 ^ m2.width := by
  simp only [crc_bytewise]
  have hkey : ∀ c : Nat, c < 2 ^ m2.width →
      (if m2.rev = true then reverse c m2.width else c) < 2 ^ m2.width := by
    intro c hc
    split
    · exact reverse_lt _ _ hw1 hw64
    · exact hc
  have hcrc1 : (if m2.rev = true then reverse crc m2.width else crc) < 2 ^ m2.width :=
    hkey crc hcrc
  apply hkey
  split
  · next href =>
    exact foldl_pres (fun v => v < 2 ^ m2.width) (fun _ => True) _
      (fun c b hc _ => tblStepR_lt (htbR href) b hc) _ _ (fun _ _ => trivial)
      (and_ONES_lt _ _ hw64)
  · next hnref =>
    rw [Bool.not_eq_true] at hnref
    split
    · next hw8 =>
      have hinit : shl64 (if m2.rev = true then reverse crc m2.width else crc)
          (8 - m2.width) < 2 ^ 8 := by
        have h := shl64_lt_pow m2.width (8 - m2.width) hcrc1
        rwa [(by omega : m2.width + (8 - m2.width) = 8)] at h
      have hf : List.foldl (fun c b => m2.table_byte (c ^^^ b))
          (shl64 (if m2.rev = true then reverse crc m2.width else crc) (8 - m2.width)) buf
            < 2 ^ 8 :=
        foldl_pres (fun v => v < 2 ^ 8) (fun _ => True) _
          (fun c b _ _ => htb8 hnref hw8 _) buf _ (fun _ _ => trivial) hinit
      have h := shiftRight_lt_pow 8 (8 - m2.width) hf
      rwa [(by omega : 8 - (8 - m2.width) = m2.width)] at h
    · exact and_ONES_lt _ _ hw64

theorem iterate_pres (f : Nat → Nat) (P : Nat → Prop) (hf : ∀ v, P v → P (f v)) :
    ∀ n v, P v → P (f^[n] v) := by
  intro n
  induction n with
  | zero => intro v hv; simpa using hv
  | succ n ih =>
    intro v hv
    rw [Function.iterate_succ_apply]
    exact ih _ (hf v hv)

theorem table_byte_core_lt (m : model_t) (hw1 : 1 ≤ m.width) (hw64 : m.width ≤ 64)
    (hp : m.poly < 2 ^ m.width) (hx : m.xorout < 2 ^ m.width)
    (k : Nat) (hk : m.ref = true → k < 256) :
    (if m.rev then reverse (crc_bitwise m 0 (some [k])) m.width
      else crc_bitwise m 0 (some [k])) < 2 ^ m.width := by
  have he : crc_bitwise m 0 (some [k]) < 2 ^ m.width :=
    crc_bitwise_some_lt m 0 [k] hw1 hw64 hp hx
      (fun hr b hbm => by rw [List.mem_singleton] at hbm; subst hbm; exact hk hr)
  split
  · exact reverse_lt _ _ hw1 hw64
  · exact he

theorem table_byte_ref_lt (m : model_t) (hw1 : 1 ≤ m.width) (hw64 : m.width ≤ 64)
    (hp : m.poly < 2 ^ m.width) (hx : m.xorout < 2 ^ m.width)
    (href : m.ref = true) (k : Nat) (hk : k < 256) :
    (crc_table_bytewise m).table_byte k < 2 ^ m.width := by
  simp only [crc_table_bytewise]
  rw [if_neg (by simp [href])]
  exact table_byte_core_lt m hw1 hw64 hp hx k (fun _ => hk)

theorem table_byte_le8_lt (m : model_t) (hw1 : 1 ≤ m.width) (hw64 : m.width ≤ 64)
    (hp : m.poly < 2 ^ m.width) (hx : m.xorout < 2 ^ m.width)
    (href : m.ref = false) (hw8 : m.width ≤ 8) (k : Nat) :
    (crc_table_bytewise m).table_byte k < 2 ^ 8 := by
  simp only [crc_table_bytewise]
  have hcore := table_byte_core_lt m hw1 hw64 hp hx k
    (fun h => absurd h (by simp [href]))
  split
  · have h := shl64_lt_pow m.width (8 - m.width) hcore
    rwa [(by omega : m.width + (8 - m.width) = 8)] at h
  · next hcond =>
    have hw8' : m.width = 8 := by
      rcases Nat.lt_or_ge m.width 8 with h | h
      · exact absurd ⟨h, href⟩ hcond
      · omega
    rw [← hw8']
    exact hcore

theorem table_byte_gt8_lt (m : model_t) (hw1 : 1 ≤ m.width) (hw64 : m.width ≤ 64)
    (hp : m.poly < 2 ^ m.width) (hx : m.xorout < 2 ^ m.width)
    (href : m.ref = false) (h8w : 8 < m.width) (k : Nat) :
    (crc_table_bytewise m).table_byte k < 2 ^ m.width := by
  simp only [crc_table_bytewise]
  rw [if_neg (by rintro ⟨h1, _⟩; omega)]
  exact table_byte_core_lt m hw1 hw64 hp hx k (fun h => absurd h (by simp [href]))

theorem table_word_lt64 (m2 : model_t) (little : Bool) :
    ∀ n k, (crc_table_wordwise m2 little 64).table_word n k < 2 ^ 64 := by
  intro n k
  simp only [crc_table_wordwise]
  split
  · have hsw : ∀ v : Nat, swaplow v (64 >>> 3) = swap v := fun _ => rfl
    rw [hsw]
    exact swap_lt _
  · exact shl64_lt _ _

theorem table_word_ref_little_lt (m2 : model_t) (hw64 : m2.width ≤ 64)
    (href : m2.ref = true) (hx : m2.xorout < 2 ^ m2.width)
    (htb : ∀ k, k < 256 → m2.table_byte k < 2 ^ m2.width) :
    ∀ n k, k < 256 → (crc_table_wordwise m2 true 64).table_word n k < 2 ^ m2.width := by
  intro n k hk
  simp only [crc_table_wordwise, href, if_true, if_false, ite_true, ite_false,
    Bool.true_eq_false, Bool.false_eq_true, eq_self_iff_true, and_false, false_and,
    Bool.true_xor, Bool.not_true]
  rw [shl64, Nat.shiftLeft_zero]
  apply lt_of_le_of_lt (Nat.mod_le _ _)
  exact iterate_pres _ (fun v => v < 2 ^ m2.width)
    (fun v hv => xor_lt_two_pow (xor_lt_two_pow
      (lt_of_le_of_lt (shiftRight_le_self _ 8) (xor_lt_two_pow hv hx))
      (htb _ (and_255_lt _))) hx) n _ (htb k hk)

theorem table_word_ref_big_lt (m2 : model_t) (hw64 : m2.width ≤ 64)
    (href : m2.ref = true) (hx : m2.xorout < 2 ^ m2.width)
    (htb : ∀ k, k < 256 → m2.table_byte k < 2 ^ m2.width) :
    ∀ n k, k < 256 → (crc_table_wordwise m2 false 64).table_word n k < 2 ^ 64 ∧
      swap ((crc_table_wordwise m2 false 64).table_word n k) < 2 ^ m2.width := by
  intro n k hk
  simp only [crc_table_wordwise, href, if_true, if_false, ite_true, ite_false,
    Bool.true_eq_false, Bool.false_eq_true, eq_self_iff_true, and_false, false_and,
    Bool.false_xor]
  have hsw : ∀ v : Nat, swaplow v (64 >>> 3) = swap v := fun _ => rfl
  rw [hsw]
  constructor
  · exact swap_lt _
  · rw [swap_swap _ (shl64_lt _ _), shl64, Nat.shiftLeft_zero]
    apply lt_of_le_of_lt (Nat.mod_le _ _)
    exact iterate_pres _ (fun v => v < 2 ^ m2.width)
      (fun v hv => xor_lt_two_pow (xor_lt_two_pow
        (lt_of_le_of_lt (shiftRight_le_self _ 8) (xor_lt_two_pow hv hx))
        (htb _ (and_255_lt _))) hx) n _ (htb k hk)

/-- C9: for every valid normalised model (width between 1 and 64, poly, init
and xorout all width-bit values) with its byte and word tables built by
crc_table_bytewise and crc_table_wordwise, and every input CRC that fits in
width bits, the values returned by crc_bitwise, crc_bytewise and
crc_wordwise also fit in width bits, for any data (bytes below 256) and
length, any alignment and either endianness. -/
theorem engines_preserve_width_bound (m : model_t) (little : Bool) (addr crc : Nat)
    (dat : Option (List Nat))
    (hw1 : 1 ≤ m.width) (hw64 : m.width ≤ 64)
    (hpoly : m.poly < 2 ^ m.width) (hinit : m.init < 2 ^ m.width)
    (hxor : m.xorout < 2 ^ m.width) (hcrc : crc < 2 ^ m.width)
    (hdat : ∀ buf, dat = some buf → ∀ b ∈ buf, b < 256) :
    crc_bitwise m crc dat < 2 ^ m.width ∧
    crc_bytewise (crc_table_wordwise (crc_table_bytewise m) little 64) crc dat
      < 2 ^ m.width ∧
    crc_wordwise (crc_table_wordwise (crc_table_bytewise m) little 64) little addr crc dat
      < 2 ^ m.width := by
  cases dat with
  | none =>
    simp only [crc_bitwise, crc_bytewise, crc_wordwise]
    exact ⟨hinit, hinit, hinit⟩
  | some buf =>
    have htbR : (crc_table_wordwise (crc_table_bytewise m) little 64).ref = true →
        ∀ k, k < 256 →
          (crc_table_wordwise (crc_table_bytewise m) little 64).table_byte k
            < 2 ^ m.width :=
      fun href k hk => table_byte_ref_lt m hw1 hw64 hpoly hxor href k hk
    have htb8 : (crc_table_wordwise (crc_table_bytewise m) little 64).ref = false →
        m.width ≤ 8 →
        ∀ k, (crc_table_wordwise (crc_table_bytewise m) little 64).table_byte k
          < 2 ^ 8 :=
      fun href hw8 k => table_byte_le8_lt m hw1 hw64 hpoly hxor href hw8 k
    refine ⟨crc_bitwise_some_lt m crc buf hw1 hw64 hpoly hxor
      (fun _ => hdat buf rfl), ?_, ?_⟩
    · exact crc_bytewise_some_lt (crc_table_wordwise (crc_table_bytewise m) little 64)
        crc buf hw1 hw64 hcrc htbR htb8
    · refine crc_wordwise_some_lt (crc_table_wordwise (crc_table_bytewise m) little 64)
        little addr crc buf hw1 hw64 hcrc (hdat buf rfl) htbR htb8 ?_ ?_ ?_
      · intro href hlit n k hk
        cases hlit
        exact table_word_ref_little_lt (crc_table_bytewise m) hw64 href hxor
          (fun j hj => table_byte_ref_lt m hw1 hw64 hpoly hxor href j hj) n k hk
      · intro href hlit n k hk
        cases hlit
        exact table_word_ref_big_lt (crc_table_bytewise m) hw64 href hxor
          (fun j hj => table_byte_ref_lt m hw1 hw64 hpoly hxor href j hj) n k hk
      · exact table_word_lt64 (crc_table_bytewise m) little

/-- Witness for C9 at a concrete processed model (the width-3 example),
little-endian host, odd alignment, a three-byte message. -/
theorem engines_preserve_width_bound_witness :
    crc_bitwise mW3n 5 (some [0, 255, 7]) < 2 ^ mW3n.width ∧
    crc_bytewise (crc_table_wordwise (crc_table_bytewise mW3n) true 64) 5
      (some [0, 255, 7]) < 2 ^ mW3n.width ∧
    crc_wordwise (crc_table_wordwise (crc_table_bytewise mW3n) true 64) true 3 5
      (some [0, 255, 7]) < 2 ^ mW3n.width :=
  engines_preserve_width_bound mW3n true 3 5 (some [0, 255, 7])
    (by decide) (by decide) (by decide) (by decide) (by decide) (by decide)
    (fun buf h => by injection h with h; subst h; decide)

/-! ### Carry-less product algebra -/

theorem shiftLeft_xor (a b n : Nat) : (a ^^^ b) <<< n = a <<< n ^^^ b <<< n := by
  apply Nat.eq_of_testBit_eq
  intro i
  rw [Nat.testBit_shiftLeft, Nat.testBit_xor, Nat.testBit_xor,
    Nat.testBit_shiftLeft, Nat.testBit_shiftLeft]
  cases decide (n ≤ i) <;> simp

theorem shiftLeft_shiftLeft (a m n : Nat) : a <<< m <<< n = a <<< (m + n) := by
  rw [Nat.shiftLeft_eq, Nat.shiftLeft_eq, Nat.shiftLeft_eq, Nat.pow_add]
  ring

theorem xor_left_comm (a b c : Nat) : a ^^^ (b ^^^ c) = b ^^^ (a ^^^ c) := by
  rw [← Nat.xor_assoc, Nat.xor_comm a b, Nat.xor_assoc]

theorem xor_xor_self (a b : Nat) : a ^^^ (a ^^^ b) = b := by
  rw [← Nat.xor_assoc, Nat.xor_self, Nat.zero_xor]

theorem and1_cases (x : Nat) : x &&& 1 = 0 ∨ x &&& 1 = 1 := by
  rw [Nat.and_one_is_mod]
  omega

theorem clmulF_zero_left : ∀ f b, clmulF f 0 b = 0 := by
  intro f
  induction f with
  | zero => intro b; rfl
  | succ f ih =>
    intro b
    simp only [clmulF, Nat.zero_shiftRight, ih]
    norm_num

theorem clmulF_zero_right : ∀ f a, clmulF f a 0 = 0 := by
  intro f
  induction f with
  | zero => intro a; rfl
  | succ f ih =>
    intro a
    simp only [clmulF, ih]
    split <;> norm_num

theorem clmulF_stable : ∀ f g a b, a < 2 ^ f → f ≤ g → clmulF g a b = clmulF f a b := by
  intro f
  induction f with
  | zero =>
    intro g a b ha _
    have : a = 0 := by omega
    subst this
    rw [clmulF_zero_left, clmulF_zero_left]
  | succ f ih =>
    intro g a b ha hfg
    match g, hfg with
    | g + 1, _ =>
      simp only [clmulF]
      rw [ih g (a >>> 1) b (by
        rw [Nat.shiftRight_succ, Nat.shiftRight_zero]
        rw [Nat.pow_succ] at ha
        omega) (by omega)]

theorem clmulF_xor_left : ∀ f x y b,
    clmulF f (x ^^^ y) b = clmulF f x b ^^^ clmulF f y b := by
  intro f
  induction f with
  | zero => intro x y b; simp [clmulF]
  | succ f ih =>
    intro x y b
    simp only [clmulF]
    rw [shiftRight_xor, ih, shiftLeft_xor, and_xor_right]
    rcases and1_cases x with hx | hx <;> rcases and1_cases y with hy | hy <;>
      simp [hx, hy, Nat.xor_assoc, Nat.xor_comm, xor_left_comm, xor_xor_self, Nat.xor_self, Nat.xor_zero, Nat.zero_xor]

theorem clmulF_xor_right : ∀ f a x y,
    clmulF f a (x ^^^ y) = clmulF f a x ^^^ clmulF f a y := by
  intro f
  induction f with
  | zero => intro a x y; simp [clmulF]
  | succ f ih =>
    intro a x y
    simp only [clmulF]
    rw [ih, shiftLeft_xor]
    split <;> simp [Nat.xor_assoc, Nat.xor_comm, xor_left_comm, xor_xor_self, Nat.xor_self, Nat.xor_zero, Nat.zero_xor]

theorem clmulF_shl_right : ∀ f a b n,
    clmulF f a (b <<< n) = (clmulF f a b) <<< n := by
  intro f
  induction f with
  | zero => intro a b n; simp [clmulF]
  | succ f ih =>
    intro a b n
    simp only [clmulF]
    rw [ih, shiftLeft_xor, shiftLeft_shiftLeft, shiftLeft_shiftLeft, Nat.add_comm n 1]
    congr 1
    split <;> simp

theorem clmulF_one_left (f b : Nat) : clmulF (f + 1) 1 b = b := by
  simp only [clmulF]
  rw [if_pos (by decide : (1:Nat) &&& 1 = 1),
    (by decide : (1:Nat) >>> 1 = 0), clmulF_zero_left, Nat.zero_shiftLeft, Nat.xor_zero]

theorem clmulF_two_pow_left : ∀ k f b, k < f → clmulF f (2 ^ k) b = b <<< k := by
  intro k
  induction k with
  | zero =>
    intro f b hk
    match f, hk with
    | f + 1, _ =>
      rw [Nat.pow_zero, clmulF_one_left]
      simp
  | succ k ih =>
    intro f b hk
    match f, hk with
    | f + 1, _ =>
      simp only [clmulF]
      have h1 : 2 ^ (k + 1) &&& 1 = 0 := by
        rw [Nat.and_one_is_mod, Nat.pow_succ]
        omega
      have h2 : 2 ^ (k + 1) >>> 1 = 2 ^ k := by
        rw [Nat.shiftRight_succ, Nat.shiftRight_zero, Nat.pow_succ]
        omega
      rw [h1, h2, ih f b (by omega)]
      norm_num
      rw [shiftLeft_shiftLeft]

theorem clmulF_lt : ∀ f k a b m, a < 2 ^ k → b < 2 ^ m → clmulF f a b < 2 ^ (m + k) := by
  intro f
  induction f with
  | zero =>
    intro k a b m _ _
    exact Nat.two_pow_pos _
  | succ f ih =>
    intro k a b m ha hb
    cases k with
    | zero =>
      have : a = 0 := by omega
      subst this
      rw [clmulF_zero_left]
      exact Nat.two_pow_pos _
    | succ k =>
      simp only [clmulF]
      have hrec : clmulF f (a >>> 1) b < 2 ^ (m + k) :=
        ih k (a >>> 1) b m (by
          rw [Nat.shiftRight_succ, Nat.shiftRight_zero]
          rw [Nat.pow_succ] at ha
          omega) hb
      have hshl : (clmulF f (a >>> 1) b) <<< 1 < 2 ^ (m + (k + 1)) := by
        have := shiftLeft_lt_pow 1 (m + k) hrec
        rwa [(by omega : m + k + 1 = m + (k + 1))] at this
      have hif : (if a &&& 1 = 1 then b else 0) < 2 ^ (m + (k + 1)) := by
        split
        · exact lt_of_lt_of_le hb (Nat.pow_le_pow_right (by norm_num) (by omega))
        · exact Nat.two_pow_pos _
      exact xor_lt_two_pow hif hshl

theorem bit_decomp (a : Nat) : a = (a &&& 1) ^^^ ((a >>> 1) <<< 1) := by
  apply Nat.eq_of_testBit_eq
  intro i
  rw [Nat.testBit_xor, Nat.testBit_and, Nat.testBit_shiftLeft, Nat.testBit_shiftRight]
  cases i with
  | zero => simp
  | succ j =>
    have h1 : Nat.testBit 1 (j + 1) = false := by
      rw [Nat.testBit_succ]
      simp [Nat.testBit_zero]
    rw [h1]
    simp [Nat.add_comm 1 j]

/-! ### Polynomial remainder: bounds, specification, uniqueness -/

theorem clmulF_succ (f a b : Nat) : clmulF (f + 1) a b =
    (if a &&& 1 = 1 then b else 0) ^^^ (clmulF f (a >>> 1) b) <<< 1 := rfl

theorem clmul_zero_left (b : Nat) : clmul 0 b = 0 := clmulF_zero_left 192 b

theorem clmul_xor_left (x y b : Nat) : clmul (x ^^^ y) b = clmul x b ^^^ clmul y b :=
  clmulF_xor_left 192 x y b

theorem clmul_xor_right (a x y : Nat) : clmul a (x ^^^ y) = clmul a x ^^^ clmul a y :=
  clmulF_xor_right 192 a x y

theorem clmul_two_pow_left (k b : Nat) (hk : k < 192) : clmul (2 ^ k) b = b <<< k :=
  clmulF_two_pow_left k 192 b hk

theorem clmul_one_left (b : Nat) : clmul 1 b = b := clmulF_one_left 191 b

theorem clmul_shl_right (a b n : Nat) : clmul a (b <<< n) = (clmul a b) <<< n :=
  clmulF_shl_right 192 a b n

theorem clmul_shl_one_left (x b : Nat) (hx : x < 2 ^ 191) :
    clmul (x <<< 1) b = (clmul x b) <<< 1 := by
  rw [clmul, (by rfl : (192 : Nat) = 191 + 1), clmulF_succ]
  have h1 : (x <<< 1) &&& 1 = 0 := by
    rw [Nat.and_one_is_mod, Nat.shiftLeft_eq]
    omega
  have h2 : (x <<< 1) >>> 1 = x := by
    rw [Nat.shiftLeft_eq, Nat.shiftRight_eq_div_pow]
    omega
  rw [h1, h2, show clmulF 191 x b = clmul x b from
    (clmulF_stable 191 192 x b hx (by omega)).symm, if_neg (by omega), Nat.zero_xor]

theorem clmul_lt {a b k m : Nat} (ha : a < 2 ^ k) (hb : b < 2 ^ m) :
    clmul a b < 2 ^ (m + k) := clmulF_lt 192 k a b m ha hb

theorem testBit_true_ge {x i : Nat} (h : x.testBit i = true) : 2 ^ i ≤ x := by
  by_contra hc
  push_neg at hc
  rw [Nat.testBit_lt_two_pow hc] at h
  cases h

theorem lt_pow_of_testBit_high_false {v n : Nat} (hv : v < 2 ^ (n + 1))
    (hb : v.testBit n = false) : v < 2 ^ n := by
  apply Nat.lt_pow_two_of_testBit
  intro i hi
  rcases Nat.eq_or_lt_of_le hi with h | h
  · rw [← h]; exact hb
  · exact Nat.testBit_lt_two_pow
      (lt_of_lt_of_le hv (Nat.pow_le_pow_right (by norm_num) (by omega)))

theorem polyModGo_lt {phat w : Nat} (hbit : phat.testBit w = true)
    (hsz : phat < 2 ^ (w + 1)) :
    ∀ k v, v < 2 ^ (w + k) → polyModGo phat w k v < 2 ^ w := by
  intro k
  induction k with
  | zero => intro v hv; exact hv
  | succ k ih =>
    intro v hv
    rw [polyModGo]
    apply ih
    split
    · next htb =>
      apply Nat.lt_pow_two_of_testBit
      intro i hi
      rw [Nat.testBit_xor, Nat.testBit_shiftLeft]
      rcases Nat.eq_or_lt_of_le hi with h | h
      · rw [← h, htb, decide_eq_true (by omega : w + k ≥ k), Bool.true_and,
          (by omega : w + k - k = w), hbit]
        rfl
      · rw [Nat.testBit_lt_two_pow
          (lt_of_lt_of_le hv (Nat.pow_le_pow_right (by norm_num) (by omega)))]
        have hph : phat.testBit (i - k) = false :=
          Nat.testBit_lt_two_pow
            (lt_of_lt_of_le hsz (Nat.pow_le_pow_right (by norm_num) (by omega)))
        rw [hph]
        cases decide (k ≤ i) <;> rfl
    · next htb =>
      rw [Bool.not_eq_true] at htb
      exact lt_pow_of_testBit_high_false hv htb

theorem polyModGo_spec (phat w : Nat) :
    ∀ k v, k ≤ 64 → ∃ q, q < 2 ^ k ∧ polyModGo phat w k v ^^^ v = clmul q phat := by
  intro k
  induction k with
  | zero =>
    intro v _
    exact ⟨0, Nat.one_pos, by rw [polyModGo, Nat.xor_self, clmul_zero_left]⟩
  | succ k ih =>
    intro v hk
    rw [polyModGo]
    obtain ⟨q, hq, hgo⟩ := ih (if v.testBit (w + k) then v ^^^ phat <<< k else v) (by omega)
    refine ⟨q ^^^ (if v.testBit (w + k) then 2 ^ k else 0), ?_, ?_⟩
    · apply xor_lt_two_pow (lt_of_lt_of_le hq (Nat.pow_le_pow_right (by norm_num) (by omega)))
      split
      · exact Nat.pow_lt_pow_right (by norm_num) (by omega)
      · exact Nat.two_pow_pos _
    · rw [clmul_xor_left]
      have hdiff : (if v.testBit (w + k) then v ^^^ phat <<< k else v) ^^^ v =
          clmul (if v.testBit (w + k) then 2 ^ k else 0) phat := by
        split
        · rw [Nat.xor_comm v (phat <<< k), Nat.xor_assoc, Nat.xor_self, Nat.xor_zero,
            clmul_two_pow_left k phat (by omega)]
        · rw [Nat.xor_self, clmul_zero_left]
      rw [← hgo, ← hdiff, Nat.xor_assoc, xor_xor_self]

theorem xor_ge {a b m : Nat} (ha : 2 ^ m ≤ a) (hb : b < 2 ^ m) : 2 ^ m ≤ a ^^^ b := by
  by_contra h
  push_neg at h
  have ha2 : a = (a ^^^ b) ^^^ b := by rw [Nat.xor_assoc, Nat.xor_self, Nat.xor_zero]
  have : a < 2 ^ m := ha2 ▸ xor_lt_two_pow h hb
  omega

theorem clmulF_ge {w phat : Nat} (hbit : phat.testBit w = true)
    (hsz : phat < 2 ^ (w + 1)) :
    ∀ f q, q ≠ 0 → q < 2 ^ f → 2 ^ w ≤ clmulF f q phat := by
  intro f
  induction f with
  | zero => intro q hq hqf; omega
  | succ f ih =>
    intro q hq hqf
    have hdiv : q >>> 1 = q / 2 := by
      rw [Nat.shiftRight_eq_div_pow, Nat.pow_one]
    rw [clmulF_succ]
    by_cases hz : q >>> 1 = 0
    · have hq1 : q = 1 := by omega
      subst hq1
      rw [if_pos (by decide : (1:Nat) &&& 1 = 1), hz, clmulF_zero_left,
        Nat.zero_shiftLeft, Nat.xor_zero]
      exact testBit_true_ge hbit
    · have hX : 2 ^ w ≤ clmulF f (q >>> 1) phat := by
        apply ih (q >>> 1) hz
        rw [Nat.pow_succ] at hqf
        omega
      have hshl : 2 ^ (w + 1) ≤ (clmulF f (q >>> 1) phat) <<< 1 := by
        rw [Nat.shiftLeft_eq, Nat.pow_one, Nat.pow_succ]
        omega
      have hsmall : (if q &&& 1 = 1 then phat else 0) < 2 ^ (w + 1) := by
        split
        · exact hsz
        · exact Nat.two_pow_pos _
      calc 2 ^ w ≤ 2 ^ (w + 1) := Nat.pow_le_pow_right (by norm_num) (by omega)
        _ ≤ (clmulF f (q >>> 1) phat) <<< 1 ^^^ (if q &&& 1 = 1 then phat else 0) :=
            xor_ge hshl hsmall
        _ = (if q &&& 1 = 1 then phat else 0) ^^^ (clmulF f (q >>> 1) phat) <<< 1 :=
            Nat.xor_comm _ _

theorem cong_eq {w phat : Nat} (hbit : phat.testBit w = true)
    (hsz : phat < 2 ^ (w + 1)) {u v : Nat} (hu : u < 2 ^ w) (hv : v < 2 ^ w)
    (q : Nat) (hq : q < 2 ^ 64) (heq : u ^^^ v = clmul q phat) : u = v := by
  by_cases hq0 : q = 0
  · subst hq0
    rw [clmul_zero_left] at heq
    exact Nat.xor_eq_zero.mp heq
  · have := clmulF_ge hbit hsz 192 q hq0
      (lt_of_lt_of_le hq (Nat.pow_le_pow_right (by norm_num) (by norm_num)))
    rw [← clmul] at this
    have := heq ▸ xor_lt_two_pow hu hv
    omega

theorem polyMod_lt {phat w : Nat} (hbit : phat.testBit w = true)
    (hsz : phat < 2 ^ (w + 1)) {v : Nat} (hv : v < 2 ^ (w + 64)) :
    polyMod phat w v < 2 ^ w :=
  polyModGo_lt hbit hsz 64 v hv

theorem polyMod_spec (phat w v : Nat) :
    ∃ q, q < 2 ^ 64 ∧ polyMod phat w v ^^^ v = clmul q phat :=
  polyModGo_spec phat w 64 v (le_refl 64)

theorem polyMod_eq_of {w phat : Nat} (hbit : phat.testBit w = true)
    (hsz : phat < 2 ^ (w + 1)) {u v : Nat} (hu : u < 2 ^ w) (hv : v < 2 ^ (w + 64))
    (q : Nat) (hq : q < 2 ^ 64) (heq : u ^^^ v = clmul q phat) : polyMod phat w v = u := by
  obtain ⟨q2, hq2, hs⟩ := polyMod_spec phat w v
  apply cong_eq hbit hsz (polyMod_lt hbit hsz hv) hu
    (q2 ^^^ q) (xor_lt_two_pow hq2 hq)
  rw [clmul_xor_left, ← hs, ← heq, Nat.xor_comm u v]
  rw [Nat.xor_assoc, ← Nat.xor_assoc v v u, Nat.xor_self, Nat.zero_xor]
theorem polyMod_small {w phat : Nat} (hbit : phat.testBit w = true)
    (hsz : phat < 2 ^ (w + 1)) {v : Nat} (hv : v < 2 ^ w) : polyMod phat w v = v :=
  polyMod_eq_of hbit hsz hv
    (lt_of_lt_of_le hv (Nat.pow_le_pow_right (by norm_num) (by omega)))
    0 (Nat.two_pow_pos 64) (by rw [Nat.xor_self, clmul_zero_left])

/-! ### The multmodp loops -/

theorem clmul_zero_right (a : Nat) : clmul a 0 = 0 := clmulF_zero_right 192 a

theorem xor_mod_two_pow (x y n : Nat) : (x ^^^ y) % 2 ^ n = x % 2 ^ n ^^^ y % 2 ^ n := by
  apply Nat.eq_of_testBit_eq
  intro i
  rw [Nat.testBit_mod_two_pow, Nat.testBit_xor, Nat.testBit_xor,
    Nat.testBit_mod_two_pow, Nat.testBit_mod_two_pow]
  cases decide (i < n) <;> simp

theorem shl_mod_two_pow (b n : Nat) (h : n ≤ 64) :
    (shl64 b 1) % 2 ^ n = ((b % 2 ^ n) <<< 1) % 2 ^ n := by
  rw [shl64, Nat.mod_mod_of_dvd _ (Nat.pow_dvd_pow 2 h), Nat.shiftLeft_eq,
    Nat.shiftLeft_eq, Nat.pow_one, Nat.mul_mod]
  conv_rhs => rw [Nat.mul_mod]
  rw [Nat.mod_mod_of_dvd _ (dvd_refl _)]

theorem testBit_and_two_pow_ne (a k : Nat) : a &&& 2 ^ k ≠ 0 ↔ a.testBit k = true := by
  rw [Nat.and_two_pow]
  cases h : a.testBit k <;> simp

theorem bitStepN_low (w poly : Nat) (hw1 : 1 ≤ w) (hw64 : w ≤ 64)
    (hpoly : poly < 2 ^ w) (b : Nat) :
    (bitStepN (2 ^ (w - 1)) poly b) % 2 ^ w =
      ((b % 2 ^ w) <<< 1) ^^^
        (if (b % 2 ^ w).testBit (w - 1) then (2 ^ w ^^^ poly) else 0) := by
  have htb : (b % 2 ^ w).testBit (w - 1) = b.testBit (w - 1) := by
    rw [Nat.testBit_mod_two_pow, decide_eq_true (by omega : w - 1 < w), Bool.true_and]
  have hcond : b &&& 2 ^ (w - 1) ≠ 0 ↔ (b % 2 ^ w).testBit (w - 1) = true := by
    rw [htb]
    exact testBit_and_two_pow_ne b (w - 1)
  have hshl : ((b % 2 ^ w) <<< 1) < 2 ^ (w + 1) := by
    have := shiftLeft_lt_pow 1 w (Nat.mod_lt b (Nat.two_pow_pos w))
    exact this
  rw [bitStepN]
  by_cases hc : b &&& 2 ^ (w - 1) ≠ 0
  · rw [if_pos hc, if_pos (hcond.mp hc)]
    rw [xor_mod_two_pow, Nat.mod_eq_of_lt hpoly, shl_mod_two_pow b w hw64]
    have hbit : ((b % 2 ^ w) <<< 1).testBit w = true := by
      rw [Nat.testBit_shiftLeft, decide_eq_true (by omega : w ≥ 1), Bool.true_and, htb]
      exact htb ▸ hcond.mp hc
    have hmod : ((b % 2 ^ w) <<< 1) % 2 ^ w = ((b % 2 ^ w) <<< 1) ^^^ 2 ^ w := by
      apply Nat.eq_of_testBit_eq
      intro i
      rw [Nat.testBit_mod_two_pow, Nat.testBit_xor, Nat.testBit_two_pow]
      by_cases hiw : i < w
      · rw [decide_eq_true hiw, Bool.true_and,
          decide_eq_false (by omega : ¬ w = i)]
        cases ((b % 2 ^ w) <<< 1).testBit i <;> rfl
      · rw [decide_eq_false hiw, Bool.false_and]
        rcases Nat.eq_or_lt_of_le (by omega : w ≤ i) with h | h
        · rw [← h, hbit, decide_eq_true rfl]
          rfl
        · rw [Nat.testBit_lt_two_pow (lt_of_lt_of_le hshl
            (Nat.pow_le_pow_right (by norm_num) (by omega))),
            decide_eq_false (by omega : ¬ w = i)]
          rfl
    rw [hmod, Nat.xor_assoc]
  · have hc0 : b &&& 2 ^ (w - 1) = 0 := by omega
    have hbit0 : b.testBit (w - 1) = false := by
      rw [Nat.and_two_pow] at hc0
      cases h : b.testBit (w - 1)
      · rfl
      · rw [h] at hc0
        simp at hc0
    rw [if_neg (by omega : ¬ b &&& 2 ^ (w - 1) ≠ 0),
      if_neg (by rw [htb, hbit0]; simp), shl_mod_two_pow b w hw64, Nat.xor_zero]
    have hbit : ((b % 2 ^ w) <<< 1).testBit w = false := by
      rw [Nat.testBit_shiftLeft, decide_eq_true (by omega : w ≥ 1), Bool.true_and, htb]
      exact hbit0
    exact Nat.mod_eq_of_lt (lt_pow_of_testBit_high_false hshl hbit)

theorem multmodpN_ok (w poly : Nat) (hw1 : 1 ≤ w) (hw64 : w ≤ 64)
    (hpoly : poly < 2 ^ w) :
    ∀ fuel a b prod, a ≠ 0 → a < 2 ^ fuel → a < 2 ^ 64 →
      ∃ r, multmodpN poly (2 ^ (w - 1)) fuel a b prod = some r ∧
        ∃ q, q < 2 ^ 64 ∧
          (r % 2 ^ w ^^^ prod % 2 ^ w) ^^^ clmul a (b % 2 ^ w) =
            clmul q (2 ^ w ^^^ poly) := by
  intro fuel
  induction fuel with
  | zero =>
    intro a b prod ha0 haf _
    exact absurd rfl (by omega : ¬ (0 : Nat) = 0)
  | succ fuel ih =>
    intro a b prod ha0 haf ha64
    have hdiv : a >>> 1 = a / 2 := by rw [Nat.shiftRight_eq_div_pow, Nat.pow_one]
    have hmod : a &&& 1 = a % 2 := Nat.and_one_is_mod a
    have hpow : 2 ^ (fuel + 1) = 2 ^ fuel * 2 := Nat.pow_succ 2 fuel
    rw [multmodpN]
    rcases and1_cases a with ha1 | ha1
    · rw [if_neg (by omega : ¬ a &&& 1 ≠ 0)]
      have ha0' : a >>> 1 ≠ 0 := by omega
      have haf' : a >>> 1 < 2 ^ fuel := by omega
      have ha64' : a >>> 1 < 2 ^ 64 := by
        have := Nat.div_le_self a 2
        omega
      obtain ⟨r, hr, q, hq, hcong⟩ :=
        ih (a >>> 1) (bitStepN (2 ^ (w - 1)) poly b) prod ha0' haf' ha64'
      refine ⟨r, hr, q ^^^ (if (b % 2 ^ w).testBit (w - 1) then a >>> 1 else 0), ?_, ?_⟩
      · apply xor_lt_two_pow hq
        split
        · exact ha64'
        · exact Nat.two_pow_pos _
      · have hA : clmul a (b % 2 ^ w) = clmul (a >>> 1) ((b % 2 ^ w) <<< 1) := by
          conv_lhs => rw [bit_decomp a]
          rw [ha1, Nat.zero_xor, clmul_shl_one_left _ _
            (lt_of_lt_of_le ha64' (Nat.pow_le_pow_right (by norm_num) (by norm_num))),
            clmul_shl_right]
        have hT : clmul (if (b % 2 ^ w).testBit (w - 1) then a >>> 1 else 0)
            (2 ^ w ^^^ poly) =
            clmul (a >>> 1)
              (if (b % 2 ^ w).testBit (w - 1) then 2 ^ w ^^^ poly else 0) := by
          split
          · rfl
          · rw [clmul_zero_left, clmul_zero_right]
        rw [bitStepN_low w poly hw1 hw64 hpoly b, clmul_xor_right] at hcong
        rw [clmul_xor_left, hA, hT, ← hcong]
        simp [Nat.xor_assoc, Nat.xor_comm, xor_left_comm, xor_xor_self, Nat.xor_self,
          Nat.xor_zero, Nat.zero_xor]
    · rw [if_pos (by omega : a &&& 1 ≠ 0)]
      by_cases ha1e : a = 1
      · subst ha1e
        rw [if_pos rfl]
        refine ⟨prod ^^^ b, rfl, 0, Nat.two_pow_pos 64, ?_⟩
        rw [xor_mod_two_pow, clmul_one_left, clmul_zero_left]
        simp [Nat.xor_assoc, Nat.xor_comm, xor_left_comm, xor_xor_self, Nat.xor_self,
          Nat.xor_zero, Nat.zero_xor]
      · rw [if_neg ha1e]
        have ha0' : a >>> 1 ≠ 0 := by omega
        have haf' : a >>> 1 < 2 ^ fuel := by omega
        have ha64' : a >>> 1 < 2 ^ 64 := by
          have := Nat.div_le_self a 2
          omega
        obtain ⟨r, hr, q, hq, hcong⟩ :=
          ih (a >>> 1) (bitStepN (2 ^ (w - 1)) poly b) (prod ^^^ b) ha0' haf' ha64'
        refine ⟨r, hr, q ^^^ (if (b % 2 ^ w).testBit (w - 1) then a >>> 1 else 0), ?_, ?_⟩
        · apply xor_lt_two_pow hq
          split
          · exact ha64'
          · exact Nat.two_pow_pos _
        · have hA : clmul a (b % 2 ^ w) =
              (b % 2 ^ w) ^^^ clmul (a >>> 1) ((b % 2 ^ w) <<< 1) := by
            conv_lhs => rw [bit_decomp a]
            rw [ha1, clmul_xor_left, clmul_one_left, clmul_shl_one_left _ _
              (lt_of_lt_of_le ha64' (Nat.pow_le_pow_right (by norm_num) (by norm_num))),
              clmul_shl_right]
          have hT : clmul (if (b % 2 ^ w).testBit (w - 1) then a >>> 1 else 0)
              (2 ^ w ^^^ poly) =
              clmul (a >>> 1)
                (if (b % 2 ^ w).testBit (w - 1) then 2 ^ w ^^^ poly else 0) := by
            split
            · rfl
            · rw [clmul_zero_left, clmul_zero_right]
          rw [bitStepN_low w poly hw1 hw64 hpoly b, clmul_xor_right,
            xor_mod_two_pow] at hcong
          rw [clmul_xor_left, hA, hT, ← hcong]
          simp [Nat.xor_assoc, Nat.xor_comm, xor_left_comm, xor_xor_self, Nat.xor_self,
            Nat.xor_zero, Nat.zero_xor]

theorem reverse_zero (n : Nat) (h1 : 1 ≤ n) (h64 : n ≤ 64) : reverse 0 n = 0 := by
  apply Nat.eq_of_testBit_eq
  intro i
  rw [reverse_testBit 0 n i h1 h64, Nat.zero_testBit, Nat.zero_testBit, Bool.and_false]

theorem reverse_ne_zero {a n : Nat} (h1 : 1 ≤ n) (h64 : n ≤ 64) (ha : a < 2 ^ n)
    (ha0 : a ≠ 0) : reverse a n ≠ 0 := by
  intro h
  have := reverse_reverse a n h1 h64
  rw [h, reverse_zero n h1 h64, Nat.mod_eq_of_lt ha] at this
  exact ha0 this.symm

theorem testBit_of_mod_zero {a m j : Nat} (h : a % 2 ^ m = 0) (hj : j < m) :
    a.testBit j = false := by
  have : (a % 2 ^ m).testBit j = a.testBit j := by
    rw [Nat.testBit_mod_two_pow, decide_eq_true hj, Bool.true_and]
  rw [← this, h, Nat.zero_testBit]

theorem testBit_one (i : Nat) : (1 : Nat).testBit i = decide (i = 0) := by
  cases i with
  | zero => rfl
  | succ j =>
    rw [Nat.testBit_succ, (by norm_num : (1 : Nat) / 2 = 0), Nat.zero_testBit,
      decide_eq_false (by omega : ¬ j + 1 = 0)]

theorem testBit_and_one_ne (b : Nat) : b &&& 1 ≠ 0 ↔ b.testBit 0 = true := by
  have h := testBit_and_two_pow_ne b 0
  rw [Nat.pow_zero] at h
  exact h

theorem reverse_eq_one {a w : Nat} (hw1 : 1 ≤ w) (hw64 : w ≤ 64)
    (htop : a.testBit (w - 1) = true) (hlow : a &&& (2 ^ (w - 1) - 1) = 0) :
    reverse a w = 1 := by
  rw [Nat.and_pow_two_sub_one_eq_mod] at hlow
  apply Nat.eq_of_testBit_eq
  intro i
  rw [reverse_testBit a w i hw1 hw64, testBit_one]
  cases i with
  | zero =>
    rw [decide_eq_true (by omega : 0 < w), Bool.true_and, Nat.sub_zero, htop,
      decide_eq_true rfl]
  | succ j =>
    rw [decide_eq_false (by omega : ¬ j + 1 = 0)]
    by_cases hij : j + 1 < w
    · rw [decide_eq_true hij, Bool.true_and,
        testBit_of_mod_zero hlow (by omega : w - 1 - (j + 1) < w - 1)]
    · rw [decide_eq_false hij, Bool.false_and]

theorem exists_testBit_of_ne_zero {x : Nat} (hx : x ≠ 0) :
    ∃ j, x.testBit j = true := by
  by_contra h
  push_neg at h
  apply hx
  apply Nat.eq_of_testBit_eq
  intro i
  rw [Nat.zero_testBit]
  cases hxi : x.testBit i
  · rfl
  · exact absurd hxi (by simp [h i])

theorem reverse_ge_two {a w : Nat} (hw1 : 1 ≤ w) (hw64 : w ≤ 64)
    (hlow : a &&& (2 ^ (w - 1) - 1) ≠ 0) : 2 ≤ reverse a w := by
  rw [Nat.and_pow_two_sub_one_eq_mod] at hlow
  obtain ⟨j, hj⟩ := exists_testBit_of_ne_zero hlow
  have hjlt : j < w - 1 := by
    by_contra hc
    push_neg at hc
    rw [Nat.testBit_lt_two_pow (lt_of_lt_of_le (Nat.mod_lt a (Nat.two_pow_pos _))
      (Nat.pow_le_pow_right (by norm_num) hc))] at hj
    cases hj
  have hja : a.testBit j = true := by
    rw [Nat.testBit_mod_two_pow, decide_eq_true hjlt, Bool.true_and] at hj
    exact hj
  have hbit : (reverse a w).testBit (w - 1 - j) = true := by
    rw [reverse_testBit a w _ hw1 hw64, decide_eq_true (by omega : w - 1 - j < w),
      Bool.true_and, (by omega : w - 1 - (w - 1 - j) = j), hja]
  calc (2 : Nat) = 2 ^ 1 := by norm_num
    _ ≤ 2 ^ (w - 1 - j) := Nat.pow_le_pow_right (by norm_num) (by omega)
    _ ≤ reverse a w := testBit_true_ge hbit

theorem reverse_shl64_one {a w : Nat} (hw1 : 1 ≤ w) (hw64 : w ≤ 64) :
    reverse (shl64 a 1) w = (reverse a w) >>> 1 := by
  apply Nat.eq_of_testBit_eq
  intro i
  rw [reverse_testBit _ w i hw1 hw64, Nat.testBit_shiftRight,
    reverse_testBit a w (1 + i) hw1 hw64, shl64_testBit]
  by_cases hi1 : i < w - 1
  · rw [decide_eq_true (by omega : i < w), Bool.true_and,
      decide_eq_true (by omega : w - 1 - i < 64), Bool.true_and,
      decide_eq_true (by omega : 1 ≤ w - 1 - i), Bool.true_and,
      decide_eq_true (by omega : 1 + i < w), Bool.true_and,
      (by omega : w - 1 - i - 1 = w - 1 - (1 + i))]
  · by_cases hi2 : i < w
    · rw [decide_eq_true hi2, Bool.true_and,
        decide_eq_false (by omega : ¬ 1 ≤ w - 1 - i),
        decide_eq_false (by omega : ¬ 1 + i < w), Bool.false_and]
      cases decide (w - 1 - i < 64) <;> rfl
    · rw [decide_eq_false hi2, Bool.false_and,
        decide_eq_false (by omega : ¬ 1 + i < w), Bool.false_and]

theorem bitStepR_lt_w {w poly b : Nat} (hb : b < 2 ^ w) (hpoly : poly < 2 ^ w) :
    bitStepR poly b < 2 ^ w := by
  rw [bitStepR]
  split
  · exact xor_lt_two_pow (lt_of_le_of_lt (shiftRight_le_self b 1) hb) hpoly
  · exact lt_of_le_of_lt (shiftRight_le_self b 1) hb

theorem bitStepR_rev {w poly b : Nat} (hw1 : 1 ≤ w) (hw64 : w ≤ 64)
    (hb : b < 2 ^ w) (hpoly : poly < 2 ^ w) :
    reverse (bitStepR poly b) w =
      ((reverse b w) <<< 1) ^^^
        (if (reverse b w).testBit (w - 1) then (2 ^ w ^^^ reverse poly w) else 0) := by
  have htb0 : (reverse b w).testBit (w - 1) = b.testBit 0 := by
    rw [reverse_testBit b w _ hw1 hw64, decide_eq_true (by omega : w - 1 < w),
      Bool.true_and, (by omega : w - 1 - (w - 1) = 0)]
  have hrev_shr : reverse (b >>> 1) w =
      ((reverse b w) <<< 1) ^^^ (if b.testBit 0 then 2 ^ w else 0) := by
    apply Nat.eq_of_testBit_eq
    intro i
    rw [reverse_testBit _ w i hw1 hw64, Nat.testBit_xor, Nat.testBit_shiftLeft,
      Nat.testBit_shiftRight]
    have hpow : (if b.testBit 0 then 2 ^ w else 0).testBit i =
        (decide (i = w) && b.testBit 0) := by
      split
      · next hbb =>
        rw [Nat.testBit_two_pow, hbb, Bool.and_true]
        by_cases hiw : i = w
        · rw [decide_eq_true (by omega : w = i), decide_eq_true hiw]
        · rw [decide_eq_false (by omega : ¬ w = i), decide_eq_false hiw]
      · next hbb =>
        rw [Bool.not_eq_true] at hbb
        rw [hbb, Bool.and_false, Nat.zero_testBit]
    rw [hpow]
    by_cases hi0 : i = 0
    · subst hi0
      rw [decide_eq_true (by omega : 0 < w), Bool.true_and,
        decide_eq_false (by omega : ¬ (0 : Nat) ≥ 1), Bool.false_and,
        decide_eq_false (by omega : ¬ (0 : Nat) = w)]
      rw [(by omega : 1 + (w - 1 - 0) = w)]
      rw [Nat.testBit_lt_two_pow hb]
      rfl
    · by_cases hiw : i < w
      · rw [decide_eq_true hiw, Bool.true_and, decide_eq_true (by omega : i ≥ 1),
          Bool.true_and, decide_eq_false (by omega : ¬ i = w),
          reverse_testBit b w (i - 1) hw1 hw64,
          decide_eq_true (by omega : i - 1 < w), Bool.true_and,
          (by omega : 1 + (w - 1 - i) = w - 1 - (i - 1))]
        cases b.testBit (w - 1 - (i - 1)) <;> rfl
      · by_cases hiww : i = w
        · rw [decide_eq_false (by omega : ¬ i < w), Bool.false_and,
            decide_eq_true (by omega : i ≥ 1), Bool.true_and,
            decide_eq_true hiww, Bool.true_and,
            reverse_testBit b w (i - 1) hw1 hw64,
            decide_eq_true (by omega : i - 1 < w), Bool.true_and,
            (by omega : w - 1 - (i - 1) = 0)]
          cases b.testBit 0 <;> rfl
        · rw [decide_eq_false (by omega : ¬ i < w), Bool.false_and,
            decide_eq_false (by omega : ¬ i = w), Bool.false_and,
            reverse_testBit b w (i - 1) hw1 hw64,
            decide_eq_false (by omega : ¬ i - 1 < w), Bool.false_and, Bool.and_false]
          cases decide (i ≥ 1) <;> rfl
  rw [bitStepR, htb0]
  by_cases hc : b &&& 1 ≠ 0
  · have hb0 : b.testBit 0 = true := by
      have := testBit_and_two_pow_ne b 0
      rw [Nat.pow_zero] at this
      exact this.mp hc
    rw [if_pos hc, if_pos hb0, reverse_xor _ _ w hw1 hw64, hrev_shr, hb0, if_pos rfl]
    rw [Nat.xor_assoc]
  · have hb0 : b.testBit 0 = false := by
      cases h : b.testBit 0
      · rfl
      · exact absurd ((testBit_and_one_ne b).mpr h) hc
    rw [if_neg hc, if_neg (by rw [hb0]; simp), hrev_shr, hb0, if_neg (by simp),
      Nat.xor_zero]

theorem and_one_of_testBit0 {x : Nat} (h : x.testBit 0 = true) : x &&& 1 = 1 := by
  rw [Nat.and_one_is_mod]
  rcases Nat.mod_two_eq_zero_or_one x with h2 | h2
  · have : x % 2 ^ 1 = 0 := by rw [Nat.pow_one]; exact h2
    rw [testBit_of_mod_zero this (by omega)] at h
    cases h
  · exact h2

theorem and_one_of_testBit0_false {x : Nat} (h : x.testBit 0 = false) : x &&& 1 = 0 := by
  rcases and1_cases x with h1 | h1
  · exact h1
  · rw [(testBit_and_one_ne x).mp (by omega)] at h
    cases h

theorem multmodpR_ok (w poly : Nat) (hw1 : 1 ≤ w) (hw64 : w ≤ 64)
    (hpoly : poly < 2 ^ w) :
    ∀ fuel a b prod, reverse a w ≠ 0 → reverse a w < 2 ^ fuel →
      b < 2 ^ w → prod < 2 ^ w →
      ∃ r, multmodpR poly (2 ^ (w - 1)) fuel a b prod = some r ∧ r < 2 ^ w ∧
        ∃ q, q < 2 ^ 64 ∧
          (reverse r w ^^^ reverse prod w) ^^^ clmul (reverse a w) (reverse b w) =
            clmul q (2 ^ w ^^^ reverse poly w) := by
  intro fuel
  induction fuel with
  | zero =>
    intro a b prod hA0 hAf _ _
    omega
  | succ fuel ih =>
    intro a b prod hA0 hAf hb hprod
    have hArev : reverse a w < 2 ^ w := reverse_lt a w hw1 hw64
    have hA64 : reverse a w < 2 ^ 64 :=
      lt_of_lt_of_le hArev (Nat.pow_le_pow_right (by norm_num) hw64)
    have hAs : reverse (shl64 a 1) w = (reverse a w) >>> 1 := reverse_shl64_one hw1 hw64
    have hdiv : (reverse a w) >>> 1 = (reverse a w) / 2 := by
      rw [Nat.shiftRight_eq_div_pow, Nat.pow_one]
    have hpow : 2 ^ (fuel + 1) = 2 ^ fuel * 2 := Nat.pow_succ 2 fuel
    have hA127 : (reverse a w) >>> 1 < 2 ^ 191 := by
      have := Nat.div_le_self (reverse a w) 2
      have h64 : (2 : Nat) ^ 64 ≤ 2 ^ 191 := Nat.pow_le_pow_right (by norm_num) (by norm_num)
      omega
    rw [multmodpR]
    by_cases hc1 : a &&& 2 ^ (w - 1) ≠ 0
    · have hbitA0 : (reverse a w).testBit 0 = true := by
        rw [reverse_testBit a w 0 hw1 hw64, decide_eq_true (by omega : 0 < w),
          Bool.true_and, Nat.sub_zero]
        exact (testBit_and_two_pow_ne a (w - 1)).mp hc1
      rw [if_pos hc1]
      by_cases hc2 : a &&& (2 ^ (w - 1) - 1) = 0
      · rw [if_pos hc2]
        have hA1 : reverse a w = 1 :=
          reverse_eq_one hw1 hw64 ((testBit_and_two_pow_ne a (w - 1)).mp hc1) hc2
        refine ⟨prod ^^^ b, rfl, xor_lt_two_pow hprod hb, 0, Nat.two_pow_pos 64, ?_⟩
        rw [hA1, clmul_one_left, reverse_xor prod b w hw1 hw64, clmul_zero_left]
        simp [Nat.xor_assoc, Nat.xor_comm, xor_left_comm, xor_xor_self, Nat.xor_self,
          Nat.xor_zero, Nat.zero_xor]
      · rw [if_neg hc2]
        have hge2 : 2 ≤ reverse a w := reverse_ge_two hw1 hw64 hc2
        obtain ⟨r, hr, hrlt, q, hq, hcong⟩ :=
          ih (shl64 a 1) (bitStepR poly b) (prod ^^^ b)
            (by rw [hAs]; omega) (by rw [hAs]; omega)
            (bitStepR_lt_w hb hpoly) (xor_lt_two_pow hprod hb)
        refine ⟨r, hr, hrlt, q ^^^ (if (reverse b w).testBit (w - 1)
          then (reverse a w) >>> 1 else 0), ?_, ?_⟩
        · apply xor_lt_two_pow hq
          split
          · omega
          · exact Nat.two_pow_pos _
        · rw [hAs, bitStepR_rev hw1 hw64 hb hpoly, clmul_xor_right,
            reverse_xor prod b w hw1 hw64] at hcong
          have hA : clmul (reverse a w) (reverse b w) =
              (reverse b w) ^^^
                clmul ((reverse a w) >>> 1) ((reverse b w) <<< 1) := by
            conv_lhs => rw [bit_decomp (reverse a w)]
            rw [and_one_of_testBit0 hbitA0, clmul_xor_left, clmul_one_left,
              clmul_shl_one_left _ _ hA127, clmul_shl_right]
          have hT : clmul (if (reverse b w).testBit (w - 1)
                then (reverse a w) >>> 1 else 0) (2 ^ w ^^^ reverse poly w) =
              clmul ((reverse a w) >>> 1)
                (if (reverse b w).testBit (w - 1)
                  then 2 ^ w ^^^ reverse poly w else 0) := by
            split
            · rfl
            · rw [clmul_zero_left, clmul_zero_right]
          rw [clmul_xor_left, hA, hT, ← hcong]
          simp [Nat.xor_assoc, Nat.xor_comm, xor_left_comm, xor_xor_self, Nat.xor_self,
            Nat.xor_zero, Nat.zero_xor]
    · have hbitA0 : (reverse a w).testBit 0 = false := by
        rw [reverse_testBit a w 0 hw1 hw64, decide_eq_true (by omega : 0 < w),
          Bool.true_and, Nat.sub_zero]
        cases h : a.testBit (w - 1)
        · rfl
        · exact absurd ((testBit_and_two_pow_ne a (w - 1)).mpr h) hc1
      have hand : (reverse a w) &&& 1 = 0 := and_one_of_testBit0_false hbitA0
      have hmod2 : (reverse a w) % 2 = 0 := by rwa [Nat.and_one_is_mod] at hand
      rw [if_neg hc1]
      obtain ⟨r, hr, hrlt, q, hq, hcong⟩ :=
        ih (shl64 a 1) (bitStepR poly b) prod
          (by rw [hAs]; omega) (by rw [hAs]; omega)
          (bitStepR_lt_w hb hpoly) hprod
      refine ⟨r, hr, hrlt, q ^^^ (if (reverse b w).testBit (w - 1)
        then (reverse a w) >>> 1 else 0), ?_, ?_⟩
      · apply xor_lt_two_pow hq
        split
        · have := Nat.div_le_self (reverse a w) 2
          omega
        · exact Nat.two_pow_pos _
      · rw [hAs, bitStepR_rev hw1 hw64 hb hpoly, clmul_xor_right] at hcong
        have hA : clmul (reverse a w) (reverse b w) =
            clmul ((reverse a w) >>> 1) ((reverse b w) <<< 1) := by
          conv_lhs => rw [bit_decomp (reverse a w)]
          rw [hand, Nat.zero_xor, clmul_shl_one_left _ _ hA127, clmul_shl_right]
        have hT : clmul (if (reverse b w).testBit (w - 1)
              then (reverse a w) >>> 1 else 0) (2 ^ w ^^^ reverse poly w) =
            clmul ((reverse a w) >>> 1)
              (if (reverse b w).testBit (w - 1)
                then 2 ^ w ^^^ reverse poly w else 0) := by
          split
          · rfl
          · rw [clmul_zero_left, clmul_zero_right]
        rw [clmul_xor_left, hA, hT, ← hcong]
        simp [Nat.xor_assoc, Nat.xor_comm, xor_left_comm, xor_xor_self, Nat.xor_self,
          Nat.xor_zero, Nat.zero_xor]

theorem shl64_one_pow {n : Nat} (hn : n < 64) : shl64 1 n = 2 ^ n := by
  rw [shl64, Nat.shiftLeft_eq, Nat.one_mul,
    Nat.mod_eq_of_lt (Nat.pow_lt_pow_right (by norm_num) hn)]

theorem phat_bit {w p : Nat} (hp : p < 2 ^ w) : (2 ^ w ^^^ p).testBit w = true := by
  rw [Nat.testBit_xor, Nat.testBit_two_pow_self, Nat.testBit_lt_two_pow hp]
  rfl

theorem phat_lt {w p : Nat} (hp : p < 2 ^ w) : (2 ^ w ^^^ p) < 2 ^ (w + 1) :=
  xor_lt_two_pow (Nat.pow_lt_pow_right (by norm_num) (by omega))
    (lt_of_lt_of_le hp (Nat.pow_le_pow_right (by norm_num) (by omega)))

theorem multmodp_mask_eq {w : Nat} (hw1 : 1 ≤ w) (hw64 : w ≤ 64) :
    (shl64 (2 ^ (w - 1)) 1 + (2 ^ 64 - 1)) % 2 ^ 64 = 2 ^ w - 1 := by
  have hsh : shl64 (2 ^ (w - 1)) 1 = 2 ^ w % 2 ^ 64 := by
    rw [shl64, Nat.shiftLeft_eq, Nat.pow_one, ← Nat.pow_succ, Nat.succ_eq_add_one,
      (by omega : w - 1 + 1 = w)]
  rw [hsh]
  rcases Nat.eq_or_lt_of_le hw64 with h | h
  · subst h
    norm_num
  · have hlt : 2 ^ w < 2 ^ 64 := Nat.pow_lt_pow_right (by norm_num) h
    have hpos : 0 < 2 ^ w := Nat.two_pow_pos w
    rw [Nat.mod_eq_of_lt hlt]
    have : 2 ^ w + (2 ^ 64 - 1) = (2 ^ w - 1) + 2 ^ 64 := by omega
    rw [this, Nat.add_mod_right, Nat.mod_eq_of_lt (by omega)]

/-- The semantics of multmodp: the product of the operands modulo the
CRC polynomial, read through the bit order of the representation. -/
theorem multmodp_sem (m : model_t) (a b : Nat)
    (hw1 : 1 ≤ m.width) (hw64 : m.width ≤ 64) (hpoly : m.poly < 2 ^ m.width)
    (ha : a < 2 ^ m.width) (hb : b < 2 ^ m.width) (ha0 : a ≠ 0) :
    ∃ r, multmodp m a b = some r ∧ r < 2 ^ m.width ∧
      (if m.ref then
        reverse r m.width =
          polyMod (2 ^ m.width ^^^ reverse m.poly m.width) m.width
            (clmul (reverse a m.width) (reverse b m.width))
       else
        r = polyMod (2 ^ m.width ^^^ m.poly) m.width (clmul a b)) := by
  have htop : shl64 1 (m.width - 1) = 2 ^ (m.width - 1) := shl64_one_pow (by omega)
  have hw2_64 : (2 : Nat) ^ m.width ≤ 2 ^ 64 := Nat.pow_le_pow_right (by norm_num) hw64
  cases href : m.ref with
  | true =>
    have hB : reverse b m.width < 2 ^ m.width := reverse_lt b m.width hw1 hw64
    have hA64 : reverse a m.width < 2 ^ 64 :=
      lt_of_lt_of_le (reverse_lt a m.width hw1 hw64) hw2_64
    obtain ⟨r, hr, hrlt, q, hq, hcong⟩ :=
      multmodpR_ok m.width m.poly hw1 hw64 hpoly 128 a b 0
        (reverse_ne_zero hw1 hw64 ha ha0)
        (lt_of_lt_of_le (reverse_lt a m.width hw1 hw64)
          (le_trans hw2_64 (Nat.pow_le_pow_right (by norm_num) (by norm_num))))
        hb (Nat.two_pow_pos m.width)
    refine ⟨r, ?_, hrlt, ?_⟩
    · simp only [multmodp, href, if_true, ite_true]
      rw [htop]
      exact hr
    · rw [if_pos rfl]
      rw [reverse_zero m.width hw1 hw64, Nat.xor_zero] at hcong
      exact (polyMod_eq_of (phat_bit (reverse_lt m.poly m.width hw1 hw64))
        (phat_lt (reverse_lt m.poly m.width hw1 hw64))
        (reverse_lt r m.width hw1 hw64)
        (clmul_lt hA64 hB) q hq hcong).symm
  | false =>
    obtain ⟨r0, hr0, q, hq, hcong⟩ :=
      multmodpN_ok m.width m.poly hw1 hw64 hpoly 128 a b 0 ha0
        (lt_of_lt_of_le ha (le_trans hw2_64
          (Nat.pow_le_pow_right (by norm_num) (by norm_num))))
        (lt_of_lt_of_le ha hw2_64)
    rw [Nat.zero_mod, Nat.xor_zero, Nat.mod_eq_of_lt hb] at hcong
    refine ⟨r0 % 2 ^ m.width, ?_, Nat.mod_lt r0 (Nat.two_pow_pos m.width), ?_⟩
    · simp only [multmodp, href, if_false, ite_false, Bool.false_eq_true]
      rw [htop, hr0]
      simp only [Option.map_some']
      congr 1
      rw [multmodp_mask_eq hw1 hw64, Nat.and_pow_two_sub_one_eq_mod]
    · rw [if_neg (by simp)]
      exact (polyMod_eq_of (phat_bit hpoly) (phat_lt hpoly)
        (Nat.mod_lt r0 (Nat.two_pow_pos m.width))
        (clmul_lt (lt_of_lt_of_le ha hw2_64) hb) q hq hcong).symm

/-- C8: for every valid model (width between 1 and 64, stored poly a
width-bit value) and all width-bit residues a and b with a nonzero,
multmodp terminates with some width-bit result r, and r is the carry-less
product of a and b reduced modulo the CRC polynomial, read in the
representation selected by ref: directly for non-reflected models, and
through bit reflection (with the polynomial also stored reflected) for
reflected ones. -/
theorem multmodp_computes_product (m : model_t) (a b : Nat)
    (hw1 : 1 ≤ m.width) (hw64 : m.width ≤ 64) (hpoly : m.poly < 2 ^ m.width)
    (ha : a < 2 ^ m.width) (hb : b < 2 ^ m.width) (ha0 : a ≠ 0) :
    ∃ r, multmodp m a b = some r ∧ r < 2 ^ m.width ∧
      (if m.ref then
        reverse r m.width =
          polyMod (2 ^ m.width ^^^ reverse m.poly m.width) m.width
            (clmul (reverse a m.width) (reverse b m.width))
       else
        r = polyMod (2 ^ m.width ^^^ m.poly) m.width (clmul a b)) :=
  multmodp_sem m a b hw1 hw64 hpoly ha hb ha0

/-- Witness for C8 at the processed width-3 model (non-reflected) with
a = 3 and b = 5. -/
theorem multmodp_computes_product_witness :
    ∃ r, multmodp mW3n 3 5 = some r ∧ r < 2 ^ mW3n.width ∧
      (if mW3n.ref then
        reverse r mW3n.width =
          polyMod (2 ^ mW3n.width ^^^ reverse mW3n.poly mW3n.width) mW3n.width
            (clmul (reverse 3 mW3n.width) (reverse 5 mW3n.width))
       else
        r = polyMod (2 ^ mW3n.width ^^^ mW3n.poly) mW3n.width (clmul 3 5)) :=
  multmodp_computes_product mW3n 3 5 (by decide) (by decide) (by decide)
    (by decide) (by decide) (by decide)

/-! ### Commutativity and associativity of the carry-less product -/

theorem clmul_rec (a b : Nat) (ha : a < 2 ^ 192) :
    clmul a b = (if a &&& 1 = 1 then b else 0) ^^^ (clmul (a >>> 1) b) <<< 1 := by
  rw [clmul, (by rfl : (192 : Nat) = 191 + 1), clmulF_succ]
  rw [show clmul (a >>> 1) b = clmulF 191 (a >>> 1) b from clmulF_stable 191 192 _ b (by
    rw [Nat.shiftRight_eq_div_pow, Nat.pow_one]
    rw [(by rfl : (192 : Nat) = 191 + 1), Nat.pow_succ] at ha
    omega) (by omega)]

theorem clmul_one_right : ∀ b, b < 2 ^ 192 → clmul b 1 = b := by
  intro b
  induction b using Nat.strong_induction_on with
  | _ b ih =>
    intro hb
    by_cases hb0 : b = 0
    · subst hb0
      exact clmul_zero_left 1
    · have hdiv : b >>> 1 = b / 2 := by rw [Nat.shiftRight_eq_div_pow, Nat.pow_one]
      rw [clmul_rec b 1 hb, ih (b >>> 1) (by omega) (by omega)]
      rcases and1_cases b with h1 | h1 <;> rw [h1]
      · rw [if_neg (by omega)]
        conv_rhs => rw [bit_decomp b]
        rw [h1, Nat.zero_xor]
      · rw [if_pos rfl]
        conv_rhs => rw [bit_decomp b]
        rw [h1]

theorem clmul_comm : ∀ a b, a < 2 ^ 192 → b < 2 ^ 192 → clmul a b = clmul b a := by
  intro a
  induction a using Nat.strong_induction_on with
  | _ a ih =>
    intro b ha hb
    by_cases ha0 : a = 0
    · subst ha0
      rw [clmul_zero_left, clmul_zero_right]
    · have hdiv : a >>> 1 = a / 2 := by rw [Nat.shiftRight_eq_div_pow, Nat.pow_one]
      rw [clmul_rec a b (by omega),
        ih (a >>> 1) (by omega) b (by omega) hb, ← clmul_shl_right]
      conv_rhs => rw [bit_decomp a]
      rw [clmul_xor_right]
      congr 1
      rcases and1_cases a with h1 | h1 <;> rw [h1]
      · rw [if_neg (by omega), clmul_zero_right]
      · rw [if_pos rfl, clmul_one_right b (by omega)]

theorem clmul_assoc (ka kb : Nat) (hk : ka + kb ≤ 192) :
    ∀ a b c, a < 2 ^ ka → b < 2 ^ kb →
    clmul (clmul a b) c = clmul a (clmul b c) := by
  intro a
  induction a using Nat.strong_induction_on with
  | _ a ih =>
    intro b c ha hb
    by_cases ha0 : a = 0
    · subst ha0
      rw [clmul_zero_left, clmul_zero_left, clmul_zero_left]
    · have hdiv : a >>> 1 = a / 2 := by rw [Nat.shiftRight_eq_div_pow, Nat.pow_one]
      have ha192 : a < 2 ^ 192 :=
        lt_of_lt_of_le ha (Nat.pow_le_pow_right (by norm_num) (by omega))
      have hX : clmul (a >>> 1) b < 2 ^ 191 := by
        have hka : 1 ≤ ka := by
          by_contra hc
          push_neg at hc
          interval_cases ka
          omega
        have h1 : a >>> 1 < 2 ^ (ka - 1) := by
          have : (2:Nat) ^ ka = 2 ^ (ka - 1) * 2 := by
            rw [← Nat.pow_succ, Nat.succ_eq_add_one, (by omega : ka - 1 + 1 = ka)]
          omega
        have := clmul_lt h1 hb
        exact lt_of_lt_of_le this (Nat.pow_le_pow_right (by norm_num) (by omega))
      rw [clmul_rec a b ha192, clmul_xor_left, clmul_shl_one_left _ _ hX,
        ih (a >>> 1) (by omega) b c (by omega) hb,
        clmul_rec a (clmul b c) ha192]
      congr 1
      split
      · rfl
      · rw [clmul_zero_left]

/-! ### The residue monoid -/

theorem cong_eq192 {w phat : Nat} (hbit : phat.testBit w = true)
    (hsz : phat < 2 ^ (w + 1)) {u v : Nat} (hu : u < 2 ^ w) (hv : v < 2 ^ w)
    (q : Nat) (hq : q < 2 ^ 192) (heq : u ^^^ v = clmul q phat) : u = v := by
  by_cases hq0 : q = 0
  · subst hq0
    rw [clmul_zero_left] at heq
    exact Nat.xor_eq_zero.mp heq
  · have := clmulF_ge hbit hsz 192 q hq0 hq
    rw [← clmul] at this
    have := heq ▸ xor_lt_two_pow hu hv
    omega

theorem polyMod_eq_of192 {w phat : Nat} (hbit : phat.testBit w = true)
    (hsz : phat < 2 ^ (w + 1)) {u v : Nat} (hu : u < 2 ^ w) (hv : v < 2 ^ (w + 64))
    (q : Nat) (hq : q < 2 ^ 191) (heq : u ^^^ v = clmul q phat) :
    polyMod phat w v = u := by
  obtain ⟨q2, hq2, hs⟩ := polyMod_spec phat w v
  apply cong_eq192 hbit hsz (polyMod_lt hbit hsz hv) hu (q2 ^^^ q)
    (xor_lt_two_pow (lt_of_lt_of_le hq2 (Nat.pow_le_pow_right (by norm_num) (by norm_num)))
      (lt_of_lt_of_le hq (Nat.pow_le_pow_right (by norm_num) (by norm_num))))
  rw [clmul_xor_left, ← hs, ← heq, Nat.xor_comm u v]
  rw [Nat.xor_assoc, ← Nat.xor_assoc v v u, Nat.xor_self, Nat.zero_xor]

theorem mult_of_mult_left {w phat : Nat} (hw64 : w ≤ 64)
    (hsz : phat < 2 ^ (w + 1)) {q c : Nat} (hq : q < 2 ^ 64) (hc : c < 2 ^ 64) :
    clmul (clmul q phat) c = clmul (clmul q c) phat := by
  have hq192 : q < 2 ^ 192 := lt_of_lt_of_le hq (Nat.pow_le_pow_right (by norm_num) (by norm_num))
  have hp65 : phat < 2 ^ 65 :=
    lt_of_lt_of_le hsz (Nat.pow_le_pow_right (by norm_num) (by omega))
  have hp192 : phat < 2 ^ 192 :=
    lt_of_lt_of_le hp65 (Nat.pow_le_pow_right (by norm_num) (by norm_num))
  rw [clmul_comm q phat hq192 hp192, clmul_assoc 65 64 (by norm_num) phat q c hp65 hq,
    clmul_comm phat (clmul q c) hp192
      (lt_of_lt_of_le (clmul_lt hq hc) (Nat.pow_le_pow_right (by norm_num) (by norm_num)))]

theorem mult_of_mult_right {w phat : Nat} (hsz : phat < 2 ^ (w + 1)) (hw64 : w ≤ 64)
    {a q : Nat} (ha : a < 2 ^ 64) (hq : q < 2 ^ 64) :
    clmul a (clmul q phat) = clmul (clmul a q) phat :=
  (clmul_assoc 64 64 (by norm_num) a q phat ha hq).symm

theorem pmul_lt {w phat : Nat} (hbit : phat.testBit w = true)
    (hsz : phat < 2 ^ (w + 1)) {a b : Nat} (ha : a < 2 ^ 64) (hb : b < 2 ^ w) :
    pmul phat w a b < 2 ^ w := by
  rw [pmul]
  exact polyMod_lt hbit hsz (clmul_lt ha hb)

theorem pmul_comm {w phat : Nat} {a b : Nat} (ha : a < 2 ^ 64) (hb : b < 2 ^ 64) :
    pmul phat w a b = pmul phat w b a := by
  rw [pmul, pmul, clmul_comm a b
    (lt_of_lt_of_le ha (Nat.pow_le_pow_right (by norm_num) (by norm_num)))
    (lt_of_lt_of_le hb (Nat.pow_le_pow_right (by norm_num) (by norm_num)))]

theorem pmul_assoc {w phat : Nat} (hw1 : 1 ≤ w) (hw64 : w ≤ 64)
    (hbit : phat.testBit w = true) (hsz : phat < 2 ^ (w + 1))
    {a b c : Nat} (ha : a < 2 ^ w) (hb : b < 2 ^ w) (hc : c < 2 ^ w) :
    pmul phat w (pmul phat w a b) c = pmul phat w a (pmul phat w b c) := by
  have hw2_64 : (2 : Nat) ^ w ≤ 2 ^ 64 := Nat.pow_le_pow_right (by norm_num) hw64
  have ha64 : a < 2 ^ 64 := lt_of_lt_of_le ha hw2_64
  have hb64 : b < 2 ^ 64 := lt_of_lt_of_le hb hw2_64
  have hc64 : c < 2 ^ 64 := lt_of_lt_of_le hc hw2_64
  obtain ⟨q3, hq3, hs3⟩ := polyMod_spec phat w (clmul a b)
  obtain ⟨q4, hq4, hs4⟩ := polyMod_spec phat w (clmul b c)
  have hL : pmul phat w (pmul phat w a b) c < 2 ^ w :=
    pmul_lt hbit hsz (lt_of_lt_of_le (pmul_lt hbit hsz ha64 hb) hw2_64) hc
  have hR : pmul phat w a (pmul phat w b c) < 2 ^ w :=
    pmul_lt hbit hsz ha64 (pmul_lt hbit hsz hb64 hc)
  obtain ⟨qL, hqL, hsL⟩ := polyMod_spec phat w (clmul (polyMod phat w (clmul a b)) c)
  obtain ⟨qR, hqR, hsR⟩ := polyMod_spec phat w (clmul a (polyMod phat w (clmul b c)))
  apply cong_eq192 hbit hsz hL hR
    (qL ^^^ qR ^^^ clmul q3 c ^^^ clmul a q4)
  · apply xor_lt_two_pow
    apply xor_lt_two_pow
    apply xor_lt_two_pow
    · exact lt_of_lt_of_le hqL (Nat.pow_le_pow_right (by norm_num) (by norm_num))
    · exact lt_of_lt_of_le hqR (Nat.pow_le_pow_right (by norm_num) (by norm_num))
    · exact lt_of_lt_of_le (clmul_lt hq3 hc64) (Nat.pow_le_pow_right (by norm_num) (by norm_num))
    · exact lt_of_lt_of_le (clmul_lt ha64 hq4) (Nat.pow_le_pow_right (by norm_num) (by norm_num))
  · have hd3 : clmul (polyMod phat w (clmul a b)) c ^^^ clmul (clmul a b) c =
        clmul (clmul q3 c) phat := by
      rw [← clmul_xor_left, hs3, mult_of_mult_left hw64 hsz hq3 hc64]
    have hd4 : clmul a (polyMod phat w (clmul b c)) ^^^ clmul a (clmul b c) =
        clmul (clmul a q4) phat := by
      rw [← clmul_xor_right, hs4, mult_of_mult_right hsz hw64 ha64 hq4]
    have hmid : clmul (clmul a b) c = clmul a (clmul b c) :=
      clmul_assoc 64 64 (by norm_num) a b c ha64 hb64
    rw [pmul, pmul, pmul, pmul, clmul_xor_left, clmul_xor_left, clmul_xor_left, ← hsL, ← hsR,
      ← hd3, ← hd4, hmid]
    simp [Nat.xor_assoc, Nat.xor_comm, xor_left_comm, xor_xor_self, Nat.xor_self,
      Nat.xor_zero, Nat.zero_xor]

theorem pm_one {w phat : Nat} (hw1 : 1 ≤ w) (hbit : phat.testBit w = true)
    (hsz : phat < 2 ^ (w + 1)) : polyMod phat w 1 = 1 :=
  polyMod_small hbit hsz (lt_of_lt_of_le (by norm_num) (Nat.pow_le_pow_right (by norm_num) hw1))

theorem pmul_one_right {w phat : Nat} (hw64 : w ≤ 64) (hbit : phat.testBit w = true)
    (hsz : phat < 2 ^ (w + 1)) {a : Nat} (ha : a < 2 ^ w) : pmul phat w a 1 = a := by
  rw [pmul, clmul_one_right a (lt_of_lt_of_le ha (le_trans
    (Nat.pow_le_pow_right (by norm_num) (by omega : w ≤ 64))
    (Nat.pow_le_pow_right (by norm_num) (by norm_num))))]
  exact polyMod_small hbit hsz ha

theorem pmpow_lt {w phat : Nat} (hw1 : 1 ≤ w) (hw64 : w ≤ 64)
    (hbit : phat.testBit w = true) (hsz : phat < 2 ^ (w + 1)) {t : Nat}
    (ht : t < 2 ^ w) : ∀ e, pmpow phat w t e < 2 ^ w := by
  intro e
  induction e with
  | zero =>
    rw [pmpow]
    exact polyMod_lt hbit hsz (show (1 : Nat) < 2 ^ (w + 64) from
      lt_of_lt_of_le (by norm_num : (1 : Nat) < 2 ^ 64)
        (Nat.pow_le_pow_right (by norm_num) (by omega)))
  | succ e ih =>
    rw [pmpow]
    exact pmul_lt hbit hsz
      (lt_of_lt_of_le ih (Nat.pow_le_pow_right (by norm_num) hw64)) ht

theorem pmpow_add {w phat : Nat} (hw1 : 1 ≤ w) (hw64 : w ≤ 64)
    (hbit : phat.testBit w = true) (hsz : phat < 2 ^ (w + 1)) {t : Nat}
    (ht : t < 2 ^ w) (e1 : Nat) : ∀ e2, pmpow phat w t (e1 + e2) =
      pmul phat w (pmpow phat w t e1) (pmpow phat w t e2) := by
  intro e2
  induction e2 with
  | zero =>
    rw [Nat.add_zero, pmpow, pm_one hw1 hbit hsz,
      pmul_one_right hw64 hbit hsz (pmpow_lt hw1 hw64 hbit hsz ht e1)]
  | succ e2 ih =>
    rw [(by omega : e1 + (e2 + 1) = (e1 + e2) + 1), pmpow, ih, pmpow,
      pmul_assoc hw1 hw64 hbit hsz (pmpow_lt hw1 hw64 hbit hsz ht e1)
        (pmpow_lt hw1 hw64 hbit hsz ht e2) ht]

theorem pmpow_sq {w phat : Nat} (hw1 : 1 ≤ w) (hw64 : w ≤ 64)
    (hbit : phat.testBit w = true) (hsz : phat < 2 ^ (w + 1)) {t : Nat}
    (ht : t < 2 ^ w) : ∀ e, pmpow phat w (pmul phat w t t) e =
      pmpow phat w t (2 * e) := by
  intro e
  induction e with
  | zero =>
    rw [Nat.mul_zero, pmpow, pmpow]
  | succ e ih =>
    rw [pmpow, ih, (by omega : 2 * (e + 1) = 2 * e + 1 + 1), pmpow, pmpow,
      pmul_assoc hw1 hw64 hbit hsz (pmpow_lt hw1 hw64 hbit hsz ht (2 * e)) ht ht]

theorem clmul_two_right {a : Nat} (ha : a < 2 ^ 192) : clmul a 2 = a <<< 1 := by
  rw [(by rfl : (2 : Nat) = 1 <<< 1), clmul_shl_right, clmul_one_right a ha]

theorem clmulF_ge2 {w phat : Nat} (hbit : phat.testBit w = true)
    (hsz : phat < 2 ^ (w + 1)) :
    ∀ f q, 2 ≤ q → q < 2 ^ f → 2 ^ (w + 1) ≤ clmulF f q phat := by
  intro f
  induction f with
  | zero => intro q hq2 hqf; omega
  | succ f ih =>
    intro q hq2 hqf
    have hdiv : q >>> 1 = q / 2 := by rw [Nat.shiftRight_eq_div_pow, Nat.pow_one]
    rw [clmulF_succ]
    have hz : q >>> 1 ≠ 0 := by omega
    have hX : 2 ^ w ≤ clmulF f (q >>> 1) phat := by
      apply clmulF_ge hbit hsz f (q >>> 1) hz
      rw [Nat.pow_succ] at hqf
      omega
    have hshl : 2 ^ (w + 1) ≤ (clmulF f (q >>> 1) phat) <<< 1 := by
      rw [Nat.shiftLeft_eq, Nat.pow_one, Nat.pow_succ]
      omega
    have hsmall : (if q &&& 1 = 1 then phat else 0) < 2 ^ (w + 1) := by
      split
      · exact hsz
      · exact Nat.two_pow_pos _
    calc 2 ^ (w + 1) ≤ (clmulF f (q >>> 1) phat) <<< 1 ^^^
          (if q &&& 1 = 1 then phat else 0) := xor_ge hshl hsmall
      _ = (if q &&& 1 = 1 then phat else 0) ^^^ (clmulF f (q >>> 1) phat) <<< 1 :=
          Nat.xor_comm _ _

theorem pmul_two_ne_zero {w phat : Nat} (hw1 : 1 ≤ w) (hw64 : w ≤ 64)
    (hbit : phat.testBit w = true) (hsz : phat < 2 ^ (w + 1))
    (hodd : phat.testBit 0 = true) {t : Nat}
    (ht : t < 2 ^ w) (ht0 : t ≠ 0) : pmul phat w t 2 ≠ 0 := by
  intro h0
  rw [pmul, clmul_two_right (lt_of_lt_of_le ht (le_trans
    (Nat.pow_le_pow_right (by norm_num) hw64)
    (Nat.pow_le_pow_right (by norm_num) (by norm_num))))] at h0
  obtain ⟨q, hq, hs⟩ := polyMod_spec phat w (t <<< 1)
  rw [h0, Nat.zero_xor] at hs
  by_cases hq0 : q = 0
  · subst hq0
    rw [clmul_zero_left] at hs
    rw [Nat.shiftLeft_eq] at hs
    omega
  · by_cases hq1 : q = 1
    · subst hq1
      rw [clmul_one_left] at hs
      have hb0 : (t <<< 1).testBit 0 = false := by
        rw [Nat.testBit_shiftLeft, decide_eq_false (by omega : ¬ (0 : Nat) ≥ 1),
          Bool.false_and]
      rw [hs, hodd] at hb0
      cases hb0
    · have hge : 2 ^ (w + 1) ≤ clmul q phat :=
        clmulF_ge2 hbit hsz 192 q (by omega)
          (lt_of_lt_of_le hq (Nat.pow_le_pow_right (by norm_num) (by norm_num)))
      have hlt : t <<< 1 < 2 ^ (w + 1) := shiftLeft_lt_pow 1 w ht
      have hge2 : 2 ^ (w + 1) ≤ clmul q phat := hge
      omega

theorem pmpow_two_ne_zero {w phat : Nat} (hw2 : 2 ≤ w) (hw64 : w ≤ 64)
    (hbit : phat.testBit w = true) (hsz : phat < 2 ^ (w + 1))
    (hodd : phat.testBit 0 = true) :
    ∀ e, pmpow phat w 2 e ≠ 0 := by
  have h2w : (2 : Nat) < 2 ^ w := by
    calc (2 : Nat) < 2 ^ 2 := by norm_num
      _ ≤ 2 ^ w := Nat.pow_le_pow_right (by norm_num) hw2
  intro e
  induction e with
  | zero =>
    rw [pmpow, pm_one (by omega) hbit hsz]
    omega
  | succ e ih =>
    rw [pmpow]
    exact pmul_two_ne_zero (by omega) hw64 hbit hsz hodd
      (pmpow_lt (by omega) hw64 hbit hsz h2w e) ih

/-! ### Linearity of the engine steps and their polynomial meaning -/

theorem bitStepR_xor (poly x y : Nat) :
    bitStepR poly x ^^^ bitStepR poly y = bitStepR poly (x ^^^ y) := by
  rw [bitStepR, bitStepR, bitStepR, and_xor_right]
  rcases and1_cases x with hx | hx <;> rcases and1_cases y with hy | hy <;>
    rw [hx, hy] <;>
    simp only [if_pos, if_neg, Nat.xor_self, Nat.zero_xor, Nat.xor_zero,
      shiftRight_xor] <;>
    [rw [if_neg (by omega), if_neg (by omega), if_neg (by omega)];
     rw [if_neg (by omega), if_pos (by omega), if_pos (by omega)];
     rw [if_pos (by omega), if_neg (by omega), if_pos (by omega)];
     rw [if_pos (by omega), if_pos (by omega), if_neg (by omega)]] <;>
    simp [Nat.xor_assoc, Nat.xor_comm, xor_left_comm, xor_xor_self, Nat.xor_self,
      Nat.xor_zero, Nat.zero_xor, shiftRight_xor]

theorem bitStepN_xor (k poly x y : Nat) :
    bitStepN (2 ^ k) poly x ^^^ bitStepN (2 ^ k) poly y =
      bitStepN (2 ^ k) poly (x ^^^ y) := by
  rw [bitStepN, bitStepN, bitStepN]
  have hx := Nat.and_two_pow x k
  have hy := Nat.and_two_pow y k
  have hxy := Nat.and_two_pow (x ^^^ y) k
  rw [Nat.testBit_xor] at hxy
  have hp : (0 : Nat) < 2 ^ k := Nat.two_pow_pos k
  cases hbx : x.testBit k <;> cases hby : y.testBit k <;>
    rw [hbx] at hx hxy <;> rw [hby] at hy hxy <;>
    simp only [Bool.toNat_true, Bool.toNat_false, Nat.zero_mul, Nat.one_mul,
      Bool.false_xor, Bool.true_xor, Bool.not_true, Bool.not_false] at hx hy hxy <;>
    [rw [if_neg (by omega), if_neg (by omega), if_neg (by omega)];
     rw [if_neg (by omega), if_pos (by omega), if_pos (by omega)];
     rw [if_pos (by omega), if_neg (by omega), if_pos (by omega)];
     rw [if_pos (by omega), if_pos (by omega), if_neg (by omega)]] <;>
    simp [Nat.xor_assoc, Nat.xor_comm, xor_left_comm, xor_xor_self, Nat.xor_self,
      Nat.xor_zero, Nat.zero_xor, shl64_xor]

theorem iterate_xor (f : Nat → Nat)
    (hf : ∀ x y, f x ^^^ f y = f (x ^^^ y)) :
    ∀ k x y, f^[k] x ^^^ f^[k] y = f^[k] (x ^^^ y) := by
  intro k
  induction k with
  | zero => intro x y; rfl
  | succ k ih =>
    intro x y
    rw [Function.iterate_succ_apply, Function.iterate_succ_apply,
      Function.iterate_succ_apply, ih (f x) (f y), hf]

theorem foldl_diff (g : Nat → Nat → Nat) (h : Nat → Nat)
    (hg : ∀ c c' b, g c b ^^^ g c' b = h^[8] (c ^^^ c')) :
    ∀ (buf : List Nat) (c c' : Nat),
      (buf.foldl g c) ^^^ (buf.foldl g c') = h^[8 * buf.length] (c ^^^ c') := by
  intro buf
  induction buf with
  | nil => intro c c'; rfl
  | cons b rest ih =>
    intro c c'
    rw [List.foldl_cons, List.foldl_cons, ih (g c b) (g c' b), hg,
      ← Function.iterate_add_apply, List.length_cons,
      (by omega : 8 * rest.length + 8 = 8 * (rest.length + 1))]

theorem one_step_reduce {w phat : Nat} (hw1 : 1 ≤ w) (hw64 : w ≤ 64)
    (hbit : phat.testBit w = true) (hsz : phat < 2 ^ (w + 1)) {B : Nat}
    (hB : B < 2 ^ w) :
    (B <<< 1) ^^^ (if B.testBit (w - 1) then phat else 0) =
      polyMod phat w (clmul B 2) := by
  have hB192 : B < 2 ^ 192 := lt_of_lt_of_le hB (le_trans
    (Nat.pow_le_pow_right (by norm_num) hw64)
    (Nat.pow_le_pow_right (by norm_num) (by norm_num)))
  have hshl : B <<< 1 < 2 ^ (w + 1) := shiftLeft_lt_pow 1 w hB
  have hbw : (B <<< 1).testBit w = B.testBit (w - 1) := by
    rw [Nat.testBit_shiftLeft, decide_eq_true (by omega : w ≥ 1), Bool.true_and,
      (by omega : w - 1 = w - 1)]
  symm
  apply polyMod_eq_of192 hbit hsz ?_ ?_ (if B.testBit (w - 1) then 1 else 0) ?_ ?_
  · by_cases hc : B.testBit (w - 1) = true
    · rw [if_pos hc]
      apply Nat.lt_pow_two_of_testBit
      intro i hi
      rcases Nat.eq_or_lt_of_le hi with h | h
      · rw [Nat.testBit_xor, ← h, hbw, hc, hbit]
        rfl
      · rw [Nat.testBit_xor,
          Nat.testBit_lt_two_pow (lt_of_lt_of_le hshl
            (Nat.pow_le_pow_right (by norm_num) (by omega))),
          Nat.testBit_lt_two_pow (lt_of_lt_of_le hsz
            (Nat.pow_le_pow_right (by norm_num) (by omega)))]
        rfl
    · rw [Bool.not_eq_true] at hc
      rw [if_neg (by rw [hc]; simp), Nat.xor_zero]
      have hBlow : B < 2 ^ (w - 1) := by
        apply lt_pow_of_testBit_high_false _ hc
        rwa [(by omega : w - 1 + 1 = w)]
      have := shiftLeft_lt_pow 1 (w - 1) hBlow
      rwa [(by omega : w - 1 + 1 = w)] at this
  · rw [clmul_two_right hB192]
    exact lt_of_lt_of_le hshl (Nat.pow_le_pow_right (by norm_num) (by omega))
  · split
    · exact (by norm_num : (1 : Nat) < 2 ^ 191)
    · exact Nat.two_pow_pos 191
  · rw [clmul_two_right hB192]
    split
    · next hc =>
      rw [clmul_one_left, Nat.xor_assoc, Nat.xor_comm phat (B <<< 1), ← Nat.xor_assoc,
        Nat.xor_self, Nat.zero_xor]
    · next hc =>
      rw [clmul_zero_left, Nat.xor_zero, Nat.xor_self]

/-! ### The unreflected reading of model values -/

theorem mod_two_pow_eq_zero_iff (u s : Nat) :
    u % 2 ^ s = 0 ↔ ∀ i, i < s → u.testBit i = false := by
  constructor
  · intro h i hi
    have := Nat.testBit_mod_two_pow u s i
    rw [h, Nat.zero_testBit, decide_eq_true hi, Bool.true_and] at this
    exact this.symm
  · intro h
    apply Nat.eq_of_testBit_eq
    intro i
    rw [Nat.testBit_mod_two_pow, Nat.zero_testBit]
    by_cases hi : i < s
    · rw [decide_eq_true hi, Bool.true_and, h i hi]
    · rw [decide_eq_false hi, Bool.false_and]

theorem pmul_one_left {w phat : Nat} (hbit : phat.testBit w = true)
    (hsz : phat < 2 ^ (w + 1)) {a : Nat} (ha : a < 2 ^ w) :
    pmul phat w 1 a = a := by
  rw [pmul, clmul_one_left]
  exact polyMod_small hbit hsz ha

theorem den_lt (m : model_t) (hw1 : 1 ≤ m.width) (hw64 : m.width ≤ 64)
    {x : Nat} (hx : x < 2 ^ m.width) : den m x < 2 ^ m.width := by
  rw [den]
  split
  · exact reverse_lt x m.width hw1 hw64
  · exact hx

theorem den_den (m : model_t) (hw1 : 1 ≤ m.width) (hw64 : m.width ≤ 64)
    {x : Nat} (hx : x < 2 ^ m.width) : den m (den m x) = x := by
  rw [den, den]
  split
  · rw [reverse_reverse x m.width hw1 hw64, Nat.mod_eq_of_lt hx]
  · rfl

theorem den_xor (m : model_t) (hw1 : 1 ≤ m.width) (hw64 : m.width ≤ 64)
    (x y : Nat) : den m (x ^^^ y) = den m x ^^^ den m y := by
  rw [den, den, den]
  split
  · exact reverse_xor x y m.width hw1 hw64
  · rfl

theorem den_ne_zero (m : model_t) (hw1 : 1 ≤ m.width) (hw64 : m.width ≤ 64)
    {x : Nat} (hx : x < 2 ^ m.width) (hx0 : x ≠ 0) : den m x ≠ 0 := by
  rw [den]
  split
  · exact reverse_ne_zero hw1 hw64 hx hx0
  · exact hx0

theorem den_inj (m : model_t) (hw1 : 1 ≤ m.width) (hw64 : m.width ≤ 64)
    {x y : Nat} (hx : x < 2 ^ m.width) (hy : y < 2 ^ m.width)
    (h : den m x = den m y) : x = y := by
  have := congrArg (den m) h
  rwa [den_den m hw1 hw64 hx, den_den m hw1 hw64 hy] at this

/-! ### One bit step acts as multiplication by x on the decoded register -/

theorem mod_eq_xor_of_bit {w v : Nat} (hv : v < 2 ^ (w + 1))
    (hb : v.testBit w = true) : v % 2 ^ w = v ^^^ 2 ^ w := by
  apply Nat.eq_of_testBit_eq
  intro i
  rw [Nat.testBit_mod_two_pow, Nat.testBit_xor, Nat.testBit_two_pow]
  rcases lt_trichotomy i w with h | h | h
  · rw [decide_eq_true h, Bool.true_and, decide_eq_false (by omega : ¬ w = i),
      Bool.xor_false]
  · rw [decide_eq_false (by omega : ¬ i < w), Bool.false_and, h, hb,
      decide_eq_true rfl]
    rfl
  · rw [decide_eq_false (by omega : ¬ i < w), Bool.false_and,
      Nat.testBit_lt_two_pow (lt_of_lt_of_le hv
        (Nat.pow_le_pow_right (by norm_num) (by omega))),
      decide_eq_false (by omega : ¬ w = i), Bool.false_xor]

theorem denStepR {w poly b : Nat} (hw1 : 1 ≤ w) (hw64 : w ≤ 64)
    (hpoly : poly < 2 ^ w) (hb : b < 2 ^ w) :
    reverse (bitStepR poly b) w =
      pmul (2 ^ w ^^^ reverse poly w) w (reverse b w) 2 := by
  rw [bitStepR_rev hw1 hw64 hb hpoly, pmul]
  exact one_step_reduce hw1 hw64 (phat_bit (reverse_lt poly w hw1 hw64))
    (phat_lt (reverse_lt poly w hw1 hw64)) (reverse_lt b w hw1 hw64)

theorem denStepN {w poly : Nat} (hw1 : 1 ≤ w) (hw64 : w ≤ 64)
    (hpoly : poly < 2 ^ w) (b : Nat) :
    (bitStepN (2 ^ (w - 1)) poly b) % 2 ^ w =
      pmul (2 ^ w ^^^ poly) w (b % 2 ^ w) 2 := by
  rw [bitStepN_low w poly hw1 hw64 hpoly b, pmul]
  exact one_step_reduce hw1 hw64 (phat_bit hpoly) (phat_lt hpoly)
    (Nat.mod_lt b (Nat.two_pow_pos w))

theorem val_xor (s w x y : Nat) :
    ((x ^^^ y) >>> s) % 2 ^ w = ((x >>> s) % 2 ^ w) ^^^ ((y >>> s) % 2 ^ w) := by
  rw [shiftRight_xor, xor_mod_two_pow]

theorem val_shl_step {w s u : Nat} (hws : w + s = 8) (hw1 : 1 ≤ w)
    (hu0 : u % 2 ^ s = 0) :
    ((shl64 u 1) >>> s) % 2 ^ w = (((u >>> s) % 2 ^ w) <<< 1) % 2 ^ w := by
  apply Nat.eq_of_testBit_eq
  intro j
  rw [Nat.testBit_mod_two_pow, Nat.testBit_mod_two_pow, Nat.testBit_shiftRight,
    Nat.testBit_shiftLeft]
  by_cases hj : j < w
  · rw [decide_eq_true hj, Bool.true_and, Bool.true_and, shl64,
      Nat.testBit_mod_two_pow, decide_eq_true (by omega : s + j < 64),
      Bool.true_and, Nat.testBit_shiftLeft]
    by_cases hj1 : 1 ≤ j
    · rw [decide_eq_true (by omega : s + j ≥ 1), decide_eq_true (by omega : j ≥ 1),
        Bool.true_and, Bool.true_and, Nat.testBit_mod_two_pow,
        decide_eq_true (by omega : j - 1 < w), Bool.true_and, Nat.testBit_shiftRight,
        (by omega : s + (j - 1) = s + j - 1)]
    · rw [decide_eq_false (by omega : ¬ j ≥ 1), Bool.false_and]
      by_cases hs : 1 ≤ s
      · rw [decide_eq_true (by omega : s + j ≥ 1), Bool.true_and,
          (mod_two_pow_eq_zero_iff u s).mp hu0 (s + j - 1) (by omega)]
      · rw [decide_eq_false (by omega : ¬ s + j ≥ 1), Bool.false_and]
  · rw [decide_eq_false hj, Bool.false_and, Bool.false_and]

theorem val_shl_poly {w s poly : Nat} (hws : w + s = 8) (hpoly : poly < 2 ^ w) :
    ((shl64 poly s) >>> s) % 2 ^ w = poly := by
  apply Nat.eq_of_testBit_eq
  intro j
  rw [Nat.testBit_mod_two_pow, Nat.testBit_shiftRight, shl64,
    Nat.testBit_mod_two_pow, Nat.testBit_shiftLeft,
    (by omega : s + j - s = j)]
  by_cases hj : j < w
  · rw [decide_eq_true hj, Bool.true_and, decide_eq_true (by omega : s + j < 64),
      Bool.true_and, decide_eq_true (by omega : s + j ≥ s), Bool.true_and]
  · rw [decide_eq_false hj, Bool.false_and,
      Nat.testBit_lt_two_pow (lt_of_lt_of_le hpoly
        (Nat.pow_le_pow_right (by norm_num) (by omega)))]

theorem stepS_cond {w s u : Nat} (hws : w + s = 8) (hw1 : 1 ≤ w) :
    (u &&& 128 ≠ 0) ↔ ((u >>> s) % 2 ^ w).testBit (w - 1) = true := by
  rw [Nat.testBit_mod_two_pow, decide_eq_true (by omega : w - 1 < w), Bool.true_and,
    Nat.testBit_shiftRight, (by omega : s + (w - 1) = 7),
    (by norm_num : (128 : Nat) = 2 ^ 7)]
  exact testBit_and_two_pow_ne u 7

theorem denStepS {w s poly u : Nat} (hw1 : 1 ≤ w) (hws : w + s = 8)
    (hpoly : poly < 2 ^ w) (hu0 : u % 2 ^ s = 0) :
    ((bitStepN 128 (shl64 poly s) u) >>> s) % 2 ^ w =
      pmul (2 ^ w ^^^ poly) w ((u >>> s) % 2 ^ w) 2 := by
  have hw64 : w ≤ 64 := by omega
  have hB : (u >>> s) % 2 ^ w < 2 ^ w := Nat.mod_lt _ (Nat.two_pow_pos w)
  rw [pmul, ← one_step_reduce hw1 hw64 (phat_bit hpoly) (phat_lt hpoly) hB,
    bitStepN]
  by_cases hc : ((u >>> s) % 2 ^ w).testBit (w - 1) = true
  · rw [if_pos ((stepS_cond hws hw1).mpr hc), if_pos hc, val_xor,
      val_shl_step hws hw1 hu0, val_shl_poly hws hpoly,
      mod_eq_xor_of_bit (shiftLeft_lt_pow 1 w hB)
        (by rw [Nat.testBit_shiftLeft, decide_eq_true (by omega : w ≥ 1),
              Bool.true_and, (by omega : w - 1 = w - 1)]; exact hc),
      Nat.xor_assoc]
  · rw [Bool.not_eq_true] at hc
    rw [if_neg (by rw [stepS_cond hws hw1, hc]; simp), if_neg (by rw [hc]; simp),
      Nat.xor_zero, val_shl_step hws hw1 hu0]
    have hBlow : (u >>> s) % 2 ^ w < 2 ^ (w - 1) := by
      apply lt_pow_of_testBit_high_false _ hc
      rwa [(by omega : w - 1 + 1 = w)]
    have := shiftLeft_lt_pow 1 (w - 1) hBlow
    rw [(by omega : w - 1 + 1 = w)] at this
    exact Nat.mod_eq_of_lt this

theorem stepS_inv {s poly u : Nat} (hs : s ≤ 7) (hu0 : u % 2 ^ s = 0) :
    (bitStepN 128 (shl64 poly s) u) % 2 ^ s = 0 := by
  rw [mod_two_pow_eq_zero_iff]
  intro i hi
  have hsh : (shl64 u 1).testBit i = false := by
    rw [shl64, Nat.testBit_mod_two_pow, Nat.testBit_shiftLeft]
    by_cases h1 : i ≥ 1
    · rw [decide_eq_true h1, (mod_two_pow_eq_zero_iff u s).mp hu0 (i - 1) (by omega)]
      simp
    · rw [decide_eq_false h1]
      simp
  have hpl : (shl64 poly s).testBit i = false := by
    rw [shl64, Nat.testBit_mod_two_pow, Nat.testBit_shiftLeft,
      decide_eq_false (by omega : ¬ i ≥ s)]
    simp
  rw [bitStepN]
  split
  · rw [Nat.testBit_xor, hsh, hpl]
    rfl
  · exact hsh

theorem iter_den {w phat : Nat} (hw2 : 2 ≤ w) (hw64 : w ≤ 64)
    (hbit : phat.testBit w = true) (hsz : phat < 2 ^ (w + 1))
    (f : Nat → Nat) (d : Nat → Nat) (P : Nat → Prop)
    (hP : ∀ u, P u → P (f u))
    (hd : ∀ u, P u → d u < 2 ^ w)
    (hstep : ∀ u, P u → d (f u) = pmul phat w (d u) 2) :
    ∀ k u, P u → d (f^[k] u) = pmul phat w (d u) (pmpow phat w 2 k) := by
  have hw1 : 1 ≤ w := by omega
  have h2w : (2 : Nat) < 2 ^ w :=
    lt_of_lt_of_le (by norm_num : (2 : Nat) < 2 ^ 2)
      (Nat.pow_le_pow_right (by norm_num) hw2)
  have hpow64 : (2 : Nat) ^ w ≤ 2 ^ 64 := Nat.pow_le_pow_right (by norm_num) hw64
  intro k
  induction k with
  | zero =>
    intro u hu
    rw [Function.iterate_zero_apply, pmpow, pm_one hw1 hbit hsz,
      pmul_one_right hw64 hbit hsz (hd u hu)]
  | succ k ih =>
    intro u hu
    rw [Function.iterate_succ_apply, ih (f u) (hP u hu), hstep u hu,
      pmul_assoc hw1 hw64 hbit hsz (hd u hu) h2w
        (pmpow_lt hw1 hw64 hbit hsz h2w k),
      pmul_comm (lt_of_lt_of_le h2w hpow64)
        (lt_of_lt_of_le (pmpow_lt hw1 hw64 hbit hsz h2w k) hpow64)]
    rfl

/-! ### List access helpers for the combine table -/

theorem getD_indexOf : ∀ (l : List Nat) (a : Nat), a ∈ l → l.getD (l.indexOf a) 0 = a := by
  intro l
  induction l with
  | nil => intro a ha; cases ha
  | cons b rest ih =>
    intro a ha
    by_cases hba : b = a
    · subst hba
      rw [List.indexOf_cons_self]
      rfl
    · have hmem : a ∈ rest := by
        cases ha with
        | head => exact absurd rfl hba
        | tail _ h => exact h
      rw [List.indexOf_cons_ne rest hba]
      exact ih a hmem

theorem getD_append_lt : ∀ (l l' : List Nat) (n d : Nat), n < l.length →
    (l ++ l').getD n d = l.getD n d := by
  intro l
  induction l with
  | nil => intro l' n d h; cases h
  | cons b rest ih =>
    intro l' n d h
    cases n with
    | zero => rfl
    | succ n => exact ih l' n d (by simpa using h)

theorem getD_concat_self : ∀ (l : List Nat) (a d : Nat), (l ++ [a]).getD l.length d = a := by
  intro l
  induction l with
  | nil => intro a d; rfl
  | cons b rest ih => intro a d; exact ih a d

theorem getLast?_getD : ∀ (l : List Nat) (a : Nat), l.getLast? = some a →
    l.getD (l.length - 1) 0 = a := by
  intro l
  induction l with
  | nil => intro a h; cases h
  | cons b rest ih =>
    intro a h
    cases hr : rest with
    | nil =>
      subst hr
      rw [List.getLast?_singleton] at h
      cases h
      rfl
    | cons c rest2 =>
      subst hr
      have h2 := ih a h
      simp only [List.length_cons, Nat.add_sub_cancel] at h2 ⊢
      exact h2

/-! ### Structure of the table built by crc_table_combine -/

theorem combGo_ok (m : model_t) :
    ∀ (fuel : Nat) (sq : Nat) (tbl : List Nat) (mc : model_t),
      combGo m sq tbl fuel = some mc →
      tbl ≠ [] →
      tbl.getLast? = some sq →
      (∀ j, j + 1 < tbl.length →
        multmodp m (tbl.getD j 0) (tbl.getD j 0) = some (tbl.getD (j + 1) 0)) →
      0 ≤ mc.back →
      mc.width = m.width ∧ mc.poly = m.poly ∧ mc.ref = m.ref ∧ mc.rev = m.rev ∧
      mc.init = m.init ∧ mc.xorout = m.xorout ∧
      mc.cycle = mc.table_comb.length ∧
      mc.table_comb ≠ [] ∧
      mc.table_comb.getD 0 0 = tbl.getD 0 0 ∧
      (∀ j, j + 1 < mc.table_comb.length →
        multmodp m (mc.table_comb.getD j 0) (mc.table_comb.getD j 0) =
          some (mc.table_comb.getD (j + 1) 0)) ∧
      mc.back.toNat < mc.table_comb.length ∧
      multmodp m (mc.table_comb.getD (mc.table_comb.length - 1) 0)
          (mc.table_comb.getD (mc.table_comb.length - 1) 0) =
        some (mc.table_comb.getD mc.back.toNat 0) := by
  intro fuel
  induction fuel with
  | zero =>
    intro sq tbl mc hmceq hne hlast hchain hback
    rw [combGo] at hmceq
    injection hmceq with hmc
    subst hmc
    simp at hback
  | succ fuel ih =>
    intro sq tbl mc hmceq hne hlast hchain hback
    rw [combGo] at hmceq
    cases hmm : multmodp m sq sq with
    | none => rw [hmm] at hmceq; cases hmceq
    | some sq2 =>
      rw [hmm] at hmceq
      dsimp only at hmceq
      by_cases hmem : sq2 ∈ tbl
      · rw [if_pos hmem] at hmceq
        injection hmceq with hmc
        subst hmc
        refine ⟨rfl, rfl, rfl, rfl, rfl, rfl, rfl, hne, rfl, hchain, ?_, ?_⟩
        · show ((tbl.indexOf sq2 : Int)).toNat < tbl.length
          rw [Int.toNat_natCast]
          exact List.indexOf_lt_length.mpr hmem
        · show multmodp m (tbl.getD (tbl.length - 1) 0) (tbl.getD (tbl.length - 1) 0) =
            some (tbl.getD ((tbl.indexOf sq2 : Int)).toNat 0)
          rw [Int.toNat_natCast, getLast?_getD tbl sq hlast, getD_indexOf tbl sq2 hmem]
          exact hmm
      · rw [if_neg hmem] at hmceq
        have hlen : 0 < tbl.length := List.length_pos.mpr hne
        have hchain2 : ∀ j, j + 1 < (tbl ++ [sq2]).length →
            multmodp m ((tbl ++ [sq2]).getD j 0) ((tbl ++ [sq2]).getD j 0) =
              some ((tbl ++ [sq2]).getD (j + 1) 0) := by
          intro j hj
          rw [List.length_append, List.length_singleton] at hj
          by_cases hjl : j + 1 < tbl.length
          · rw [getD_append_lt tbl [sq2] j 0 (by omega),
              getD_append_lt tbl [sq2] (j + 1) 0 hjl]
            exact hchain j hjl
          · have hje : j + 1 = tbl.length := by omega
            rw [getD_append_lt tbl [sq2] j 0 (by omega), hje, getD_concat_self,
              (by omega : j = tbl.length - 1), getLast?_getD tbl sq hlast]
            exact hmm
        obtain ⟨h1, h2, h3, h4, h5, h6, h7, h8, h9, h10, h11, h12⟩ :=
          ih sq2 (tbl ++ [sq2]) mc hmceq (by simp) (List.getLast?_concat tbl) hchain2 hback
        refine ⟨h1, h2, h3, h4, h5, h6, h7, h8, ?_, h10, h11, h12⟩
        rw [h9, getD_append_lt tbl [sq2] 0 0 hlen]

/-! ### The product semantics of multmodp in residue form -/

theorem multmodp_pm (m : model_t) (a b : Nat)
    (hw1 : 1 ≤ m.width) (hw64 : m.width ≤ 64) (hpoly : m.poly < 2 ^ m.width)
    (ha : a < 2 ^ m.width) (hb : b < 2 ^ m.width) (ha0 : a ≠ 0) :
    ∃ r, multmodp m a b = some r ∧ r < 2 ^ m.width ∧
      den m r = pmul (phatOf m) m.width (den m a) (den m b) := by
  obtain ⟨r, hr, hlt, hsem⟩ := multmodp_sem m a b hw1 hw64 hpoly ha hb ha0
  refine ⟨r, hr, hlt, ?_⟩
  rcases Bool.eq_false_or_eq_true m.ref with href | href <;>
    rw [href] at hsem <;>
    simp only [if_true, Bool.false_eq_true, if_false] at hsem <;>
    rw [den, den, den, phatOf, punref, pmul, href] <;>
    simp only [if_true, Bool.false_eq_true, if_false] <;>
    exact hsem

theorem multmodp_congr (m m' : model_t) (hp : m'.poly = m.poly)
    (hw : m'.width = m.width) (hr : m'.ref = m.ref) (a b : Nat) :
    multmodp m' a b = multmodp m a b := by
  rw [multmodp, multmodp, hp, hw, hr]

/-! ### The rev reversal as a linear involution -/

theorem drev_lt (m : model_t) (hw1 : 1 ≤ m.width) (hw64 : m.width ≤ 64)
    {x : Nat} (hx : x < 2 ^ m.width) : drev m x < 2 ^ m.width := by
  rw [drev]
  split
  · exact reverse_lt x m.width hw1 hw64
  · exact hx

theorem drev_drev (m : model_t) (hw1 : 1 ≤ m.width) (hw64 : m.width ≤ 64)
    {x : Nat} (hx : x < 2 ^ m.width) : drev m (drev m x) = x := by
  rw [drev, drev]
  split
  · rw [reverse_reverse x m.width hw1 hw64, Nat.mod_eq_of_lt hx]
  · rfl

theorem drev_xor (m : model_t) (hw1 : 1 ≤ m.width) (hw64 : m.width ≤ 64)
    (x y : Nat) : drev m (x ^^^ y) = drev m x ^^^ drev m y := by
  rw [drev, drev, drev]
  split
  · exact reverse_xor x y m.width hw1 hw64
  · rfl

/-! ### Byte-step differences collapse to pure bit-step iterates -/

theorem xor_cancel_right (c c' b : Nat) : (c ^^^ b) ^^^ (c' ^^^ b) = c ^^^ c' := by
  rw [Nat.xor_comm c' b, ← Nat.xor_assoc, Nat.xor_assoc c b b, Nat.xor_self,
    Nat.xor_zero]

theorem byteStepR_diff (poly c c' b : Nat) :
    byteStepR poly c b ^^^ byteStepR poly c' b = (bitStepR poly)^[8] (c ^^^ c') := by
  rw [byteStepR, byteStepR, iterate_xor _ (bitStepR_xor poly) 8, xor_cancel_right]

theorem byteStepN_diff (k poly shift c c' b : Nat) :
    byteStepN (2 ^ k) poly shift c b ^^^ byteStepN (2 ^ k) poly shift c' b =
      (bitStepN (2 ^ k) poly)^[8] (c ^^^ c') := by
  rw [byteStepN, byteStepN, iterate_xor _ (bitStepN_xor k poly) 8, xor_cancel_right]

theorem byteStepS_diff (poly c c' b : Nat) :
    byteStepS poly c b ^^^ byteStepS poly c' b = (bitStepN 128 poly)^[8] (c ^^^ c') := by
  rw [byteStepS, byteStepS, (by norm_num : (0x80 : Nat) = 2 ^ 7),
    iterate_xor _ (bitStepN_xor 7 poly) 8, xor_cancel_right]

/-! ### The low bits of the shifted register of the width <= 8 path -/

theorem shl64_low_zero (x s : Nat) (hs : s ≤ 64) : (shl64 x s) % 2 ^ s = 0 := by
  rw [mod_two_pow_eq_zero_iff]
  intro i hi
  rw [shl64, Nat.testBit_mod_two_pow, Nat.testBit_shiftLeft,
    decide_eq_false (by omega : ¬ i ≥ s)]
  simp

theorem stepS_low (poly : Nat) {s : Nat} (hs : s ≤ 7) :
    ∀ k, k ≤ s → ∀ u, ((bitStepN 128 (shl64 poly s))^[k] u) % 2 ^ k = 0 := by
  intro k
  induction k with
  | zero => intro _ u; simp [Nat.mod_one]
  | succ k ih =>
    intro hk u
    rw [Function.iterate_succ_apply']
    rw [mod_two_pow_eq_zero_iff]
    intro i hi
    have hlow := (mod_two_pow_eq_zero_iff _ k).mp (ih (by omega) u)
    set v := (bitStepN 128 (shl64 poly s))^[k] u with hv
    have hsh : (shl64 v 1).testBit i = false := by
      rw [shl64, Nat.testBit_mod_two_pow, Nat.testBit_shiftLeft]
      by_cases h1 : i ≥ 1
      · rw [decide_eq_true h1, hlow (i - 1) (by omega)]
        simp
      · rw [decide_eq_false h1]
        simp
    have hpl : (shl64 poly s).testBit i = false := by
      rw [shl64, Nat.testBit_mod_two_pow, Nat.testBit_shiftLeft,
        decide_eq_false (by omega : ¬ i ≥ s)]
      simp
    rw [bitStepN]
    split
    · rw [Nat.testBit_xor, hsh, hpl]
      rfl
    · exact hsh

theorem byteStepS_inv {s poly : Nat} (hs : s ≤ 7) (c b : Nat) :
    (byteStepS (shl64 poly s) c b) % 2 ^ s = 0 := by
  rw [byteStepS, (by omega : 8 = (8 - s) + s), Function.iterate_add_apply,
    (by norm_num : (0x80 : Nat) = 128)]
  have hbase := stepS_low poly hs s (le_refl s) (c ^^^ b)
  exact iterate_pres (bitStepN 128 (shl64 poly s)) (fun v => v % 2 ^ s = 0)
    (fun v hv => stepS_inv hs hv) (8 - s) _ hbase

/-! ### The residues held by the squaring table -/

theorem reverse_pow {k w : Nat} (hk : k < w) (hw64 : w ≤ 64) :
    reverse (2 ^ k) w = 2 ^ (w - 1 - k) := by
  have hw1 : 1 ≤ w := by omega
  apply Nat.eq_of_testBit_eq
  intro i
  rw [reverse_testBit _ w i hw1 hw64, Nat.testBit_two_pow, Nat.testBit_two_pow]
  by_cases hi : i < w
  · rw [decide_eq_true hi, Bool.true_and]
    by_cases he : k = w - 1 - i
    · rw [decide_eq_true he, decide_eq_true (by omega : w - 1 - k = i)]
    · rw [decide_eq_false he, decide_eq_false (by omega : ¬ w - 1 - k = i)]
  · rw [decide_eq_false hi, Bool.false_and,
      decide_eq_false (by omega : ¬ w - 1 - k = i)]

theorem den_zero (m : model_t) (hw1 : 1 ≤ m.width) (hw64 : m.width ≤ 64) :
    den m 0 = 0 := by
  rw [den]
  split
  · exact reverse_zero m.width hw1 hw64
  · rfl

theorem punref_lt (m : model_t) (hw1 : 1 ≤ m.width) (hw64 : m.width ≤ 64)
    (hpoly : m.poly < 2 ^ m.width) : punref m < 2 ^ m.width := by
  rw [punref]
  split
  · exact reverse_lt m.poly m.width hw1 hw64
  · exact hpoly

theorem phatOf_odd (m : model_t) (hw1 : 1 ≤ m.width)
    (hodd : (punref m).testBit 0 = true) : (phatOf m).testBit 0 = true := by
  rw [phatOf, Nat.testBit_xor, Nat.testBit_two_pow,
    decide_eq_false (by omega : ¬ m.width = 0), hodd]
  rfl

theorem pmpow_one {w phat : Nat} (hw2 : 2 ≤ w) (hw64 : w ≤ 64)
    (hbit : phat.testBit w = true) (hsz : phat < 2 ^ (w + 1)) :
    pmpow phat w 2 1 = 2 := by
  have hw1 : 1 ≤ w := by omega
  have h2w : (2 : Nat) < 2 ^ w :=
    lt_of_lt_of_le (by norm_num : (2 : Nat) < 2 ^ 2)
      (Nat.pow_le_pow_right (by norm_num) hw2)
  show pmul phat w (pmpow phat w 2 0) 2 = 2
  have h0 : pmpow phat w 2 0 = 1 := pm_one hw1 hbit hsz
  rw [h0, pmul_one_left hbit hsz h2w]

theorem chain_den (mc : model_t) (hw2 : 2 ≤ mc.width) (hw64 : mc.width ≤ 64)
    (hpoly : mc.poly < 2 ^ mc.width) (hodd : (punref mc).testBit 0 = true)
    (hchain : ∀ j, j + 1 < mc.table_comb.length →
      multmodp mc (mc.table_comb.getD j 0) (mc.table_comb.getD j 0) =
        some (mc.table_comb.getD (j + 1) 0))
    (hhead0 : mc.table_comb.getD 0 0 < 2 ^ mc.width)
    (hheadden : den mc (mc.table_comb.getD 0 0) = pmpow (phatOf mc) mc.width 2 1) :
    ∀ j, j < mc.table_comb.length →
      mc.table_comb.getD j 0 < 2 ^ mc.width ∧ mc.table_comb.getD j 0 ≠ 0 ∧
      den mc (mc.table_comb.getD j 0) = pmpow (phatOf mc) mc.width 2 (2 ^ j) := by
  have hw1 : 1 ≤ mc.width := by omega
  have hbit : (phatOf mc).testBit mc.width = true :=
    phat_bit (punref_lt mc hw1 hw64 hpoly)
  have hsz : phatOf mc < 2 ^ (mc.width + 1) := phat_lt (punref_lt mc hw1 hw64 hpoly)
  have hph : (phatOf mc).testBit 0 = true := phatOf_odd mc hw1 hodd
  have h2w : (2 : Nat) < 2 ^ mc.width :=
    lt_of_lt_of_le (by norm_num : (2 : Nat) < 2 ^ 2)
      (Nat.pow_le_pow_right (by norm_num) hw2)
  have hpow64 : (2 : Nat) ^ mc.width ≤ 2 ^ 64 :=
    Nat.pow_le_pow_right (by norm_num) hw64
  intro j
  induction j with
  | zero =>
    intro hj
    refine ⟨hhead0, ?_, by rw [Nat.pow_zero]; exact hheadden⟩
    intro h0
    have := hheadden
    rw [h0, den_zero mc hw1 hw64] at this
    exact pmpow_two_ne_zero hw2 hw64 hbit hsz hph 1 this.symm
  | succ j ihj =>
    intro hj
    obtain ⟨hlt, hne0, hden⟩ := ihj (by omega)
    obtain ⟨r, hr, hrlt, hrden⟩ :=
      multmodp_pm mc (mc.table_comb.getD j 0) (mc.table_comb.getD j 0)
        hw1 hw64 hpoly hlt hlt hne0
    rw [hchain j hj] at hr
    injection hr with hr
    subst hr
    refine ⟨hrlt, ?_, ?_⟩
    · intro h0
      rw [h0, den_zero mc hw1 hw64] at hrden
      rw [hden, ← pmpow_add hw1 hw64 hbit hsz h2w (2 ^ j) (2 ^ j)] at hrden
      exact pmpow_two_ne_zero hw2 hw64 hbit hsz hph (2 ^ j + 2 ^ j) hrden.symm
    · rw [hrden, hden, ← pmpow_add hw1 hw64 hbit hsz h2w (2 ^ j) (2 ^ j),
        (by rw [Nat.pow_succ]; omega : 2 ^ j + 2 ^ j = 2 ^ (j + 1))]

/-! ### The bit walk of x8nmodp multiplies by the tabulated powers -/

theorem x8nGo_ok (mc : model_t) (hw2 : 2 ≤ mc.width) (hw64 : mc.width ≤ 64)
    (hpoly : mc.poly < 2 ^ mc.width) (hodd : (punref mc).testBit 0 = true)
    (hcyc : mc.cycle = mc.table_comb.length)
    (hback0 : 0 ≤ mc.back) (hbacklt : mc.back.toNat < mc.table_comb.length)
    (hent : ∀ j, j < mc.table_comb.length →
      mc.table_comb.getD j 0 < 2 ^ mc.width ∧ mc.table_comb.getD j 0 ≠ 0)
    (hnext : ∀ j, j < mc.table_comb.length →
      multmodp mc (mc.table_comb.getD j 0) (mc.table_comb.getD j 0) =
        some (mc.table_comb.getD
          (if j + 1 = mc.table_comb.length then mc.back.toNat else j + 1) 0)) :
    ∀ fuel n kn e xp, n < 2 ^ (fuel + 1) → kn < mc.table_comb.length →
      den mc (mc.table_comb.getD kn 0) = pmpow (phatOf mc) mc.width 2 (2 ^ e) →
      xp < 2 ^ mc.width →
      ∃ z, x8nGo mc (fuel + 1) (kn : Int) xp n = some z ∧ z < 2 ^ mc.width ∧
        den mc z = pmul (phatOf mc) mc.width (den mc xp)
          (pmpow (phatOf mc) mc.width 2 (2 ^ e * n)) := by
  have hw1 : 1 ≤ mc.width := by omega
  have hbit : (phatOf mc).testBit mc.width = true :=
    phat_bit (punref_lt mc hw1 hw64 hpoly)
  have hsz : phatOf mc < 2 ^ (mc.width + 1) := phat_lt (punref_lt mc hw1 hw64 hpoly)
  have h2w : (2 : Nat) < 2 ^ mc.width :=
    lt_of_lt_of_le (by norm_num : (2 : Nat) < 2 ^ 2)
      (Nat.pow_le_pow_right (by norm_num) hw2)
  have hpow64 : (2 : Nat) ^ mc.width ≤ 2 ^ 64 :=
    Nat.pow_le_pow_right (by norm_num) hw64
  have htcg : ∀ kn : Nat, kn < mc.table_comb.length →
      tcGet mc (kn : Int) = some (mc.table_comb.getD kn 0) := by
    intro kn hkn
    rw [tcGet, if_neg (by push_neg; constructor <;> omega)]
    rw [Int.toNat_natCast]
  -- one iteration of the loop, shared by both fuel cases
  have hstep : ∀ fuel n kn e xp, n < 2 ^ (fuel + 1) → kn < mc.table_comb.length →
      den mc (mc.table_comb.getD kn 0) = pmpow (phatOf mc) mc.width 2 (2 ^ e) →
      xp < 2 ^ mc.width →
      (∀ n' kn' e' xp', n' < 2 ^ fuel → n' ≠ 0 → kn' < mc.table_comb.length →
        den mc (mc.table_comb.getD kn' 0) = pmpow (phatOf mc) mc.width 2 (2 ^ e') →
        xp' < 2 ^ mc.width →
        ∃ z, x8nGo mc fuel (kn' : Int) xp' n' = some z ∧ z < 2 ^ mc.width ∧
          den mc z = pmul (phatOf mc) mc.width (den mc xp')
            (pmpow (phatOf mc) mc.width 2 (2 ^ e' * n'))) →
      ∃ z, x8nGo mc (fuel + 1) (kn : Int) xp n = some z ∧ z < 2 ^ mc.width ∧
        den mc z = pmul (phatOf mc) mc.width (den mc xp)
          (pmpow (phatOf mc) mc.width 2 (2 ^ e * n)) := by
    intro fuel n kn e xp hn hkn hden hxp ihrec
    have hnval : n = 2 * (n >>> 1) + (n &&& 1) := by
      rw [Nat.shiftRight_succ, Nat.shiftRight_zero, Nat.and_one_is_mod]
      omega
    have hxplt : den mc xp < 2 ^ mc.width := den_lt mc hw1 hw64 hxp
    have hcont : ∀ xq, xq < 2 ^ mc.width →
        den mc xq = pmul (phatOf mc) mc.width (den mc xp)
          (pmpow (phatOf mc) mc.width 2 (2 ^ e * (n &&& 1))) →
        ∃ z, (if n >>> 1 = 0 then some xq
          else if (kn : Int) + 1 = (mc.cycle : Int) then
            (if mc.back = -1 then none else x8nGo mc fuel mc.back xq (n >>> 1))
          else x8nGo mc fuel ((kn : Int) + 1) xq (n >>> 1)) = some z ∧
          z < 2 ^ mc.width ∧
          den mc z = pmul (phatOf mc) mc.width (den mc xp)
            (pmpow (phatOf mc) mc.width 2 (2 ^ e * n)) := by
      intro xq hxqlt hxqden
      by_cases hn2 : n >>> 1 = 0
      · rw [if_pos hn2]
        refine ⟨xq, rfl, hxqlt, ?_⟩
        rw [hxqden, (by omega : n &&& 1 = n)]
      · rw [if_neg hn2]
        have hnext0 := hnext kn hkn
        obtain ⟨r2, hr2mul, hr2lt, hr2den⟩ :=
          multmodp_pm mc (mc.table_comb.getD kn 0) (mc.table_comb.getD kn 0)
            hw1 hw64 hpoly (hent kn hkn).1 (hent kn hkn).1 (hent kn hkn).2
        rw [hnext0] at hr2mul
        injection hr2mul with hr2
        subst hr2
        have hknlt' : (if kn + 1 = mc.table_comb.length then mc.back.toNat else kn + 1) <
            mc.table_comb.length := by
          split
          · exact hbacklt
          · omega
        have hdennext : den mc (mc.table_comb.getD
            (if kn + 1 = mc.table_comb.length then mc.back.toNat else kn + 1) 0) =
            pmpow (phatOf mc) mc.width 2 (2 ^ (e + 1)) := by
          rw [hr2den, hden, ← pmpow_add hw1 hw64 hbit hsz h2w (2 ^ e) (2 ^ e),
            (by rw [Nat.pow_succ]; omega : 2 ^ e + 2 ^ e = 2 ^ (e + 1))]
        have hn2f : n >>> 1 < 2 ^ fuel := by
          rw [Nat.shiftRight_succ, Nat.shiftRight_zero]
          rw [Nat.pow_succ] at hn
          omega
        obtain ⟨z, hz, hzlt, hzden⟩ := ihrec (n >>> 1)
          (if kn + 1 = mc.table_comb.length then mc.back.toNat else kn + 1)
          (e + 1) xq hn2f hn2 hknlt' hdennext hxqlt
        refine ⟨z, ?_, hzlt, ?_⟩
        · by_cases hwrap : kn + 1 = mc.table_comb.length
          · rw [if_pos (by rw [hcyc]; omega), if_neg (by omega)]
            rw [if_pos hwrap] at hz
            rw [(by omega : mc.back = ((mc.back.toNat : Nat) : Int))]
            exact hz
          · rw [if_neg (by rw [hcyc]; omega)]
            rw [if_neg hwrap] at hz
            rw [(by push_cast; omega : ((kn : Int) + 1) = (((kn + 1 : Nat) : Nat) : Int))]
            exact hz
        · rw [hzden, hxqden,
            pmul_assoc hw1 hw64 hbit hsz hxplt
              (pmpow_lt hw1 hw64 hbit hsz h2w _) (pmpow_lt hw1 hw64 hbit hsz h2w _),
            ← pmpow_add hw1 hw64 hbit hsz h2w]
          congr 2
          have hps : 2 ^ (e + 1) = 2 ^ e * 2 := Nat.pow_succ 2 e
          have hgoal : 2 ^ e * (n &&& 1) + 2 ^ (e + 1) * (n >>> 1) = 2 ^ e * n := by
            conv_rhs => rw [hnval]
            rw [hps]
            ring
          first
          | exact hgoal
          | exact hgoal.symm
    rcases and1_cases n with hb | hb
    · rw [x8nGo, if_neg (by omega)]
      simp only [Option.bind_eq_bind, Option.some_bind]
      apply hcont xp hxp
      rw [hb, Nat.mul_zero]
      have h0 : pmpow (phatOf mc) mc.width 2 0 = 1 := pm_one hw1 hbit hsz
      rw [h0, pmul_one_right hw64 hbit hsz hxplt]
    · obtain ⟨r, hrmul, hrlt, hrden⟩ :=
        multmodp_pm mc (mc.table_comb.getD kn 0) xp hw1 hw64 hpoly
          (hent kn hkn).1 hxp (hent kn hkn).2
      rw [x8nGo, if_pos (by omega), htcg kn hkn]
      simp only [Option.bind_eq_bind, Option.some_bind, hrmul]
      apply hcont r hrlt
      rw [hrden, hden, hb, Nat.mul_one,
        pmul_comm (lt_of_lt_of_le (pmpow_lt hw1 hw64 hbit hsz h2w _) hpow64)
          (lt_of_lt_of_le hxplt hpow64)]
  intro fuel
  induction fuel with
  | zero =>
    intro n kn e xp hn hkn hden hxp
    apply hstep 0 n kn e xp hn hkn hden hxp
    intro n' kn' e' xp' hn' hne0 _ _ _
    omega
  | succ fuel ih =>
    intro n kn e xp hn hkn hden hxp
    exact hstep (fuel + 1) n kn e xp hn hkn hden hxp
      (fun n' kn' e' xp' hn' _ => ih n' kn' e' xp' hn')

theorem x8nmodp_ok (mc : model_t) (hw2 : 2 ≤ mc.width) (hw64 : mc.width ≤ 64)
    (hpoly : mc.poly < 2 ^ mc.width) (hodd : (punref mc).testBit 0 = true)
    (hcyc : mc.cycle = mc.table_comb.length)
    (hback0 : 0 ≤ mc.back) (hbacklt : mc.back.toNat < mc.table_comb.length)
    (hent : ∀ j, j < mc.table_comb.length →
      mc.table_comb.getD j 0 < 2 ^ mc.width ∧ mc.table_comb.getD j 0 ≠ 0)
    (hnext : ∀ j, j < mc.table_comb.length →
      multmodp mc (mc.table_comb.getD j 0) (mc.table_comb.getD j 0) =
        some (mc.table_comb.getD
          (if j + 1 = mc.table_comb.length then mc.back.toNat else j + 1) 0))
    (hstart0 : 0 ≤ x8n_start mc) (hstartlt : (x8n_start mc).toNat < mc.table_comb.length)
    (hstart : den mc (mc.table_comb.getD (x8n_start mc).toNat 0) =
      pmpow (phatOf mc) mc.width 2 8)
    (n : Nat) (hn : n < 2 ^ 64) :
    ∃ z, x8nmodp mc n = some z ∧ z < 2 ^ mc.width ∧ z ≠ 0 ∧
      den mc z = pmpow (phatOf mc) mc.width 2 (8 * n) := by
  have hw1 : 1 ≤ mc.width := by omega
  have hbit : (phatOf mc).testBit mc.width = true :=
    phat_bit (punref_lt mc hw1 hw64 hpoly)
  have hsz : phatOf mc < 2 ^ (mc.width + 1) := phat_lt (punref_lt mc hw1 hw64 hpoly)
  have h2w : (2 : Nat) < 2 ^ mc.width :=
    lt_of_lt_of_le (by norm_num : (2 : Nat) < 2 ^ 2)
      (Nat.pow_le_pow_right (by norm_num) hw2)
  have hph : (phatOf mc).testBit 0 = true := phatOf_odd mc hw1 hodd
  have hxp0 : (if mc.ref then shl64 1 (mc.width - 1) else 1) < 2 ^ mc.width ∧
      den mc (if mc.ref then shl64 1 (mc.width - 1) else 1) = 1 := by
    rcases Bool.eq_false_or_eq_true mc.ref with href | href <;>
      rw [den, href] <;>
      simp only [if_true, Bool.false_eq_true, if_false]
    · have hsh : shl64 1 (mc.width - 1) = 2 ^ (mc.width - 1) :=
        shl64_one_pow (by omega)
      rw [hsh, reverse_pow (by omega) hw64, (by omega : mc.width - 1 - (mc.width - 1) = 0)]
      exact ⟨Nat.pow_lt_pow_right (by norm_num) (by omega), rfl⟩
    · exact ⟨by omega, trivial⟩
  obtain ⟨z, hz, hzlt, hzden⟩ := x8nGo_ok mc hw2 hw64 hpoly hodd hcyc hback0 hbacklt
    hent hnext 63 n (x8n_start mc).toNat 3
    (if mc.ref then shl64 1 (mc.width - 1) else 1) hn hstartlt
    (by rw [(by norm_num : (2 : Nat) ^ 3 = 8)]; exact hstart) hxp0.1
  refine ⟨z, ?_, hzlt, ?_, ?_⟩
  · rw [x8nmodp, ← hz]
    congr 1
    rw [Int.toNat_of_nonneg hstart0]
  · intro h0
    rw [h0, den_zero mc hw1 hw64, hxp0.2,
      pmul_one_left hbit hsz (pmpow_lt hw1 hw64 hbit hsz h2w _)] at hzden
    exact pmpow_two_ne_zero hw2 hw64 hbit hsz hph (2 ^ 3 * n) hzden.symm
  · rw [hzden, hxp0.2, pmul_one_left hbit hsz (pmpow_lt hw1 hw64 hbit hsz h2w _),
      (by norm_num : (2 : Nat) ^ 3 = 8)]

/-! ### The engine on a concatenation, as seen through the residue ring -/

theorem inv_xor {x y k : Nat} (hx : x % 2 ^ k = 0) (hy : y % 2 ^ k = 0) :
    (x ^^^ y) % 2 ^ k = 0 := by
  rw [mod_two_pow_eq_zero_iff] at hx hy ⊢
  intro i hi
  rw [Nat.testBit_xor, hx i hi, hy i hi]
  rfl

theorem crc_bitwise_eq (m : model_t) (crc : Nat) (buf : List Nat) :
    crc_bitwise m crc (some buf) =
      drev m (
        if m.ref then
          buf.foldl (byteStepR m.poly) ((drev m (crc ^^^ m.xorout)) &&& ONES m.width)
        else if m.width ≤ 8 then
          ((buf.foldl (byteStepS (shl64 m.poly (8 - m.width)))
            (shl64 (drev m (crc ^^^ m.xorout)) (8 - m.width))) >>> (8 - m.width))
            &&& ONES m.width
        else
          (buf.foldl (byteStepN (shl64 1 (m.width - 1)) m.poly (m.width - 8))
            (drev m (crc ^^^ m.xorout))) &&& ONES m.width) ^^^ m.xorout := rfl

theorem engine_diff (m : model_t) (hw2 : 2 ≤ m.width) (hw64 : m.width ≤ 64)
    (hpoly : m.poly < 2 ^ m.width) (hinit : m.init < 2 ^ m.width)
    (hxo : m.xorout < 2 ^ m.width)
    (B1 B2 : List Nat) (hb1 : ∀ b ∈ B1, b < 256) :
    ∃ P, P < 2 ^ m.width ∧
      crc_bitwise m m.init (some (B1 ++ B2)) ^^^ crc_bitwise m m.init (some B2) =
        drev m P ∧
      den m P = pmul (phatOf m) m.width
        (den m (drev m (crc_bitwise m m.init (some B1) ^^^ m.init)))
        (pmpow (phatOf m) m.width 2 (8 * B2.length)) := by
  have hw1 : 1 ≤ m.width := by omega
  have hσdlt : drev m (m.init ^^^ m.xorout) < 2 ^ m.width :=
    drev_lt m hw1 hw64 (xor_lt_two_pow hinit hxo)
  have hmask0 : drev m (m.init ^^^ m.xorout) &&& ONES m.width =
      drev m (m.init ^^^ m.xorout) := by
    rw [and_ONES _ _ hw64, Nat.mod_eq_of_lt hσdlt]
  have hc1gen : ∀ X, X < 2 ^ m.width →
      drev m (drev m X ^^^ m.xorout ^^^ m.init) =
        X ^^^ drev m (m.init ^^^ m.xorout) := by
    intro X hX
    rw [Nat.xor_assoc, drev_xor m hw1 hw64, drev_drev m hw1 hw64 hX]
    congr 1
    rw [Nat.xor_comm m.xorout m.init]
  by_cases href : m.ref = true
  · -- reflected path
    have hdeneq : ∀ x, den m x = reverse x m.width := by
      intro x
      simp [den, href]
    have hphat : phatOf m = 2 ^ m.width ^^^ reverse m.poly m.width := by
      simp [phatOf, punref, href]
    have hrp : reverse m.poly m.width < 2 ^ m.width := reverse_lt m.poly m.width hw1 hw64
    have hbitp : (phatOf m).testBit m.width = true := by rw [hphat]; exact phat_bit hrp
    have hszp : phatOf m < 2 ^ (m.width + 1) := by rw [hphat]; exact phat_lt hrp
    simp only [crc_bitwise_eq, href, if_true]
    rw [hmask0, List.foldl_append]
    have hr1lt : B1.foldl (byteStepR m.poly) (drev m (m.init ^^^ m.xorout)) < 2 ^ m.width :=
      foldl_pres (fun c => c < 2 ^ m.width) (fun b => b < 256) (byteStepR m.poly)
        (fun c b hc hb => byteStepR_lt hpoly b hc hb) B1 _ hb1 hσdlt
    have hpres : ∀ v, v < 2 ^ m.width → bitStepR m.poly v < 2 ^ m.width := by
      intro v hv
      have h2 : v < 2 ^ (m.width + 0 + 1) :=
        lt_of_lt_of_le hv (Nat.pow_le_pow_right (by norm_num) (by omega))
      have := bitStepR_lt 0 hpoly h2
      rwa [Nat.add_zero] at this
    refine ⟨(bitStepR m.poly)^[8 * B2.length]
      (B1.foldl (byteStepR m.poly) (drev m (m.init ^^^ m.xorout)) ^^^
        drev m (m.init ^^^ m.xorout)), ?_, ?_, ?_⟩
    · exact iterate_pres _ (fun v => v < 2 ^ m.width) hpres (8 * B2.length) _
        (xor_lt_two_pow hr1lt hσdlt)
    · rw [xor_cancel_right, ← drev_xor m hw1 hw64,
        foldl_diff _ _ (fun c c' b => byteStepR_diff m.poly c c' b) B2 _ _]
    · rw [hc1gen _ hr1lt, hdeneq, hdeneq,
        iter_den hw2 hw64 hbitp hszp (bitStepR m.poly) (fun u => reverse u m.width)
          (fun u => u < 2 ^ m.width) hpres
          (fun u _ => reverse_lt u m.width hw1 hw64)
          (fun u hu => by rw [hphat]; exact denStepR hw1 hw64 hpoly hu)
          (8 * B2.length) _ (xor_lt_two_pow hr1lt hσdlt)]
  · -- forward paths
    have hf : m.ref = false := by revert href; cases m.ref <;> simp
    have hdeneq : ∀ x, den m x = x := by
      intro x
      simp [den, hf]
    have hphat : phatOf m = 2 ^ m.width ^^^ m.poly := by
      simp [phatOf, punref, hf]
    have hbitp : (phatOf m).testBit m.width = true := by rw [hphat]; exact phat_bit hpoly
    have hszp : phatOf m < 2 ^ (m.width + 1) := by rw [hphat]; exact phat_lt hpoly
    by_cases hw8 : m.width ≤ 8
    · -- width at most 8
      have hs7 : 8 - m.width ≤ 7 := by omega
      have hws : m.width + (8 - m.width) = 8 := by omega
      simp only [crc_bitwise_eq, hf, Bool.false_eq_true, if_false, if_pos hw8]
      rw [List.foldl_append]
      have hc0inv : (shl64 (drev m (m.init ^^^ m.xorout)) (8 - m.width)) %
          2 ^ (8 - m.width) = 0 := shl64_low_zero _ _ (by omega)
      have hr1inv : (B1.foldl (byteStepS (shl64 m.poly (8 - m.width)))
          (shl64 (drev m (m.init ^^^ m.xorout)) (8 - m.width))) % 2 ^ (8 - m.width) = 0 :=
        foldl_pres (fun c => c % 2 ^ (8 - m.width) = 0) (fun _ => True)
          (byteStepS (shl64 m.poly (8 - m.width)))
          (fun c b _ _ => byteStepS_inv hs7 c b) B1 _ (fun _ _ => trivial) hc0inv
      refine ⟨(((bitStepN 128 (shl64 m.poly (8 - m.width)))^[8 * B2.length]
          (B1.foldl (byteStepS (shl64 m.poly (8 - m.width)))
            (shl64 (drev m (m.init ^^^ m.xorout)) (8 - m.width)) ^^^
           shl64 (drev m (m.init ^^^ m.xorout)) (8 - m.width))) >>> (8 - m.width))
          &&& ONES m.width, and_ONES_lt _ _ hw64, ?_, ?_⟩
      · rw [xor_cancel_right, ← drev_xor m hw1 hw64, ← and_xor_right, ← shiftRight_xor,
          foldl_diff _ _
            (fun c c' b => byteStepS_diff (shl64 m.poly (8 - m.width)) c c' b) B2 _ _]
      · rw [hc1gen _ (and_ONES_lt _ _ hw64), hdeneq, hdeneq, and_ONES _ _ hw64,
          and_ONES _ _ hw64,
          iter_den hw2 hw64 hbitp hszp (bitStepN 128 (shl64 m.poly (8 - m.width)))
            (fun u => (u >>> (8 - m.width)) % 2 ^ m.width)
            (fun u => u % 2 ^ (8 - m.width) = 0)
            (fun u hu => stepS_inv hs7 hu)
            (fun u _ => Nat.mod_lt _ (Nat.two_pow_pos m.width))
            (fun u hu => by rw [hphat]; exact denStepS hw1 hws hpoly hu)
            (8 * B2.length) _ (inv_xor hr1inv hc0inv)]
        congr 2
        rw [val_xor, val_shl_poly hws hσdlt]
    · -- width above 8
      have hmask : shl64 1 (m.width - 1) = 2 ^ (m.width - 1) := shl64_one_pow (by omega)
      simp only [crc_bitwise_eq, hf, Bool.false_eq_true, if_false, if_neg hw8, hmask]
      rw [List.foldl_append]
      refine ⟨((bitStepN (2 ^ (m.width - 1)) m.poly)^[8 * B2.length]
          (B1.foldl (byteStepN (2 ^ (m.width - 1)) m.poly (m.width - 8))
            (drev m (m.init ^^^ m.xorout)) ^^^ drev m (m.init ^^^ m.xorout)))
          &&& ONES m.width, and_ONES_lt _ _ hw64, ?_, ?_⟩
      · rw [xor_cancel_right, ← drev_xor m hw1 hw64, ← and_xor_right,
          foldl_diff _ _
            (fun c c' b => byteStepN_diff (m.width - 1) m.poly (m.width - 8) c c' b) B2 _ _]
      · rw [hc1gen _ (and_ONES_lt _ _ hw64), hdeneq, hdeneq, and_ONES _ _ hw64,
          and_ONES _ _ hw64,
          iter_den hw2 hw64 hbitp hszp (bitStepN (2 ^ (m.width - 1)) m.poly)
            (fun u => u % 2 ^ m.width) (fun _ => True)
            (fun _ _ => trivial)
            (fun u _ => Nat.mod_lt _ (Nat.two_pow_pos m.width))
            (fun u _ => by rw [hphat]; exact denStepN hw1 hw64 hpoly u)
            (8 * B2.length) _ trivial]
        congr 2
        rw [xor_mod_two_pow, Nat.mod_eq_of_lt hσdlt]

/-! ### Reduction of crc_combine under successful intermediate steps -/

theorem crc_combine_eq (m : model_t) (crc1 crc2 len2 z p : Nat)
    (hz : x8nmodp m len2 = some z)
    (hp : multmodp m z (drev m (crc1 ^^^ m.init)) = some p) :
    crc_combine m crc1 crc2 len2 = some (drev m (p ^^^ drev m crc2)) := by
  rw [crc_combine]
  simp only [Option.bind_eq_bind, hz, Option.some_bind]
  have h1 : (if m.rev then reverse (crc1 ^^^ m.init) m.width else (crc1 ^^^ m.init)) =
      drev m (crc1 ^^^ m.init) := by rw [drev]
  rw [h1, hp]
  simp only [Option.some_bind]
  rcases Bool.eq_false_or_eq_true m.rev with hv | hv <;>
    rw [drev, drev, hv] <;>
    simp [Option.pure_def]

/-! ### The start index of the x8nmodp walk holds x to the eighth -/

theorem start_facts (mc : model_t) (hw2 : 2 ≤ mc.width) (hw64 : mc.width ≤ 64)
    (hpoly : mc.poly < 2 ^ mc.width) (hodd : (punref mc).testBit 0 = true)
    (hcyc : mc.cycle = mc.table_comb.length)
    (hback0 : 0 ≤ mc.back) (hbacklt : mc.back.toNat < mc.table_comb.length)
    (hne : mc.table_comb ≠ [])
    (htab : ∀ j, j < mc.table_comb.length →
      mc.table_comb.getD j 0 < 2 ^ mc.width ∧ mc.table_comb.getD j 0 ≠ 0 ∧
      den mc (mc.table_comb.getD j 0) = pmpow (phatOf mc) mc.width 2 (2 ^ j))
    (hdet : multmodp mc (mc.table_comb.getD (mc.table_comb.length - 1) 0)
        (mc.table_comb.getD (mc.table_comb.length - 1) 0) =
      some (mc.table_comb.getD mc.back.toNat 0)) :
    0 ≤ x8n_start mc ∧ (x8n_start mc).toNat < mc.table_comb.length ∧
    den mc (mc.table_comb.getD (x8n_start mc).toNat 0) =
      pmpow (phatOf mc) mc.width 2 8 := by
  have hw1 : 1 ≤ mc.width := by omega
  have hbit : (phatOf mc).testBit mc.width = true :=
    phat_bit (punref_lt mc hw1 hw64 hpoly)
  have hsz : phatOf mc < 2 ^ (mc.width + 1) := phat_lt (punref_lt mc hw1 hw64 hpoly)
  have h2w : (2 : Nat) < 2 ^ mc.width :=
    lt_of_lt_of_le (by norm_num : (2 : Nat) < 2 ^ 2)
      (Nat.pow_le_pow_right (by norm_num) hw2)
  have hL1 : 1 ≤ mc.table_comb.length := List.length_pos.mpr hne
  have hadd11 : pmpow (phatOf mc) mc.width 2 2 =
      pmul (phatOf mc) mc.width (pmpow (phatOf mc) mc.width 2 1)
        (pmpow (phatOf mc) mc.width 2 1) := by
    rw [(by norm_num : (2 : Nat) = 1 + 1)]
    exact pmpow_add hw1 hw64 hbit hsz h2w 1 1
  have hadd22 : pmpow (phatOf mc) mc.width 2 4 =
      pmul (phatOf mc) mc.width (pmpow (phatOf mc) mc.width 2 2)
        (pmpow (phatOf mc) mc.width 2 2) := by
    rw [(by norm_num : (4 : Nat) = 2 + 2)]
    exact pmpow_add hw1 hw64 hbit hsz h2w 2 2
  have hadd44 : pmpow (phatOf mc) mc.width 2 8 =
      pmul (phatOf mc) mc.width (pmpow (phatOf mc) mc.width 2 4)
        (pmpow (phatOf mc) mc.width 2 4) := by
    rw [(by norm_num : (8 : Nat) = 4 + 4)]
    exact pmpow_add hw1 hw64 hbit hsz h2w 4 4
  have hdetden : den mc (mc.table_comb.getD mc.back.toNat 0) =
      pmpow (phatOf mc) mc.width 2 (2 ^ (mc.table_comb.length - 1) +
        2 ^ (mc.table_comb.length - 1)) := by
    obtain ⟨hlt, hne0, hden⟩ := htab (mc.table_comb.length - 1) (by omega)
    obtain ⟨r, hr, hrlt, hrden⟩ :=
      multmodp_pm mc (mc.table_comb.getD (mc.table_comb.length - 1) 0)
        (mc.table_comb.getD (mc.table_comb.length - 1) 0) hw1 hw64 hpoly hlt hlt hne0
    rw [hdet] at hr
    injection hr with hr
    subst hr
    rw [hrden, hden, ← pmpow_add hw1 hw64 hbit hsz h2w]
  rw [x8n_start, hcyc]
  by_cases h4 : mc.table_comb.length > 3
  · rw [if_pos h4]
    refine ⟨by norm_num, by rw [(by rfl : ((3 : Int)).toNat = 3)]; omega, ?_⟩
    rw [(by rfl : ((3 : Int)).toNat = 3), (htab 3 (by omega)).2.2]
    norm_num
  · rw [if_neg h4]
    by_cases h3 : mc.table_comb.length = 3
    · rw [if_pos (by omega)]
      refine ⟨hback0, hbacklt, ?_⟩
      rw [hdetden, h3]
      norm_num
    · rw [if_neg (by omega)]
      have htn : ((mc.table_comb.length : Int) - 1).toNat = mc.table_comb.length - 1 := by
        omega
      refine ⟨by omega, by omega, ?_⟩
      rw [htn]
      have hL2 : mc.table_comb.length = 1 ∨ mc.table_comb.length = 2 := by omega
      rcases hL2 with hL | hL
      · -- cycle 1: the table holds x^2 and squaring stays there
        have hb0 : mc.back.toNat = 0 := by omega
        rw [hb0] at hdetden
        have hden0 := (htab 0 (by omega)).2.2
        rw [Nat.pow_zero] at hden0
        rw [hL] at hdetden
        simp only [Nat.sub_self] at hdetden
        rw [hden0, (by norm_num : 2 ^ 0 + 2 ^ 0 = 2)] at hdetden
        -- hdetden : pmpow 1 = pmpow 2
        have hE4 : pmpow (phatOf mc) mc.width 2 4 = pmpow (phatOf mc) mc.width 2 2 := by
          rw [hadd22, ← hdetden, ← hadd11]
          exact hdetden.symm
        rw [hL]
        simp only [Nat.sub_self]
        rw [hden0, hadd44, hE4, ← hadd22, hE4, ← hdetden]
      · -- cycle 2: x^8 collapses onto the second entry
        have hden1 := (htab 1 (by omega)).2.2
        rw [Nat.pow_one] at hden1
        rw [hL] at hdetden
        simp only [(by norm_num : (2 : Nat) - 1 = 1)] at hdetden
        rw [(by norm_num : 2 ^ 1 + 2 ^ 1 = 4)] at hdetden
        -- hdetden : den (T back) = pmpow 4
        have hb01 : mc.back.toNat = 0 ∨ mc.back.toNat = 1 := by omega
        rw [hL]
        simp only [(by norm_num : (2 : Nat) - 1 = 1)]
        rw [hden1]
        rcases hb01 with hb | hb <;> rw [hb] at hdetden
        · -- back 0 : pmpow 4 = pmpow 1
          have hden0 := (htab 0 (by omega)).2.2
          rw [Nat.pow_zero] at hden0
          rw [hden0] at hdetden
          rw [hadd44, ← hdetden, ← hadd11]
        · -- back 1 : pmpow 4 = pmpow 2
          rw [hden1] at hdetden
          rw [hadd44, ← hdetden, ← hadd22]
          exact hdetden

set_option maxRecDepth 100000 in
set_option maxHeartbeats 2000000 in
/-- C2: for every normalised model whose combination table was built by
crc_table_combine with the squaring cycle detected (back not -1),
crc_combine applied to the bit-wise engine CRCs of B1 and B2 with len2
the length of B2 returns the engine CRC of B1 ++ B2; in particular for
the CRC-32/ISO-HDLC model, combining the CRCs of "12345" and "6789"
with len2 = 4 yields 0xcbf43926. -/
theorem crc_combine_correct (m mc : model_t) (nmax : Nat) (B1 B2 : List Nat)
    (hw2 : 2 ≤ m.width) (hw64 : m.width ≤ 64)
    (hpoly : m.poly < 2 ^ m.width) (hinit : m.init < 2 ^ m.width)
    (hxo : m.xorout < 2 ^ m.width)
    (hodd : (punref m).testBit 0 = true)
    (hb1 : ∀ b ∈ B1, b < 256) (hb2 : ∀ b ∈ B2, b < 256)
    (hlen : B2.length < 2 ^ 64)
    (hbuild : crc_table_combine m nmax = some mc)
    (hback : 0 ≤ mc.back) :
    crc_combine mc (crc_bitwise mc mc.init (some B1))
        (crc_bitwise mc mc.init (some B2)) B2.length =
      some (crc_bitwise mc mc.init (some (B1 ++ B2))) ∧
    (crc_table_combine mISO 67).bind (fun mi =>
        crc_combine mi (crc_bitwise mi mi.init (some [49, 50, 51, 52, 53]))
          (crc_bitwise mi mi.init (some [54, 55, 56, 57])) 4) =
      some 0xcbf43926 := by
  constructor
  · rw [crc_table_combine] at hbuild
    obtain ⟨hW, hP, hR, hV, hI, hX, hcyc, hne, hhead, hchain, hbacklt, hdet⟩ :=
      combGo_ok m (nmax - 1) _ _ mc hbuild (by simp) (List.getLast?_singleton _)
        (by intro j hj; simp at hj) hback
    have hw2c : 2 ≤ mc.width := by rw [hW]; exact hw2
    have hw64c : mc.width ≤ 64 := by rw [hW]; exact hw64
    have hw1c : 1 ≤ mc.width := by omega
    have hpolyc : mc.poly < 2 ^ mc.width := by rw [hP, hW]; exact hpoly
    have hinitc : mc.init < 2 ^ mc.width := by rw [hI, hW]; exact hinit
    have hxoc : mc.xorout < 2 ^ mc.width := by rw [hX, hW]; exact hxo
    have hoddc : (punref mc).testBit 0 = true := by
      rw [punref, hR, hP, hW, ← punref]
      exact hodd
    have h2wc : (2 : Nat) < 2 ^ mc.width :=
      lt_of_lt_of_le (by norm_num : (2 : Nat) < 2 ^ 2)
        (Nat.pow_le_pow_right (by norm_num) hw2c)
    have hpow64c : (2 : Nat) ^ mc.width ≤ 2 ^ 64 :=
      Nat.pow_le_pow_right (by norm_num) hw64c
    have hbitc : (phatOf mc).testBit mc.width = true :=
      phat_bit (punref_lt mc hw1c hw64c hpolyc)
    have hszc : phatOf mc < 2 ^ (mc.width + 1) := phat_lt (punref_lt mc hw1c hw64c hpolyc)
    have hchainc : ∀ j, j + 1 < mc.table_comb.length →
        multmodp mc (mc.table_comb.getD j 0) (mc.table_comb.getD j 0) =
          some (mc.table_comb.getD (j + 1) 0) := by
      intro j hj
      rw [multmodp_congr m mc hP hW hR]
      exact hchain j hj
    have hdetc : multmodp mc (mc.table_comb.getD (mc.table_comb.length - 1) 0)
        (mc.table_comb.getD (mc.table_comb.length - 1) 0) =
        some (mc.table_comb.getD mc.back.toNat 0) := by
      rw [multmodp_congr m mc hP hW hR]
      exact hdet
    have hsq0 : mc.table_comb.getD 0 0 =
        (if mc.ref then shl64 1 (mc.width - 2) else 2) := by
      rw [hR, hW]
      exact hhead
    have hsqf : (if mc.ref then shl64 1 (mc.width - 2) else 2) < 2 ^ mc.width ∧
        den mc (if mc.ref then shl64 1 (mc.width - 2) else 2) = 2 := by
      rcases Bool.eq_false_or_eq_true mc.ref with hrf | hrf <;>
        rw [den, hrf] <;>
        simp only [if_true, Bool.false_eq_true, if_false]
      · have hsh : shl64 1 (mc.width - 2) = 2 ^ (mc.width - 2) :=
          shl64_one_pow (by omega)
        rw [hsh, reverse_pow (by omega) hw64c,
          (by omega : mc.width - 1 - (mc.width - 2) = 1)]
        exact ⟨Nat.pow_lt_pow_right (by norm_num) (by omega), by norm_num⟩
      · exact ⟨by omega, trivial⟩
    have hheadden : den mc (mc.table_comb.getD 0 0) =
        pmpow (phatOf mc) mc.width 2 1 := by
      rw [hsq0, hsqf.2]
      exact (pmpow_one hw2c hw64c hbitc hszc).symm
    have htab := chain_den mc hw2c hw64c hpolyc hoddc hchainc
      (by rw [hsq0]; exact hsqf.1) hheadden
    have hent : ∀ j, j < mc.table_comb.length →
        mc.table_comb.getD j 0 < 2 ^ mc.width ∧ mc.table_comb.getD j 0 ≠ 0 :=
      fun j hj => ⟨(htab j hj).1, (htab j hj).2.1⟩
    have hnext : ∀ j, j < mc.table_comb.length →
        multmodp mc (mc.table_comb.getD j 0) (mc.table_comb.getD j 0) =
          some (mc.table_comb.getD
            (if j + 1 = mc.table_comb.length then mc.back.toNat else j + 1) 0) := by
      intro j hj
      by_cases hje : j + 1 = mc.table_comb.length
      · rw [if_pos hje, (by omega : j = mc.table_comb.length - 1)]
        exact hdetc
      · rw [if_neg hje]
        exact hchainc j (by omega)
    obtain ⟨hs0, hslt, hsden⟩ := start_facts mc hw2c hw64c hpolyc hoddc hcyc hback
      hbacklt hne htab hdetc
    obtain ⟨z, hz, hzlt, hz0, hzden⟩ := x8nmodp_ok mc hw2c hw64c hpolyc hoddc hcyc
      hback hbacklt hent hnext hs0 hslt hsden B2.length hlen
    obtain ⟨P, hPlt, hP2, hPden⟩ := engine_diff mc hw2c hw64c hpolyc hinitc hxoc B1 B2 hb1
    have hC1lt : crc_bitwise mc mc.init (some B1) < 2 ^ mc.width :=
      crc_bitwise_some_lt mc mc.init B1 hw1c hw64c hpolyc hxoc (fun _ => hb1)
    have hC2lt : crc_bitwise mc mc.init (some B2) < 2 ^ mc.width :=
      crc_bitwise_some_lt mc mc.init B2 hw1c hw64c hpolyc hxoc (fun _ => hb2)
    have hdC1 : drev mc (crc_bitwise mc mc.init (some B1) ^^^ mc.init) < 2 ^ mc.width :=
      drev_lt mc hw1c hw64c (xor_lt_two_pow hC1lt hinitc)
    obtain ⟨p, hpmul, hplt, hpden⟩ := multmodp_pm mc z
      (drev mc (crc_bitwise mc mc.init (some B1) ^^^ mc.init))
      hw1c hw64c hpolyc hzlt hdC1 hz0
    have hpP : p = P := by
      apply den_inj mc hw1c hw64c hplt hPlt
      rw [hpden, hPden, hzden]
      exact pmul_comm
        (lt_of_lt_of_le (pmpow_lt hw1c hw64c hbitc hszc h2wc _) hpow64c)
        (lt_of_lt_of_le (den_lt mc hw1c hw64c hdC1) hpow64c)
    rw [crc_combine_eq mc _ _ _ z p hz hpmul]
    congr 1
    rw [drev_xor mc hw1c hw64c, drev_drev mc hw1c hw64c hC2lt, hpP, ← hP2,
      Nat.xor_assoc, Nat.xor_self, Nat.xor_zero]
  · rfl

set_option maxRecDepth 100000 in
set_option maxHeartbeats 2000000 in
/-- Witness for C2 at the CRC-32/ISO-HDLC model with B1 = "12345" and
B2 = "6789". -/
theorem crc_combine_correct_witness :
    (0 : Int) ≤ mISOc.back ∧
    (crc_combine mISOc (crc_bitwise mISOc mISOc.init (some [49, 50, 51, 52, 53]))
        (crc_bitwise mISOc mISOc.init (some [54, 55, 56, 57]))
        ([54, 55, 56, 57] : List Nat).length =
      some (crc_bitwise mISOc mISOc.init
        (some ([49, 50, 51, 52, 53] ++ [54, 55, 56, 57]))) ∧
     (crc_table_combine mISO 67).bind (fun mi =>
        crc_combine mi (crc_bitwise mi mi.init (some [49, 50, 51, 52, 53]))
          (crc_bitwise mi mi.init (some [54, 55, 56, 57])) 4) =
      some 0xcbf43926) :=
  ⟨by decide, crc_combine_correct mISO mISOc 67 [49, 50, 51, 52, 53] [54, 55, 56, 57]
    (by decide) (by decide) (by decide) (by decide) (by decide) (by decide)
    (by decide) (by decide) (by decide) rfl (by decide)⟩
